import Mathlib

/-!
Verification of the structured-text read/patch engine of the trainer-editor
program (src/program.py) against its natural-language specification.

Conventions of the shallow embedding:
* Python strings are modelled as `List Char`; a file read with `readlines`
  is a `List (List Char)` (one entry per physical line, kept verbatim).
* Python `dict`s whose final content matters are modelled as association
  lists with insert-or-replace semantics.
* Functions that raise are modelled with `Except`; the payload records the
  data carried by the raised message.
* Each regular expression in the source is hand-compiled to a deterministic
  matcher over `List Char`.  Greedy pieces (`\s*`, `\w+`, `[^}]*`, ...) are
  compiled to maximal-munch scans: in every pattern of the program each
  greedy piece is followed by a character it can never consume, so the
  backtracking engine and the maximal munch agree.  Lazy pieces (`.+?`,
  `.*?`) are compiled to shortest-first searches.
-/

set_option maxRecDepth 20000

namespace TrainerEditor

/-- Python's `str.strip` whitespace class (ASCII part, the only part used). -/
def isPySpace (c : Char) : Bool :=
  c == ' ' || c == '\t' || c == '\n' || c == '\r' || c == '\x0b' || c == '\x0c'

/-- Python's `str.strip()` on a character list. -/
def pyStrip (s : List Char) : List Char :=
  ((s.dropWhile isPySpace).reverse.dropWhile isPySpace).reverse

/-- Python's `s.split(',')`: split at every comma, keeping empty pieces. -/
def splitOnComma : List Char → List (List Char)
  | [] => [[]]
  | c :: cs =>
    match splitOnComma cs with
    | [] => [[]]
    | p :: ps => if c = ',' then [] :: p :: ps else (c :: p) :: ps

/-- Python's `", ".join`. -/
def joinCommaSpace : List (List Char) → List Char
  | [] => []
  | [t] => t
  | t :: t2 :: ts => t ++ ',' :: ' ' :: joinCommaSpace (t2 :: ts)

/-- Does `pat` occur as a leading segment of `s`?  (`startsL pat s`). -/
def startsL : List Char → List Char → Bool
  | [], _ => true
  | _ :: _, [] => false
  | p :: ps, c :: cs => p == c && startsL ps cs

/-- Python's substring test `needle in hay`. -/
def containsSub (needle : List Char) : List Char → Bool
  | [] => startsL needle []
  | c :: cs => startsL needle (c :: cs) || containsSub needle cs

/-- Substring occurrence as a proposition. -/
def SubOcc (needle hay : List Char) : Prop :=
  ∃ a b, hay = a ++ needle ++ b

/-! ### The character/token codec (program.py lines 6-17, 126-144) -/

/-- The upper-case alphabet the source iterates over when building `charMap`. -/
def upperAlpha : List Char := "ABCDEFGHIJKLMNOPQRSTUVWXYZ".toList

/-- The digit string the source iterates over when building `charMap`. -/
def digitsAlpha : List Char := "0123456789".toList

/-- The `charMap` dict of the source, as an association list in insertion
order.  Keys are token strings (`_A`, `_a`, `_0`, `_SPACE`, ...), values the
display characters.  All keys are distinct, so dict lookup agrees with
first-match lookup on this list. -/
def charMapList : List (List Char × Char) :=
  (upperAlpha.map (fun c => (['_', c], c)))
    ++ (upperAlpha.map (fun c => (['_', c.toLower], c.toLower)))
    ++ (digitsAlpha.map (fun c => (['_', c], c)))
    ++ [("_SPACE".toList, ' '), ("_AMPERSAND".toList, '&'), ("_PERIOD".toList, '.')]

/-- `charMap.get(t)` of the source (`None` when the token is unknown). -/
def charMapGet (t : List Char) : Option Char :=
  (charMapList.find? (fun p => decide (p.1 = t))).map (fun p => p.2)

/-- The `reverseCharMap` dict of the source: display character back to its
token.  Values of `charMapList` are distinct, so the reversed dict agrees
with first-match lookup by second component. -/
def reverseCharMap (c : Char) : Option (List Char) :=
  (charMapList.find? (fun p => decide (p.2 = c))).map (fun p => p.1)

/-- The `_END` sentinel token. -/
def endToken : List Char := "_END".toList

/-- The token-list loop of `encodeTrainerName`: one token per character, the
first unmappable character raises (modelled as `Except.error` carrying that
character). -/
def encodeTokens : List Char → Except Char (List (List Char))
  | [] => Except.ok []
  | c :: cs =>
    match reverseCharMap c with
    | none => Except.error c
    | some t => (encodeTokens cs).map (fun ts => t :: ts)

/-- `encodeTrainerName` (program.py lines 126-134): encode a string into a
comma-separated list of tokens, appending the `_END` sentinel. -/
def encodeTrainerName (name : List Char) : Except Char (List Char) :=
  (encodeTokens name).map (fun ts => joinCommaSpace (ts ++ [endToken]))

/-- The per-token loop of `decodeTrainerName`: strip each piece, stop at an
empty piece or the sentinel, map known tokens, drop unknown ones. -/
def decodeChars : List (List Char) → List Char
  | [] => []
  | tok :: rest =>
    let t := pyStrip tok
    if t = [] ∨ t = endToken then []
    else
      (match charMapGet t with
       | some c => [c]
       | none => []) ++ decodeChars rest

/-- `decodeTrainerName` (program.py lines 136-144): decode a comma-separated
list of name tokens into a string. -/
def decodeTrainerName (tokenStr : List Char) : List Char :=
  decodeChars (splitOnComma tokenStr)

/-- `flagsToUnionAndStruct` (program.py lines 146-156): substring-based flag
membership mapped to the (union selector, struct type) pair. -/
def flagsToUnionAndStruct (flags : List Char) : List Char × List Char :=
  let has_item := containsSub ("PARTY_FLAG_HAS_ITEM".toList) flags
  let custom_moves := containsSub ("PARTY_FLAG_CUSTOM_MOVES".toList) flags
  if has_item && custom_moves then
    (".ItemCustomMoves".toList, "TrainerMonItemCustomMoves".toList)
  else if has_item then
    (".ItemDefaultMoves".toList, "TrainerMonItemDefaultMoves".toList)
  else if custom_moves then
    (".NoItemCustomMoves".toList, "TrainerMonNoItemCustomMoves".toList)
  else
    (".NoItemDefaultMoves".toList, "TrainerMonNoItemDefaultMoves".toList)

example : decodeTrainerName ("_B, _u, _g, _SPACE, _C, _END".toList) = "Bug C".toList := by decide

example : encodeTrainerName ("Bug C".toList) = Except.ok ("_B, _u, _g, _SPACE, _C, _END".toList) := by rfl

example : decodeTrainerName ("_A, XYZ, _B".toList) = "AB".toList := by decide

example : flagsToUnionAndStruct ("0".toList) = (".NoItemDefaultMoves".toList, "TrainerMonNoItemDefaultMoves".toList) := by decide

/-! ### Lemmas about the codec tables -/

theorem charMapKeys_nodup : (charMapList.map (fun p => p.1)).Nodup := by decide

theorem charMapList_clean :
    ∀ p ∈ charMapList, pyStrip p.1 = p.1 ∧ p.1 ≠ [] ∧ p.1 ≠ endToken ∧ ',' ∉ p.1 := by decide

theorem find?_key_eq (l : List (List Char × Char)) (p : List Char × Char)
    (hnd : (l.map (fun q => q.1)).Nodup) (hmem : p ∈ l) :
    l.find? (fun q => decide (q.1 = p.1)) = some p := by
  induction l with
  | nil => cases hmem
  | cons q l ih =>
    rw [List.map_cons, List.nodup_cons] at hnd
    rcases List.mem_cons.mp hmem with h | h
    · subst h
      simp [List.find?]
    · have hq : ¬ (q.1 = p.1) := fun he => hnd.1 (he ▸ List.mem_map_of_mem (fun r => r.1) h)
      simp only [List.find?, decide_eq_false hq]
      exact ih hnd.2 h

theorem reverseCharMap_entry {c : Char} {t : List Char} (h : reverseCharMap c = some t) :
    ∃ p ∈ charMapList, p.1 = t ∧ p.2 = c := by
  unfold reverseCharMap at h
  cases hf : charMapList.find? (fun p => decide (p.2 = c)) with
  | none => rw [hf] at h; cases h
  | some p =>
    rw [hf] at h
    have hp := List.find?_some hf
    have hm := List.mem_of_find?_eq_some hf
    refine ⟨p, hm, ?_, by exact of_decide_eq_true hp⟩
    cases h; rfl

theorem reverseCharMap_props {c : Char} {t : List Char} (h : reverseCharMap c = some t) :
    charMapGet t = some c ∧ pyStrip t = t ∧ t ≠ [] ∧ t ≠ endToken ∧ ',' ∉ t := by
  obtain ⟨p, hmem, h1, h2⟩ := reverseCharMap_entry h
  obtain ⟨hc1, hc2, hc3, hc4⟩ := charMapList_clean p hmem
  subst h1
  refine ⟨?_, hc1, hc2, hc3, hc4⟩
  unfold charMapGet
  rw [find?_key_eq charMapList p charMapKeys_nodup hmem, Option.map_some']
  exact congrArg some h2

/-! ### Lemmas about splitting, stripping and joining -/

theorem splitOnComma_ne_nil (s : List Char) : splitOnComma s ≠ [] := by
  cases s with
  | nil => exact fun h => List.noConfusion h
  | cons c cs =>
    unfold splitOnComma
    cases h : splitOnComma cs with
    | nil => exact fun h => List.noConfusion h
    | cons p ps =>
      by_cases hc : c = ','
      · simp [hc]
      · simp [hc]

theorem splitOnComma_cons_ne {c : Char} (x : List Char) (hc : ¬ (c = ','))
    {p : List Char} {ps : List (List Char)} (h : splitOnComma x = p :: ps) :
    splitOnComma (c :: x) = (c :: p) :: ps := by
  unfold splitOnComma
  rw [h]
  simp [hc]

theorem splitOnComma_append (t r : List Char) (h : ',' ∉ t) :
    splitOnComma (t ++ ',' :: r) = t :: splitOnComma r := by
  induction t with
  | nil =>
    show splitOnComma (',' :: r) = [] :: splitOnComma r
    cases hs : splitOnComma r with
    | nil => exact absurd hs (splitOnComma_ne_nil r)
    | cons p ps =>
      simp only [splitOnComma, hs]
      simp
  | cons c cs ih =>
    have hc : ¬ (c = ',') := fun he => h (he ▸ List.mem_cons_self c cs)
    have ih1 := ih (fun hm => h (List.mem_cons_of_mem c hm))
    exact splitOnComma_cons_ne (cs ++ ',' :: r) hc ih1

theorem pyStrip_cons_space (x : List Char) : pyStrip (' ' :: x) = pyStrip x := by
  unfold pyStrip
  rw [List.dropWhile_cons]
  simp [isPySpace]

theorem joinCommaSpace_cons (t : List Char) (l : List (List Char)) (h : l ≠ []) :
    joinCommaSpace (t :: l) = t ++ ',' :: ' ' :: joinCommaSpace l := by
  cases l with
  | nil => exact absurd rfl h
  | cons a as => rfl

theorem decodeChars_strip_head (a b : List Char) (l : List (List Char))
    (h : pyStrip a = pyStrip b) :
    decodeChars (a :: l) = decodeChars (b :: l) := by
  unfold decodeChars
  rw [h]

/-! ### Claim C3: decode after encode is the identity on mappable strings -/

theorem encodeTokens_total {s : List Char} (h : ∀ c ∈ s, reverseCharMap c ≠ none) :
    ∃ ts, encodeTokens s = Except.ok ts
      ∧ List.Forall₂ (fun c t => reverseCharMap c = some t) s ts := by
  induction s with
  | nil => exact ⟨[], rfl, List.Forall₂.nil⟩
  | cons c cs ih =>
    obtain ⟨ts, h1, h2⟩ := ih (fun x hx => h x (List.mem_cons_of_mem c hx))
    cases hr : reverseCharMap c with
    | none => exact absurd hr (h c (List.mem_cons_self c cs))
    | some t =>
      refine ⟨t :: ts, ?_, List.Forall₂.cons hr h2⟩
      unfold encodeTokens
      rw [hr, h1]
      rfl

theorem decode_encode_aux {s : List Char} {ts : List (List Char)}
    (h : List.Forall₂ (fun c t => reverseCharMap c = some t) s ts) :
    decodeChars (splitOnComma (joinCommaSpace (ts ++ [endToken]))) = s := by
  induction h with
  | nil => decide
  | @cons c t s' ts' hct _ ih =>
    obtain ⟨hget, hstrip, hne, hnend, hnc⟩ := reverseCharMap_props hct
    rw [List.cons_append,
      joinCommaSpace_cons t (ts' ++ [endToken]) (by simp),
      splitOnComma_append t (' ' :: joinCommaSpace (ts' ++ [endToken])) hnc]
    cases hs : splitOnComma (joinCommaSpace (ts' ++ [endToken])) with
    | nil => exact absurd hs (splitOnComma_ne_nil _)
    | cons p ps =>
      rw [splitOnComma_cons_ne _ (by decide) hs]
      show decodeChars (t :: (' ' :: p) :: ps) = c :: s'
      unfold decodeChars
      rw [hstrip, if_neg (by exact fun hor => hor.elim hne hnend), hget]
      rw [decodeChars_strip_head (' ' :: p) p ps (pyStrip_cons_space p)]
      rw [← hs, ih]
      rfl

/-- Claim C3: for every string all of whose characters have an entry in the
character-token map, `decodeTrainerName (encodeTrainerName s)` equals `s`
(encoding succeeds, and decoding its output restores the input). -/
theorem claim3_decode_encode (s : List Char)
    (h : ∀ c ∈ s, reverseCharMap c ≠ none) :
    ∃ out, encodeTrainerName s = Except.ok out ∧ decodeTrainerName out = s := by
  obtain ⟨ts, hok, hf⟩ := encodeTokens_total h
  refine ⟨joinCommaSpace (ts ++ [endToken]), ?_, decode_encode_aux hf⟩
  unfold encodeTrainerName
  rw [hok]
  rfl

/-- Witness for C3 at the concrete name "Bug C". -/
theorem claim3_witness :
    ∃ out, encodeTrainerName ("Bug C".toList) = Except.ok out
      ∧ decodeTrainerName out = "Bug C".toList :=
  claim3_decode_encode ("Bug C".toList) (by decide)

/-! ### Claim C7: encode fails exactly on unmappable characters -/

theorem encodeTokens_error_iff (s : List Char) :
    (∃ e, encodeTokens s = Except.error e) ↔ ∃ c ∈ s, reverseCharMap c = none := by
  induction s with
  | nil =>
    constructor
    · rintro ⟨e, he⟩
      exact Except.noConfusion he
    · rintro ⟨c, hc, _⟩
      cases hc
  | cons c cs ih =>
    cases hr : reverseCharMap c with
    | none =>
      constructor
      · intro _
        exact ⟨c, List.mem_cons_self c cs, hr⟩
      · intro _
        refine ⟨c, ?_⟩
        unfold encodeTokens
        rw [hr]
    | some t =>
      constructor
      · rintro ⟨e, he⟩
        unfold encodeTokens at he
        rw [hr] at he
        cases hcs : encodeTokens cs with
        | error e2 =>
          obtain ⟨x, hx, hxn⟩ := ih.mp ⟨e2, hcs⟩
          exact ⟨x, List.mem_cons_of_mem c hx, hxn⟩
        | ok ts =>
          rw [hcs] at he
          exact Except.noConfusion he
      · rintro ⟨x, hx, hxn⟩
        rcases List.mem_cons.mp hx with he | hm
        · subst he
          rw [hxn] at hr
          cases hr
        · obtain ⟨e2, he2⟩ := ih.mpr ⟨x, hm, hxn⟩
          refine ⟨e2, ?_⟩
          unfold encodeTokens
          rw [hr, he2]
          rfl

theorem encodeTokens_ok_forall2 {s : List Char} {ts : List (List Char)}
    (h : encodeTokens s = Except.ok ts) :
    List.Forall₂ (fun c t => reverseCharMap c = some t) s ts := by
  induction s generalizing ts with
  | nil =>
    cases h
    exact List.Forall₂.nil
  | cons c cs ih =>
    unfold encodeTokens at h
    cases hr : reverseCharMap c with
    | none =>
      rw [hr] at h
      cases h
    | some t =>
      rw [hr] at h
      cases hcs : encodeTokens cs with
      | error e =>
        rw [hcs] at h
        cases h
      | ok ts2 =>
        rw [hcs] at h
        cases h
        exact List.Forall₂.cons hr (ih hcs)

/-- Claim C7: `encodeTrainerName` fails (raising the invalid-character error)
iff some character of the input has no token mapping; the model is a pure
function, so a failure produces no output at all (no partial mutation); on
success the result is the input's tokens in order, with the sentinel token
appended as the last element, joined by ", ". -/
theorem claim7_encode_strict (s : List Char) :
    ((∃ e, encodeTrainerName s = Except.error e) ↔ ∃ c ∈ s, reverseCharMap c = none)
    ∧ ∀ out, encodeTrainerName s = Except.ok out →
        ∃ ts, List.Forall₂ (fun c t => reverseCharMap c = some t) s ts
          ∧ out = joinCommaSpace (ts ++ [endToken]) := by
  constructor
  · rw [← encodeTokens_error_iff]
    unfold encodeTrainerName
    constructor
    · rintro ⟨e, he⟩
      cases hcs : encodeTokens s with
      | error e2 => exact ⟨e2, rfl⟩
      | ok ts =>
        rw [hcs] at he
        exact Except.noConfusion he
    · rintro ⟨e, he⟩
      refine ⟨e, ?_⟩
      rw [he]
      rfl
  · intro out hout
    unfold encodeTrainerName at hout
    cases hcs : encodeTokens s with
    | error e =>
      rw [hcs] at hout
      cases hout
    | ok ts =>
      rw [hcs] at hout
      cases hout
      exact ⟨ts, encodeTokens_ok_forall2 hcs, rfl⟩

/-- Witness for C7: encoding a name with the unmappable character £ fails. -/
theorem claim7_witness :
    ∃ e, encodeTrainerName ("A£".toList) = Except.error e :=
  (claim7_encode_strict ("A£".toList)).1.mpr ⟨'£', by decide, by decide⟩

/-! ### Claim C8: the flag-to-variant table -/

theorem startsL_iff (pat : List Char) : ∀ s, startsL pat s = true ↔ ∃ r, s = pat ++ r := by
  induction pat with
  | nil =>
    intro s
    simp [startsL]
  | cons p ps ih =>
    intro s
    cases s with
    | nil =>
      simp [startsL]
    | cons c cs =>
      simp only [startsL, Bool.and_eq_true, beq_iff_eq]
      constructor
      · rintro ⟨he, hs⟩
        obtain ⟨r, hr⟩ := (ih cs).mp hs
        refine ⟨r, ?_⟩
        rw [hr, he]
        rfl
      · rintro ⟨r, hr⟩
        injection hr with h1 h2
        exact ⟨h1.symm, (ih cs).mpr ⟨r, h2⟩⟩

theorem containsSub_iff (needle hay : List Char) :
    containsSub needle hay = true ↔ SubOcc needle hay := by
  induction hay with
  | nil =>
    show startsL needle [] = true ↔ SubOcc needle []
    rw [startsL_iff]
    constructor
    · rintro ⟨r, hr⟩
      exact ⟨[], r, hr⟩
    · rintro ⟨a, b, hab⟩
      cases a with
      | cons x xs => cases hab
      | nil => exact ⟨b, hab⟩
  | cons c cs ih =>
    simp only [containsSub, Bool.or_eq_true]
    rw [startsL_iff, ih]
    constructor
    · rintro (⟨r, hr⟩ | ⟨a, b, hab⟩)
      · exact ⟨[], r, hr⟩
      · refine ⟨c :: a, b, ?_⟩
        rw [hab]
        rfl
    · rintro ⟨a, b, hab⟩
      cases a with
      | nil => exact Or.inl ⟨b, hab⟩
      | cons x xs =>
        injection hab with h1 h2
        exact Or.inr ⟨xs, b, h2⟩

/-- Claim C8 (amended): `flagsToUnionAndStruct` is a pure total function of
the raw flags string, testing each flag by substring containment of its full
symbolic name; the four presence combinations map to the table of §4.6,
except that each union selector is written with a leading member-access dot
(".ItemCustomMoves", not "ItemCustomMoves"). -/
theorem claim8_flags_table (flags : List Char) :
    (SubOcc ("PARTY_FLAG_HAS_ITEM".toList) flags →
      SubOcc ("PARTY_FLAG_CUSTOM_MOVES".toList) flags →
      flagsToUnionAndStruct flags
        = (".ItemCustomMoves".toList, "TrainerMonItemCustomMoves".toList))
    ∧ (SubOcc ("PARTY_FLAG_HAS_ITEM".toList) flags →
      ¬ SubOcc ("PARTY_FLAG_CUSTOM_MOVES".toList) flags →
      flagsToUnionAndStruct flags
        = (".ItemDefaultMoves".toList, "TrainerMonItemDefaultMoves".toList))
    ∧ (¬ SubOcc ("PARTY_FLAG_HAS_ITEM".toList) flags →
      SubOcc ("PARTY_FLAG_CUSTOM_MOVES".toList) flags →
      flagsToUnionAndStruct flags
        = (".NoItemCustomMoves".toList, "TrainerMonNoItemCustomMoves".toList))
    ∧ (¬ SubOcc ("PARTY_FLAG_HAS_ITEM".toList) flags →
      ¬ SubOcc ("PARTY_FLAG_CUSTOM_MOVES".toList) flags →
      flagsToUnionAndStruct flags
        = (".NoItemDefaultMoves".toList, "TrainerMonNoItemDefaultMoves".toList)) := by
  have hdef : flagsToUnionAndStruct flags
      = if containsSub ("PARTY_FLAG_HAS_ITEM".toList) flags
            && containsSub ("PARTY_FLAG_CUSTOM_MOVES".toList) flags then
          (".ItemCustomMoves".toList, "TrainerMonItemCustomMoves".toList)
        else if containsSub ("PARTY_FLAG_HAS_ITEM".toList) flags then
          (".ItemDefaultMoves".toList, "TrainerMonItemDefaultMoves".toList)
        else if containsSub ("PARTY_FLAG_CUSTOM_MOVES".toList) flags then
          (".NoItemCustomMoves".toList, "TrainerMonNoItemCustomMoves".toList)
        else
          (".NoItemDefaultMoves".toList, "TrainerMonNoItemDefaultMoves".toList) := rfl
  have hfalse : ∀ needle, ¬ SubOcc needle flags → containsSub needle flags = false := by
    intro needle hn
    cases hcb : containsSub needle flags with
    | false => rfl
    | true => exact absurd ((containsSub_iff needle flags).mp hcb) hn
  refine ⟨fun a b => ?_, fun a b => ?_, fun a b => ?_, fun a b => ?_⟩
  · rw [hdef, (containsSub_iff ("PARTY_FLAG_HAS_ITEM".toList) flags).mpr a,
      (containsSub_iff ("PARTY_FLAG_CUSTOM_MOVES".toList) flags).mpr b]
    rfl
  · rw [hdef, (containsSub_iff ("PARTY_FLAG_HAS_ITEM".toList) flags).mpr a, hfalse _ b]
    rfl
  · rw [hdef, hfalse _ a, (containsSub_iff ("PARTY_FLAG_CUSTOM_MOVES".toList) flags).mpr b]
    rfl
  · rw [hdef, hfalse _ a, hfalse _ b]
    rfl

/-- Counterexample to C8 as stated: the union selector returned by the code
carries a leading dot, so it is not the bare selector name the §4.6 table
lists. -/
theorem claim8_counterexample :
    flagsToUnionAndStruct ("0".toList)
      = (".NoItemDefaultMoves".toList, "TrainerMonNoItemDefaultMoves".toList)
    ∧ (flagsToUnionAndStruct ("0".toList)).1 ≠ "NoItemDefaultMoves".toList := by
  exact ⟨by decide, by decide⟩

/-- Witness for C8 amended, at the flags expression "0". -/
theorem claim8_witness :
    flagsToUnionAndStruct ("0".toList)
      = (".NoItemDefaultMoves".toList, "TrainerMonNoItemDefaultMoves".toList) :=
  (claim8_flags_table ("0".toList)).2.2.2
    (fun h => absurd ((containsSub_iff _ _).mpr h) (by decide))
    (fun h => absurd ((containsSub_iff _ _).mpr h) (by decide))

/-! ### Claim C10: decode is total and permissive -/

theorem decodeChars_cons (tok : List Char) (rest : List (List Char)) :
    decodeChars (tok :: rest)
      = if pyStrip tok = [] ∨ pyStrip tok = endToken then []
        else
          (match charMapGet (pyStrip tok) with
           | some c => [c]
           | none => []) ++ decodeChars rest := rfl

/-- Claim C10 (amended): `decodeTrainerName` is total — for every input it
consumes the comma-separated pieces in order, stops at the first piece that
strips to the empty string or to the sentinel, maps each recognized token to
its character, and silently drops unrecognized non-empty tokens while
continuing past them (they decode to nothing, not to an error, and do not
stop the scan). -/
theorem claim10_decode_total (s : List Char) :
    decodeTrainerName s
      = ((splitOnComma s).takeWhile
            (fun t => !(pyStrip t == [] || pyStrip t == endToken))).filterMap
          (fun t => charMapGet (pyStrip t)) := by
  unfold decodeTrainerName
  generalize splitOnComma s = ps
  induction ps with
  | nil => rfl
  | cons tok rest ih =>
    rw [decodeChars_cons, List.takeWhile_cons]
    by_cases hstop : pyStrip tok = [] ∨ pyStrip tok = endToken
    · have hb : (!(pyStrip tok == [] || pyStrip tok == endToken)) = false := by
        rcases hstop with h | h <;> simp [h]
      rw [if_pos hstop, hb, if_neg (by simp)]
      rfl
    · have hb : (!(pyStrip tok == [] || pyStrip tok == endToken)) = true := by
        simp only [Bool.not_eq_true', Bool.or_eq_false_iff, beq_eq_false_iff_ne, ne_eq]
        exact ⟨fun h => hstop (Or.inl h), fun h => hstop (Or.inr h)⟩
      rw [if_neg hstop, hb, if_pos rfl]
      rw [List.filterMap_cons, ih]
      cases hg : charMapGet (pyStrip tok) with
      | none => rfl
      | some c => rfl

/-- Counterexample to C10 as stated: the decoder does not stop at the first
unrecognized token; on "_A, XYZ, _B" it skips the unknown token "XYZ" and
keeps decoding, producing "AB" rather than the "A" that stopping would give. -/
theorem claim10_counterexample :
    decodeTrainerName ("_A, XYZ, _B".toList) = "AB".toList
    ∧ decodeTrainerName ("_A, XYZ, _B".toList) ≠ "A".toList := by
  exact ⟨by decide, by decide⟩

/-! ### Hand-compiled regex matchers

Each matcher consumes a pattern at the head of its input and returns the
captured pieces together with the unconsumed remainder.  `firstHit` turns a
head matcher into `re.search` (leftmost match), `subAllF` into `re.sub`
(replace every non-overlapping match, resuming after each replacement). -/

/-- The regex class `\s` (same ASCII set as Python's default strip). -/
def isWs (c : Char) : Bool := isPySpace c

/-- The regex class `\w` on ASCII input. -/
def isWord (c : Char) : Bool := c.isAlpha || c.isDigit || c == '_'

/-- Match a literal string at the front, returning the remainder. -/
def dropLit : List Char → List Char → Option (List Char)
  | [], s => some s
  | _ :: _, [] => none
  | p :: ps, c :: cs => if p = c then dropLit ps cs else none

/-- Greedy nonempty run of characters of class `cl` (`X+`), as (run, rest). -/
def spanClass1 (cl : Char → Bool) (s : List Char) : Option (List Char × List Char) :=
  if (s.takeWhile cl).isEmpty then none else some (s.takeWhile cl, s.dropWhile cl)

/-- `re.search` as a Boolean: does the matcher succeed at some position? -/
def searchSome (m : List Char → Option α) : List Char → Bool
  | [] => (m []).isSome
  | c :: cs => (m (c :: cs)).isSome || searchSome m cs

/-- Leftmost match: the text before the match position, and the match value. -/
def firstHit (m : List Char → Option α) : List Char → Option (List Char × α)
  | [] =>
    match m [] with
    | some a => some ([], a)
    | none => none
  | c :: cs =>
    match m (c :: cs) with
    | some a => some ([], a)
    | none => (firstHit m cs).map (fun pa => (c :: pa.1, pa.2))

/-- `re.sub`: replace every non-overlapping match, scanning left to right.
The matcher returns the full replacement text and the remainder after the
matched span.  `fuel` bounds the recursion; every pattern of the program
consumes at least one character per match, so `s.length` fuel is exact. -/
def subAllF (m : List Char → Option (List Char × List Char)) : Nat → List Char → List Char
  | 0, s => s
  | _ + 1, [] => []
  | n + 1, c :: cs =>
    match m (c :: cs) with
    | some (rep, rest) => rep ++ subAllF m n rest
    | none => c :: subAllF m n cs

/-- Group 3 `(,?)`: an optional comma. -/
def optComma : List Char → List Char × List Char
  | ',' :: r => ([','], r)
  | s => ([], s)

/-- The alternation `(TRUE|FALSE)`, leftmost alternative first. -/
def altTF (s : List Char) : Option (List Char × List Char) :=
  match dropLit ("TRUE".toList) s with
  | some r => some ("TRUE".toList, r)
  | none =>
    match dropLit ("FALSE".toList) s with
    | some r => some ("FALSE".toList, r)
    | none => none

/-- Matcher for the escaped record-open pattern `\[<id>\]\s*=\s*\{` used by
the patch writers (`re.escape` makes the id a literal). -/
def patIdLitAt (tid : List Char) (s : List Char) : Option (List Char) := do
  let r1 ← dropLit ('[' :: tid ++ [']']) s
  let r2 ← dropLit ['='] (r1.dropWhile isWs)
  dropLit ['{'] (r2.dropWhile isWs)

/-- Matcher for `(\.trainerName\s*=\s*\{)([^}]*)(\})`: the three groups and
the remainder after the match. -/
def patName3At (s : List Char) : Option (List Char × List Char × List Char × List Char) := do
  let r1 ← dropLit (".trainerName".toList) s
  let w1 := r1.takeWhile isWs
  let r2 ← dropLit ['='] (r1.dropWhile isWs)
  let w2 := r2.takeWhile isWs
  let r3 ← dropLit ['{'] (r2.dropWhile isWs)
  let body := r3.takeWhile (fun c => !(c == '}'))
  let r4 ← dropLit ['}'] (r3.dropWhile (fun c => !(c == '}')))
  pure (".trainerName".toList ++ w1 ++ ['='] ++ w2 ++ ['{'], body, ['}'], r4)

/-- Matcher for `(\.gender\s*=\s*)(GENDER_[A-Z]+)(,?)`.  The parse-side
pattern `\.gender\s*=\s*(GENDER_[A-Z]+)` matches exactly when this does and
captures group 2, so both uses share this matcher. -/
def patGender3At (s : List Char) : Option (List Char × List Char × List Char × List Char) := do
  let r1 ← dropLit (".gender".toList) s
  let w1 := r1.takeWhile isWs
  let r2 ← dropLit ['='] (r1.dropWhile isWs)
  let w2 := r2.takeWhile isWs
  let r3 ← dropLit ("GENDER_".toList) (r2.dropWhile isWs)
  let (caps, r4) ← spanClass1 (fun c => c.isUpper) r3
  let (comma, r5) := optComma r4
  pure (".gender".toList ++ w1 ++ ['='] ++ w2, "GENDER_".toList ++ caps, comma, r5)

/-- Matcher for `(\.doubleBattle\s*=\s*)(TRUE|FALSE)(,?)` (also used for the
parse-side pattern without the comma group). -/
def patDouble3At (s : List Char) : Option (List Char × List Char × List Char × List Char) := do
  let r1 ← dropLit (".doubleBattle".toList) s
  let w1 := r1.takeWhile isWs
  let r2 ← dropLit ['='] (r1.dropWhile isWs)
  let w2 := r2.takeWhile isWs
  let (tf, r3) ← altTF (r2.dropWhile isWs)
  let (comma, r4) := optComma r3
  pure (".doubleBattle".toList ++ w1 ++ ['='] ++ w2, tf, comma, r4)

/-- Matcher for `(\.partyFlags\s*=\s*)([^,]+)(,?)` (also used for the
parse-side pattern without the comma group).  If the maximal `[^,]+` run
after the maximal `\s*` run would be empty, the engine backtracks `\s*` by
one character (whitespace is itself in `[^,]`), which is the only
backtracking any pattern of the program can perform. -/
def patFlags3At (s : List Char) : Option (List Char × List Char × List Char × List Char) := do
  let r1 ← dropLit (".partyFlags".toList) s
  let w1 := r1.takeWhile isWs
  let r2 ← dropLit ['='] (r1.dropWhile isWs)
  let w2 := r2.takeWhile isWs
  let afterWs := r2.dropWhile isWs
  let body := afterWs.takeWhile (fun c => !(c == ','))
  if body.isEmpty then
    match w2.reverse with
    | [] => none
    | wlast :: wrest =>
      let (comma, r5) := optComma afterWs
      pure (".partyFlags".toList ++ w1 ++ ['='] ++ wrest.reverse, [wlast], comma, r5)
  else
    let (comma, r5) := optComma (afterWs.dropWhile (fun c => !(c == ',')))
    pure (".partyFlags".toList ++ w1 ++ ['='] ++ w2, body, comma, r5)

/-- Matcher for `(\.items\s*=\s*\{)([^}]*)(\})` (also used for the
parse-side pattern). -/
def patItems3At (s : List Char) : Option (List Char × List Char × List Char × List Char) := do
  let r1 ← dropLit (".items".toList) s
  let w1 := r1.takeWhile isWs
  let r2 ← dropLit ['='] (r1.dropWhile isWs)
  let w2 := r2.takeWhile isWs
  let r3 ← dropLit ['{'] (r2.dropWhile isWs)
  let body := r3.takeWhile (fun c => !(c == '}'))
  let r4 ← dropLit ['}'] (r3.dropWhile (fun c => !(c == '}')))
  pure (".items".toList ++ w1 ++ ['='] ++ w2 ++ ['{'], body, ['}'], r4)

/-- Matcher for `(\.party\s*=\s*\{\s*)(\.\w+)(\s*=\s*sParty_[A-Za-z0-9_]+)`
(the union-selector rewrite pattern). -/
def patUnion3At (s : List Char) : Option (List Char × List Char × List Char × List Char) := do
  let r1 ← dropLit (".party".toList) s
  let w1 := r1.takeWhile isWs
  let r2 ← dropLit ['='] (r1.dropWhile isWs)
  let w2 := r2.takeWhile isWs
  let r3 ← dropLit ['{'] (r2.dropWhile isWs)
  let w3 := r3.takeWhile isWs
  let r4 ← dropLit ['.'] (r3.dropWhile isWs)
  let (word, r5) ← spanClass1 isWord r4
  let w4 := r5.takeWhile isWs
  let r6 ← dropLit ['='] (r5.dropWhile isWs)
  let w5 := r6.takeWhile isWs
  let r7 ← dropLit ("sParty_".toList) (r6.dropWhile isWs)
  let (tail, r8) ← spanClass1 isWord r7
  pure (".party".toList ++ w1 ++ ['='] ++ w2 ++ ['{'] ++ w3,
    '.' :: word,
    w4 ++ ['='] ++ w5 ++ "sParty_".toList ++ tail,
    r8)

/-- Matcher for the parse-side pattern
`\.party\s*=\s*\{[^=]*=\s*(sParty_[A-Za-z0-9_]+)`: captures the roster name. -/
def patPartyCapAt (s : List Char) : Option (List Char) := do
  let r1 ← dropLit (".party".toList) s
  let r2 ← dropLit ['='] (r1.dropWhile isWs)
  let r3 ← dropLit ['{'] (r2.dropWhile isWs)
  let r4 ← dropLit ['='] (r3.dropWhile (fun c => !(c == '=')))
  let r5 ← dropLit ("sParty_".toList) (r4.dropWhile isWs)
  let (tail, _) ← spanClass1 isWord r5
  pure ("sParty_".toList ++ tail)

/-- The close test of `\]\s*=\s*\{` after the lazy id group. -/
def idCloseAt (s : List Char) : Option (List Char) := do
  let r1 ← dropLit [']'] s
  let r2 ← dropLit ['='] (r1.dropWhile isWs)
  dropLit ['{'] (r2.dropWhile isWs)

/-- The lazy group `(.+?)` of the scanner's record-open pattern: the
shortest nonempty run of non-newline characters after which `\]\s*=\s*\{`
matches (shortest extension tried first, as the lazy quantifier does). -/
def idCapGo : List Char → List Char → Option (List Char)
  | _, [] => none
  | acc, c :: cs =>
    if c = '\n' then none
    else if (idCloseAt cs).isSome then some (acc ++ [c])
    else idCapGo (acc ++ [c]) cs

/-- Matcher for the scanner's record-open pattern `\[(.+?)\]\s*=\s*\{`,
capturing the (unstripped) id group. -/
def patIdCapAt (s : List Char) : Option (List Char) := do
  let r1 ← dropLit ['['] s
  idCapGo [] r1

/-! ### The patch writers (program.py lines 240-305, 67-104) -/

/-- One substitution step for `pattern_name.sub(rf"\1 {tokenStr} \3", line)`. -/
def subNameRep (tokenStr : List Char) (s : List Char) : Option (List Char × List Char) :=
  (patName3At s).map (fun g => (g.1 ++ ' ' :: tokenStr ++ ' ' :: g.2.2.1, g.2.2.2))

/-- The line loop of `rewriteTrainerName`: before the id line, every line is
copied; after it, the first line whose text matches the name pattern is
substituted and the loop breaks; there is no record-close test. -/
def rewriteNameGo (tid tokenStr : List Char) : Bool → List (List Char) → List (List Char)
  | _, [] => []
  | false, l :: ls =>
    l :: rewriteNameGo tid tokenStr (searchSome (patIdLitAt tid) l) ls
  | true, l :: ls =>
    if searchSome patName3At l then
      subAllF (subNameRep tokenStr) l.length l :: ls
    else
      l :: rewriteNameGo tid tokenStr true ls

/-- `rewriteTrainerName` (program.py lines 240-257), on the file's lines. -/
def rewriteTrainerName (lines : List (List Char)) (tid tokenStr : List Char) :
    List (List Char) :=
  rewriteNameGo tid tokenStr false lines

/-- `line.strip().startswith('},')`: the record-close test of the options
writer and of the scanner. -/
def closeStart (l : List Char) : Bool := startsL ("\x7d,".toList) (pyStrip l)

/-- Substitution step `\1{gender}\3` for the gender pattern. -/
def subGenderRep (gender : List Char) (s : List Char) : Option (List Char × List Char) :=
  (patGender3At s).map (fun g => (g.1 ++ gender ++ g.2.2.1, g.2.2.2))

/-- Substitution step `\1{val}\3` for the double-battle pattern. -/
def subDoubleRep (dbl : Bool) (s : List Char) : Option (List Char × List Char) :=
  (patDouble3At s).map
    (fun g => (g.1 ++ (if dbl then "TRUE".toList else "FALSE".toList) ++ g.2.2.1, g.2.2.2))

/-- Substitution step `\1{partyFlags}\3` for the flags pattern. -/
def subFlagsRep (partyFlags : List Char) (s : List Char) : Option (List Char × List Char) :=
  (patFlags3At s).map (fun g => (g.1 ++ partyFlags ++ g.2.2.1, g.2.2.2))

/-- Substitution step `\1{items_str}\3` for the items pattern, where
`items_str = ', '.join(items)`. -/
def subItemsRep (items : List (List Char)) (s : List Char) : Option (List Char × List Char) :=
  (patItems3At s).map (fun g => (g.1 ++ joinCommaSpace items ++ g.2.2.1, g.2.2.2))

/-- Substitution step `\1{union}\3` for the union-selector pattern. -/
def subUnionRep (union : List Char) (s : List Char) : Option (List Char × List Char) :=
  (patUnion3At s).map (fun g => (g.1 ++ union ++ g.2.2.1, g.2.2.2))

/-- The line loop of `rewriteTrainerOptions`: before the id line every line
is copied; after it each line is tried against the five field patterns in
order (substituting and continuing on the first that matches), and a line
matching none of them that starts (stripped) with "}," breaks the loop. -/
def rewriteOptsGo (tid gender : List Char) (dbl : Bool) (partyFlags : List Char)
    (items : List (List Char)) : Bool → List (List Char) → List (List Char)
  | _, [] => []
  | false, l :: ls =>
    l :: rewriteOptsGo tid gender dbl partyFlags items (searchSome (patIdLitAt tid) l) ls
  | true, l :: ls =>
    if searchSome patGender3At l then
      subAllF (subGenderRep gender) l.length l
        :: rewriteOptsGo tid gender dbl partyFlags items true ls
    else if searchSome patDouble3At l then
      subAllF (subDoubleRep dbl) l.length l
        :: rewriteOptsGo tid gender dbl partyFlags items true ls
    else if searchSome patFlags3At l then
      subAllF (subFlagsRep partyFlags) l.length l
        :: rewriteOptsGo tid gender dbl partyFlags items true ls
    else if searchSome patItems3At l then
      subAllF (subItemsRep items) l.length l
        :: rewriteOptsGo tid gender dbl partyFlags items true ls
    else if searchSome patUnion3At l then
      subAllF (subUnionRep ((flagsToUnionAndStruct partyFlags).1)) l.length l
        :: rewriteOptsGo tid gender dbl partyFlags items true ls
    else if closeStart l then
      l :: ls
    else
      l :: rewriteOptsGo tid gender dbl partyFlags items true ls

/-- `rewriteTrainerOptions` (program.py lines 259-305), on the file's lines. -/
def rewriteTrainerOptions (lines : List (List Char)) (tid gender : List Char)
    (dbl : Bool) (partyFlags : List Char) (items : List (List Char)) : List (List Char) :=
  rewriteOptsGo tid gender dbl partyFlags items false lines

/-! ### The party writer (program.py lines 67-104) -/

/-- Matcher for `struct\s+(\w+)\s+<name>\[\]\s*=\s*\{` (the name is an
escaped literal; roster names never begin with whitespace, so the greedy
`\s+` runs are maximal munches here too).  Captures group 1, the header's
struct type. -/
def patPartyStartAt (pname : List Char) (s : List Char) : Option (List Char) := do
  let r1 ← dropLit ("struct".toList) s
  let (_, r2) ← spanClass1 isWs r1
  let (ty, r3) ← spanClass1 isWord r2
  let (_, r4) ← spanClass1 isWs r3
  let r5 ← dropLit (pname ++ "[]".toList) r4
  let r6 ← dropLit ['='] (r5.dropWhile isWs)
  let _ ← dropLit ['{'] (r6.dropWhile isWs)
  pure ty

/-- Index of the first line matching the roster-header pattern, with the
captured struct type. -/
def findStartIdx (pname : List Char) : List (List Char) → Option (Nat × List Char)
  | [] => none
  | l :: ls =>
    match firstHit (patPartyStartAt pname) l with
    | some (_, ty) => some (0, ty)
    | none => (findStartIdx pname ls).map (fun p => (p.1 + 1, p.2))

/-- `line.strip().startswith('};')`: the close test of the party writer. -/
def closeSemi (l : List Char) : Bool := startsL ("\x7d;".toList) (pyStrip l)

/-- Index of the first line whose stripped text starts with "};". -/
def findCloseIdx : List (List Char) → Option Nat
  | [] => none
  | l :: ls => if closeSemi l then some 0 else (findCloseIdx ls).map (fun k => k + 1)

/-- Decimal digit character. -/
def natDigitChar (n : Nat) : Char := Char.ofNat (48 + n)

/-- Accumulator loop of the decimal rendering.  The first argument is fuel,
always supplied at least as large as the number, so the loop never runs dry;
structural recursion on the fuel keeps the definition kernel-evaluable. -/
def natToCharsGo : Nat → Nat → List Char → List Char
  | 0, _, acc => acc
  | _ + 1, 0, acc => acc
  | fuel + 1, n + 1, acc =>
      natToCharsGo fuel ((n + 1) / 10) (natDigitChar ((n + 1) % 10) :: acc)

/-- Python's `str()` of a non-negative int, as the f-string interpolation of
the party writer produces it. -/
def natToChars (n : Nat) : List Char :=
  if n = 0 then ['0'] else natToCharsGo n n []

/-- One resolved party member: `.lvl` and `.species` of an entry. -/
structure PartyMon where
  level : Nat
  species : List Char
deriving DecidableEq

/-- The four generated lines per member in the regenerated roster block. -/
def monLines (mon : PartyMon) : List (List Char) :=
  ["    \x7b\n".toList,
    "        .lvl = ".toList ++ natToChars mon.level ++ ",\n".toList,
    "        .species = ".toList ++ mon.species ++ ",\n".toList,
    "    \x7d,\n".toList]

/-- The freshly generated declaration block of the party writer. -/
def newPartyBlock (struct_type pname : List Char) (mons : List PartyMon) :
    List (List Char) :=
  ("struct ".toList ++ struct_type ++ ' ' :: pname ++ "[] = \x7b\n".toList)
    :: (mons.map monLines).flatten ++ ["\x7d;\n".toList]

/-- `rewriteTrainerParty` (program.py lines 67-104): locate the declaration
header and the first following "};" line, then splice in a regenerated
block.  When `struct_type` is `none` the header's own type is kept (the
captured group is a nonempty `\w+`, so the source's further fallback to
'TrainerMonNoItemDefaultMoves' is unreachable). -/
def rewriteTrainerParty (lines : List (List Char)) (pname : List Char)
    (mons : List PartyMon) (struct_type : Option (List Char)) : List (List Char) :=
  match findStartIdx pname lines with
  | none => lines
  | some (start, header_type) =>
    match findCloseIdx (lines.drop (start + 1)) with
    | none => lines
    | some k =>
      let st :=
        match struct_type with
        | some t => t
        | none => header_type
      lines.take start ++ newPartyBlock st pname mons ++ lines.drop (start + 1 + k + 1)

/-! ### The record scanner `parseTrainerData` (program.py lines 158-238) -/

/-- One parsed trainer record: the `id` plus the optional extracted fields
(a `dict` in the source; a missing key is `none` here). -/
structure Trainer where
  id : List Char
  name : Option (List Char)
  gender : Option (List Char)
  items : Option (List (List Char))
  double : Option Bool
  partyFlags : Option (List Char)
  party : Option (List Char)
deriving DecidableEq

/-- A record fresh from its opening line: only the id is set. -/
def emptyTrainer (tid : List Char) : Trainer :=
  ⟨tid, none, none, none, none, none, none⟩

/-- The scanner's loop state: accumulated records, the record being built,
and the conditional-filter flags. -/
structure ParseState where
  trainers : List Trainer
  current : Option Trainer
  inDecap : Bool
  active : Bool
deriving DecidableEq

/-- Python's `not current_id`: true for `None` and for the empty string. -/
def currentFalsy : Option Trainer → Bool
  | none => true
  | some t => t.id.isEmpty

/-- `'#define DECAP_TRAINER_NAMES' in l` over all lines (the single global
toggle, evaluated once per file). -/
def useDecapOf (lines : List (List Char)) : Bool :=
  lines.any (fun l => containsSub ("#define DECAP_TRAINER_NAMES".toList) l)

/-- One iteration of the scanner's line loop, in the source's order:
conditional directives first, then the record-open pattern (not guarded by
`active`!), then the activity guard, the record-close test, and the six
field patterns. -/
def parseStep (useDecap : Bool) (st : ParseState) (line : List Char) : ParseState :=
  let stripped := pyStrip line
  if startsL ("#ifdef DECAP_TRAINER_NAMES".toList) stripped then
    { st with inDecap := true, active := useDecap }
  else if startsL ("#else".toList) stripped && st.inDecap then
    { st with active := !useDecap }
  else if startsL ("#endif".toList) stripped && st.inDecap then
    { st with inDecap := false, active := true }
  else
    match firstHit patIdCapAt line with
    | some (_, g) =>
      { st with
        trainers := st.trainers ++ (match st.current with
          | some t => [t]
          | none => []),
        current := some (emptyTrainer (pyStrip g)) }
    | none =>
      if !st.active || currentFalsy st.current then st
      else
        match st.current with
        | none => st
        | some cur =>
          if startsL ("\x7d,".toList) stripped then
            { st with trainers := st.trainers ++ [cur], current := none }
          else
            match firstHit patName3At line with
            | some (_, g) =>
              { st with current := some { cur with name := some (decodeTrainerName g.2.1) } }
            | none =>
              match firstHit patGender3At line with
              | some (_, g) =>
                { st with current := some { cur with gender := some g.2.1 } }
              | none =>
                match firstHit patItems3At line with
                | some (_, g) =>
                  let cur2 : Trainer := { cur with items := some ((splitOnComma g.2.1).map pyStrip) }
                  { st with current := some cur2 }
                | none =>
                  match firstHit patDouble3At line with
                  | some (_, g) =>
                    let cur2 : Trainer := { cur with double := some (g.2.1 = "TRUE".toList) }
                    { st with current := some cur2 }
                  | none =>
                    match firstHit patFlags3At line with
                    | some (_, g) =>
                      let cur2 : Trainer := { cur with partyFlags := some (pyStrip g.2.1) }
                      { st with current := some cur2 }
                    | none =>
                      match firstHit patPartyCapAt line with
                      | some (_, g) =>
                        { st with current := some { cur with party := some g } }
                      | none => st

/-- `parseTrainerData` (program.py lines 158-238), on the file's lines. -/
def parseTrainerData (lines : List (List Char)) : List Trainer :=
  let final := lines.foldl (parseStep (useDecapOf lines)) ⟨[], none, false, true⟩
  final.trainers ++ (match final.current with
    | some t => [t]
    | none => [])

/-! ### Claim C1: the conditional filter leaks inactive records -/

/-- A trainer-table file with one record duplicated across an
`#ifdef DECAP_TRAINER_NAMES` / `#else` / `#endif` region; the file contains
no `#define DECAP_TRAINER_NAMES`, so the `#else` branch is the active one. -/
def decapFile : List (List Char) :=
  ["#ifdef DECAP_TRAINER_NAMES\n".toList,
    "[TRAINER_X] = \x7b\n".toList,
    "    .gender = GENDER_MALE,\n".toList,
    "\x7d,\n".toList,
    "#else\n".toList,
    "[TRAINER_X] = \x7b\n".toList,
    "    .gender = GENDER_FEMALE,\n".toList,
    "\x7d,\n".toList,
    "#endif\n".toList]

/-- Claim C1 fails on the code: the record-open branch of the scanner loop
runs before the activity guard, and an inactive record's close marker is
skipped by that guard, so the inactive branch's duplicate survives as a bare
record (id only, appended when the next record opens).  On `decapFile` the
parse returns two records with id TRAINER_X — the claim says exactly one. -/
theorem claim1_inactive_leak :
    parseTrainerData decapFile
      = [emptyTrainer ("TRAINER_X".toList),
          { emptyTrainer ("TRAINER_X".toList) with gender := some ("GENDER_FEMALE".toList) }]
    ∧ (parseTrainerData decapFile).length ≠ 1 := by
  exact ⟨by decide, by decide⟩

/-! ### Claim C5: patching a nonexistent record id is a no-op -/

theorem rewriteNameGo_no_id (tid tokenStr : List Char) (lines : List (List Char))
    (h : ∀ l ∈ lines, searchSome (patIdLitAt tid) l = false) :
    rewriteNameGo tid tokenStr false lines = lines := by
  induction lines with
  | nil => rfl
  | cons l ls ih =>
    show l :: rewriteNameGo tid tokenStr (searchSome (patIdLitAt tid) l) ls = l :: ls
    rw [h l (List.mem_cons_self l ls)]
    exact congrArg (l :: ·) (ih fun x hx => h x (List.mem_cons_of_mem l hx))

theorem rewriteOptsGo_no_id (tid gender : List Char) (dbl : Bool)
    (partyFlags : List Char) (items : List (List Char)) (lines : List (List Char))
    (h : ∀ l ∈ lines, searchSome (patIdLitAt tid) l = false) :
    rewriteOptsGo tid gender dbl partyFlags items false lines = lines := by
  induction lines with
  | nil => rfl
  | cons l ls ih =>
    show l :: rewriteOptsGo tid gender dbl partyFlags items
        (searchSome (patIdLitAt tid) l) ls = l :: ls
    rw [h l (List.mem_cons_self l ls)]
    exact congrArg (l :: ·) (ih fun x hx => h x (List.mem_cons_of_mem l hx))

theorem findStartIdx_no_match (pname : List Char) (lines : List (List Char))
    (h : ∀ l ∈ lines, firstHit (patPartyStartAt pname) l = none) :
    findStartIdx pname lines = none := by
  induction lines with
  | nil => rfl
  | cons l ls ih =>
    show (match firstHit (patPartyStartAt pname) l with
      | some (_, ty) => some (0, ty)
      | none => (findStartIdx pname ls).map (fun p => (p.1 + 1, p.2))) = none
    rw [h l (List.mem_cons_self l ls), ih fun x hx => h x (List.mem_cons_of_mem l hx)]
    rfl

/-- Claim C5: for a record id that matches no record-open pattern in the
file, `rewriteTrainerName` and `rewriteTrainerOptions` return the file's
lines unchanged (hence the rewritten file is byte-identical), and for a
roster name whose declaration pattern matches no line, `rewriteTrainerParty`
returns the lines unchanged (the source returns before writing). -/
theorem claim5_missing_target_noop (lines plines : List (List Char))
    (tid tokenStr gender partyFlags pname : List Char) (dbl : Bool)
    (items : List (List Char)) (mons : List PartyMon) (st : Option (List Char))
    (hid : ∀ l ∈ lines, searchSome (patIdLitAt tid) l = false)
    (hpn : ∀ l ∈ plines, firstHit (patPartyStartAt pname) l = none) :
    rewriteTrainerName lines tid tokenStr = lines
    ∧ rewriteTrainerOptions lines tid gender dbl partyFlags items = lines
    ∧ rewriteTrainerParty plines pname mons st = plines := by
  refine ⟨rewriteNameGo_no_id tid tokenStr lines hid,
    rewriteOptsGo_no_id tid gender dbl partyFlags items lines hid, ?_⟩
  unfold rewriteTrainerParty
  rw [findStartIdx_no_match pname plines hpn]

/-- Witness for C5 on a small concrete file and the absent id TRAINER_Z. -/
theorem claim5_witness :
    rewriteTrainerName decapFile ("TRAINER_Z".toList) ("_A, _END".toList) = decapFile
    ∧ rewriteTrainerOptions decapFile ("TRAINER_Z".toList) ("GENDER_MALE".toList)
        false ("0".toList) [] = decapFile
    ∧ rewriteTrainerParty decapFile ("sParty_Z".toList) [] none = decapFile :=
  claim5_missing_target_noop decapFile decapFile ("TRAINER_Z".toList) ("_A, _END".toList)
    ("GENDER_MALE".toList) ("0".toList) ("sParty_Z".toList) false [] [] none
    (by decide) (by decide)

/-! ### Claim C2: field substitution and record boundaries -/

/-- A file whose first record lacks a `.trainerName` field, followed by a
second record that has one. -/
def crossFile : List (List Char) :=
  ["[TRAINER_A] = \x7b\n".toList,
    "    .gender = GENDER_MALE,\n".toList,
    "\x7d,\n".toList,
    "[TRAINER_B] = \x7b\n".toList,
    "    .trainerName = \x7b_B, _END\x7d,\n".toList,
    "\x7d,\n".toList]

/-- Claim C2 fails on the code: `rewriteTrainerName` has no record-close
test, so patching TRAINER_A's name in a file where TRAINER_A has no
`.trainerName` field substitutes the first `.trainerName` line found later
in the file — here line index 4, which lies past TRAINER_A's close marker
(line 2) and inside the record of TRAINER_B (opened at line 3). -/
theorem claim2_counterexample :
    rewriteTrainerName crossFile ("TRAINER_A".toList) ("_X, _END".toList)
      = ["[TRAINER_A] = \x7b\n".toList,
          "    .gender = GENDER_MALE,\n".toList,
          "\x7d,\n".toList,
          "[TRAINER_B] = \x7b\n".toList,
          "    .trainerName = \x7b _X, _END \x7d,\n".toList,
          "\x7d,\n".toList]
    ∧ (rewriteTrainerName crossFile ("TRAINER_A".toList) ("_X, _END".toList)).getD 4 []
        ≠ crossFile.getD 4 []
    ∧ closeStart (crossFile.getD 2 []) = true
    ∧ searchSome (patIdLitAt ("TRAINER_B".toList)) (crossFile.getD 3 []) = true := by
  refine ⟨by decide, by decide, by decide, by decide⟩

/-- Does a line match any of the five field patterns the options writer
tries?  (If so, the writer substitutes and continues; if not, the line is
tested as a potential record-close marker.) -/
def optsFieldHit (l : List Char) : Bool :=
  searchSome patGender3At l || searchSome patDouble3At l || searchSome patFlags3At l
    || searchSome patItems3At l || searchSome patUnion3At l

/-- The single-line action of the options writer once inside the record. -/
def optsProcLine (gender : List Char) (dbl : Bool) (partyFlags : List Char)
    (items : List (List Char)) (l : List Char) : List Char :=
  if searchSome patGender3At l then subAllF (subGenderRep gender) l.length l
  else if searchSome patDouble3At l then subAllF (subDoubleRep dbl) l.length l
  else if searchSome patFlags3At l then subAllF (subFlagsRep partyFlags) l.length l
  else if searchSome patItems3At l then subAllF (subItemsRep items) l.length l
  else if searchSome patUnion3At l then
    subAllF (subUnionRep ((flagsToUnionAndStruct partyFlags).1)) l.length l
  else l

theorem optsGo_true_cons (tid gender : List Char) (dbl : Bool) (partyFlags : List Char)
    (items : List (List Char)) (l : List Char) (ls : List (List Char)) :
    rewriteOptsGo tid gender dbl partyFlags items true (l :: ls)
      = optsProcLine gender dbl partyFlags items l
          :: (if optsFieldHit l = false ∧ closeStart l = true then ls
              else rewriteOptsGo tid gender dbl partyFlags items true ls) := by
  show (if searchSome patGender3At l then
      subAllF (subGenderRep gender) l.length l
        :: rewriteOptsGo tid gender dbl partyFlags items true ls
    else if searchSome patDouble3At l then
      subAllF (subDoubleRep dbl) l.length l
        :: rewriteOptsGo tid gender dbl partyFlags items true ls
    else if searchSome patFlags3At l then
      subAllF (subFlagsRep partyFlags) l.length l
        :: rewriteOptsGo tid gender dbl partyFlags items true ls
    else if searchSome patItems3At l then
      subAllF (subItemsRep items) l.length l
        :: rewriteOptsGo tid gender dbl partyFlags items true ls
    else if searchSome patUnion3At l then
      subAllF (subUnionRep ((flagsToUnionAndStruct partyFlags).1)) l.length l
        :: rewriteOptsGo tid gender dbl partyFlags items true ls
    else if closeStart l then
      l :: ls
    else
      l :: rewriteOptsGo tid gender dbl partyFlags items true ls) = _
  by_cases h1 : searchSome patGender3At l = true
  · simp [optsProcLine, optsFieldHit, h1]
  · by_cases h2 : searchSome patDouble3At l = true
    · simp [optsProcLine, optsFieldHit, h1, h2]
    · by_cases h3 : searchSome patFlags3At l = true
      · simp [optsProcLine, optsFieldHit, h1, h2, h3]
      · by_cases h4 : searchSome patItems3At l = true
        · simp [optsProcLine, optsFieldHit, h1, h2, h3, h4]
        · by_cases h5 : searchSome patUnion3At l = true
          · simp [optsProcLine, optsFieldHit, h1, h2, h3, h4, h5]
          · by_cases h6 : closeStart l = true
            · simp [optsProcLine, optsFieldHit, h1, h2, h3, h4, h5, h6]
            · simp [optsProcLine, optsFieldHit, h1, h2, h3, h4, h5, h6]

theorem optsProcLine_id (gender : List Char) (dbl : Bool) (partyFlags : List Char)
    (items : List (List Char)) (l : List Char) (h : optsFieldHit l = false) :
    optsProcLine gender dbl partyFlags items l = l := by
  unfold optsFieldHit at h
  simp only [Bool.or_eq_false_iff] at h
  obtain ⟨⟨⟨⟨h1, h2⟩, h3⟩, h4⟩, h5⟩ := h
  unfold optsProcLine
  simp [h1, h2, h3, h4, h5]

theorem optsGo_true_changed (tid gender : List Char) (dbl : Bool) (partyFlags : List Char)
    (items : List (List Char)) :
    ∀ (ls : List (List Char)) (i : Nat),
      (rewriteOptsGo tid gender dbl partyFlags items true ls).getD i [] ≠ ls.getD i [] →
      (∀ j, j < i → optsFieldHit (ls.getD j []) = true ∨ closeStart (ls.getD j []) = false)
      ∧ optsFieldHit (ls.getD i []) = true := by
  intro ls
  induction ls with
  | nil =>
    intro i h
    exact absurd rfl h
  | cons l ls ih =>
    intro i h
    rw [optsGo_true_cons] at h
    by_cases hbr : optsFieldHit l = false ∧ closeStart l = true
    · rw [if_pos hbr] at h
      cases i with
      | zero =>
        rw [List.getD_cons_zero, List.getD_cons_zero,
          optsProcLine_id gender dbl partyFlags items l hbr.1] at h
        exact absurd rfl h
      | succ i =>
        rw [List.getD_cons_succ, List.getD_cons_succ] at h
        exact absurd rfl h
    · rw [if_neg hbr] at h
      cases i with
      | zero =>
        rw [List.getD_cons_zero, List.getD_cons_zero] at h
        refine ⟨fun j hj => absurd hj (Nat.not_lt_zero j), ?_⟩
        rw [List.getD_cons_zero]
        cases hf : optsFieldHit l with
        | true => rfl
        | false => exact absurd (optsProcLine_id gender dbl partyFlags items l hf) h
      | succ i =>
        rw [List.getD_cons_succ, List.getD_cons_succ] at h
        obtain ⟨h1, h2⟩ := ih i h
        rw [List.getD_cons_succ]
        refine ⟨?_, h2⟩
        intro j hj
        cases j with
        | zero =>
          rw [List.getD_cons_zero]
          cases hf : optsFieldHit l with
          | true => exact Or.inl rfl
          | false =>
            right
            cases hcl : closeStart l with
            | false => rfl
            | true => exact absurd ⟨hf, hcl⟩ hbr
        | succ j =>
          rw [List.getD_cons_succ]
          exact h1 j (Nat.lt_of_succ_lt_succ hj)

theorem optsGo_false_changed (tid gender : List Char) (dbl : Bool) (partyFlags : List Char)
    (items : List (List Char)) :
    ∀ (ls : List (List Char)) (i : Nat),
      (rewriteOptsGo tid gender dbl partyFlags items false ls).getD i [] ≠ ls.getD i [] →
      ∃ op, op < i
        ∧ (∀ j, j < op → searchSome (patIdLitAt tid) (ls.getD j []) = false)
        ∧ searchSome (patIdLitAt tid) (ls.getD op []) = true
        ∧ (∀ j, op < j → j < i →
            optsFieldHit (ls.getD j []) = true ∨ closeStart (ls.getD j []) = false)
        ∧ optsFieldHit (ls.getD i []) = true := by
  intro ls
  induction ls with
  | nil =>
    intro i h
    exact absurd rfl h
  | cons l ls ih =>
    intro i h
    have hstep : rewriteOptsGo tid gender dbl partyFlags items false (l :: ls)
        = l :: rewriteOptsGo tid gender dbl partyFlags items
            (searchSome (patIdLitAt tid) l) ls := rfl
    rw [hstep] at h
    cases i with
    | zero =>
      rw [List.getD_cons_zero, List.getD_cons_zero] at h
      exact absurd rfl h
    | succ i =>
      rw [List.getD_cons_succ, List.getD_cons_succ] at h
      cases hb : searchSome (patIdLitAt tid) l with
      | true =>
        rw [hb] at h
        obtain ⟨h1, h2⟩ := optsGo_true_changed tid gender dbl partyFlags items ls i h
        refine ⟨0, Nat.succ_pos i, fun j hj => absurd hj (Nat.not_lt_zero j), hb, ?_, h2⟩
        intro j hj1 hj2
        cases j with
        | zero => exact absurd hj1 (lt_irrefl 0)
        | succ j =>
          rw [List.getD_cons_succ]
          exact h1 j (Nat.lt_of_succ_lt_succ hj2)
      | false =>
        rw [hb] at h
        obtain ⟨op, hop, hmin, hid, hmid, hhit⟩ := ih i h
        refine ⟨op + 1, Nat.succ_lt_succ hop, ?_, hid, ?_, hhit⟩
        · intro j hj
          cases j with
          | zero => exact hb
          | succ j =>
            rw [List.getD_cons_succ]
            exact hmin j (Nat.lt_of_succ_lt_succ hj)
        · intro j hj1 hj2
          cases j with
          | zero => exact absurd hj1 (Nat.not_lt_zero _)
          | succ j =>
            rw [List.getD_cons_succ]
            exact hmid j (Nat.lt_of_succ_lt_succ hj1) (Nat.lt_of_succ_lt_succ hj2)

theorem nameGo_true_changed (tid tok : List Char) :
    ∀ (ls : List (List Char)) (i : Nat),
      (rewriteNameGo tid tok true ls).getD i [] ≠ ls.getD i [] →
      (∀ j, j < i → searchSome patName3At (ls.getD j []) = false)
      ∧ searchSome patName3At (ls.getD i []) = true := by
  intro ls
  induction ls with
  | nil =>
    intro i h
    exact absurd rfl h
  | cons l ls ih =>
    intro i h
    have hstep : rewriteNameGo tid tok true (l :: ls)
        = if searchSome patName3At l then subAllF (subNameRep tok) l.length l :: ls
          else l :: rewriteNameGo tid tok true ls := rfl
    rw [hstep] at h
    cases hn : searchSome patName3At l with
    | true =>
      rw [hn, if_pos rfl] at h
      cases i with
      | zero =>
        exact ⟨fun j hj => absurd hj (Nat.not_lt_zero j), hn⟩
      | succ i =>
        rw [List.getD_cons_succ, List.getD_cons_succ] at h
        exact absurd rfl h
    | false =>
      rw [hn] at h
      rw [if_neg (by simp)] at h
      cases i with
      | zero =>
        rw [List.getD_cons_zero, List.getD_cons_zero] at h
        exact absurd rfl h
      | succ i =>
        rw [List.getD_cons_succ, List.getD_cons_succ] at h
        obtain ⟨h1, h2⟩ := ih i h
        refine ⟨?_, h2⟩
        intro j hj
        cases j with
        | zero => exact hn
        | succ j =>
          rw [List.getD_cons_succ]
          exact h1 j (Nat.lt_of_succ_lt_succ hj)

theorem nameGo_false_changed (tid tok : List Char) :
    ∀ (ls : List (List Char)) (i : Nat),
      (rewriteNameGo tid tok false ls).getD i [] ≠ ls.getD i [] →
      ∃ op, op < i
        ∧ (∀ j, j < op → searchSome (patIdLitAt tid) (ls.getD j []) = false)
        ∧ searchSome (patIdLitAt tid) (ls.getD op []) = true
        ∧ (∀ j, op < j → j < i → searchSome patName3At (ls.getD j []) = false)
        ∧ searchSome patName3At (ls.getD i []) = true := by
  intro ls
  induction ls with
  | nil =>
    intro i h
    exact absurd rfl h
  | cons l ls ih =>
    intro i h
    have hstep : rewriteNameGo tid tok false (l :: ls)
        = l :: rewriteNameGo tid tok (searchSome (patIdLitAt tid) l) ls := rfl
    rw [hstep] at h
    cases i with
    | zero =>
      rw [List.getD_cons_zero, List.getD_cons_zero] at h
      exact absurd rfl h
    | succ i =>
      rw [List.getD_cons_succ, List.getD_cons_succ] at h
      cases hb : searchSome (patIdLitAt tid) l with
      | true =>
        rw [hb] at h
        obtain ⟨h1, h2⟩ := nameGo_true_changed tid tok ls i h
        refine ⟨0, Nat.succ_pos i, fun j hj => absurd hj (Nat.not_lt_zero j), hb, ?_, h2⟩
        intro j hj1 hj2
        cases j with
        | zero => exact absurd hj1 (lt_irrefl 0)
        | succ j =>
          rw [List.getD_cons_succ]
          exact h1 j (Nat.lt_of_succ_lt_succ hj2)
      | false =>
        rw [hb] at h
        obtain ⟨op, hop, hmin, hid, hmid, hhit⟩ := ih i h
        refine ⟨op + 1, Nat.succ_lt_succ hop, ?_, hid, ?_, hhit⟩
        · intro j hj
          cases j with
          | zero => exact hb
          | succ j =>
            rw [List.getD_cons_succ]
            exact hmin j (Nat.lt_of_succ_lt_succ hj)
        · intro j hj1 hj2
          cases j with
          | zero => exact absurd hj1 (Nat.not_lt_zero _)
          | succ j =>
            rw [List.getD_cons_succ]
            exact hmid j (Nat.lt_of_succ_lt_succ hj1) (Nat.lt_of_succ_lt_succ hj2)

theorem findStartIdx_spec (pname : List Char) :
    ∀ (lines : List (List Char)) (start : Nat) (ty : List Char),
      findStartIdx pname lines = some (start, ty) →
      (∀ j, j < start → firstHit (patPartyStartAt pname) (lines.getD j []) = none)
      ∧ ∃ pre, firstHit (patPartyStartAt pname) (lines.getD start []) = some (pre, ty) := by
  intro lines
  induction lines with
  | nil =>
    intro start ty h
    cases h
  | cons l ls ih =>
    intro start ty h
    have hstep : findStartIdx pname (l :: ls)
        = match firstHit (patPartyStartAt pname) l with
          | some (_, ty0) => some (0, ty0)
          | none => (findStartIdx pname ls).map (fun p => (p.1 + 1, p.2)) := rfl
    rw [hstep] at h
    cases hf : firstHit (patPartyStartAt pname) l with
    | some pa =>
      obtain ⟨pre, ty0⟩ := pa
      rw [hf] at h
      injection h with h
      injection h with h1 h2
      subst h1
      subst h2
      exact ⟨fun j hj => absurd hj (Nat.not_lt_zero j), pre, hf⟩
    | none =>
      rw [hf] at h
      cases hi : findStartIdx pname ls with
      | none =>
        rw [hi] at h
        cases h
      | some p =>
        obtain ⟨s2, ty2⟩ := p
        rw [hi] at h
        injection h with h
        injection h with h1 h2
        subst h1
        subst h2
        obtain ⟨ha, pre, hb⟩ := ih s2 ty2 hi
        refine ⟨?_, pre, hb⟩
        intro j hj
        cases j with
        | zero => exact hf
        | succ j =>
          rw [List.getD_cons_succ]
          exact ha j (Nat.lt_of_succ_lt_succ hj)

theorem findCloseIdx_spec :
    ∀ (lines : List (List Char)) (k : Nat), findCloseIdx lines = some k →
      (∀ j, j < k → closeSemi (lines.getD j []) = false)
      ∧ closeSemi (lines.getD k []) = true := by
  intro lines
  induction lines with
  | nil =>
    intro k h
    cases h
  | cons l ls ih =>
    intro k h
    have hstep : findCloseIdx (l :: ls)
        = if closeSemi l then some 0 else (findCloseIdx ls).map (fun k => k + 1) := rfl
    rw [hstep] at h
    cases hc : closeSemi l with
    | true =>
      rw [hc, if_pos rfl] at h
      injection h with h
      subst h
      exact ⟨fun j hj => absurd hj (Nat.not_lt_zero j), hc⟩
    | false =>
      rw [hc, if_neg (by simp)] at h
      cases hi : findCloseIdx ls with
      | none =>
        rw [hi] at h
        cases h
      | some k2 =>
        rw [hi] at h
        injection h with h
        subst h
        obtain ⟨ha, hb⟩ := ih k2 hi
        refine ⟨?_, hb⟩
        intro j hj
        cases j with
        | zero => exact hc
        | succ j =>
          rw [List.getD_cons_succ]
          exact ha j (Nat.lt_of_succ_lt_succ hj)

theorem getD_drop : ∀ (l : List (List Char)) (n i : Nat),
    (l.drop n).getD i [] = l.getD (n + i) [] := by
  intro l
  induction l with
  | nil =>
    intro n i
    cases n <;> rfl
  | cons x xs ih =>
    intro n i
    cases n with
    | zero =>
      rw [Nat.zero_add]
      rfl
    | succ n =>
      show (xs.drop n).getD i [] = (x :: xs).getD (n + 1 + i) []
      rw [ih n i]
      have heq : n + 1 + i = (n + i) + 1 := by omega
      rw [heq, List.getD_cons_succ]

theorem optsHit_lt (lines : List (List Char)) (j : Nat)
    (hhit : optsFieldHit (lines.getD j []) = true) : j < lines.length := by
  by_contra hlen
  rw [List.getD_eq_default _ _ (Nat.le_of_not_lt hlen)] at hhit
  exact absurd hhit (by decide)

theorem getD_mem_of_lt (l : List (List Char)) (i : Nat) (h : i < l.length) :
    l.getD i [] ∈ l := by
  rw [List.getD_eq_getElem l [] h]
  exact List.getElem_mem h

/-- Claim C2 (amended): the options writer and the party writer stay within
the target record: provided no line both matches a field pattern and begins
(stripped) with "},", every line `rewriteTrainerOptions` changes lies
strictly after the target record's opening line (the first line matching the
record-open pattern for the id) with no record-close marker at or before it
inside the record; and `rewriteTrainerParty` replaces exactly the span from
the first matching declaration header to the first following "};" line,
copying everything outside it.  `rewriteTrainerName`, however, has no
record-close bound: it substitutes the first `.trainerName` line strictly
after the opening line wherever that lies, which can be inside a following
record when the target record lacks the field. -/
theorem claim2_patch_bounds (lines : List (List Char)) (tid gender partyFlags tok : List Char)
    (dbl : Bool) (items : List (List Char)) :
    (∀ i, (rewriteTrainerName lines tid tok).getD i [] ≠ lines.getD i [] →
      ∃ op, op < i
        ∧ (∀ j, j < op → searchSome (patIdLitAt tid) (lines.getD j []) = false)
        ∧ searchSome (patIdLitAt tid) (lines.getD op []) = true
        ∧ (∀ j, op < j → j < i → searchSome patName3At (lines.getD j []) = false)
        ∧ searchSome patName3At (lines.getD i []) = true)
    ∧ ((∀ l ∈ lines, ¬(optsFieldHit l = true ∧ closeStart l = true)) →
      ∀ i, (rewriteTrainerOptions lines tid gender dbl partyFlags items).getD i []
          ≠ lines.getD i [] →
      ∃ op, op < i
        ∧ (∀ j, j < op → searchSome (patIdLitAt tid) (lines.getD j []) = false)
        ∧ searchSome (patIdLitAt tid) (lines.getD op []) = true
        ∧ (∀ j, op < j → j ≤ i → closeStart (lines.getD j []) = false))
    ∧ (∀ (pname : List Char) (mons : List PartyMon) (st : Option (List Char))
        (start k : Nat) (ty : List Char),
        findStartIdx pname lines = some (start, ty) →
        findCloseIdx (lines.drop (start + 1)) = some k →
        (∀ j, j < start → firstHit (patPartyStartAt pname) (lines.getD j []) = none)
        ∧ (∃ pre, firstHit (patPartyStartAt pname) (lines.getD start []) = some (pre, ty))
        ∧ (∀ j, start < j → j < start + 1 + k → closeSemi (lines.getD j []) = false)
        ∧ closeSemi (lines.getD (start + 1 + k) []) = true
        ∧ rewriteTrainerParty lines pname mons st
            = lines.take start
              ++ newPartyBlock (match st with | some t => t | none => ty) pname mons
              ++ lines.drop (start + 1 + k + 1)) := by
  refine ⟨fun i h => nameGo_false_changed tid tok lines i h, fun hwf i h => ?_, ?_⟩
  · obtain ⟨op, hop, hmin, hid, hmid, hhit⟩ :=
      optsGo_false_changed tid gender dbl partyFlags items lines i h
    refine ⟨op, hop, hmin, hid, ?_⟩
    intro j hj1 hj2
    have hnc : ∀ m, optsFieldHit (lines.getD m []) = true → closeStart (lines.getD m []) = false := by
      intro m hm
      have hmem := getD_mem_of_lt lines m (optsHit_lt lines m hm)
      cases hcl : closeStart (lines.getD m []) with
      | false => rfl
      | true => exact absurd ⟨hm, hcl⟩ (hwf _ hmem)
    rcases Nat.lt_or_ge j i with hji | hji
    · rcases hmid j hj1 hji with hh | hh
      · exact hnc j hh
      · exact hh
    · have hji2 : j = i := Nat.le_antisymm hj2 hji
      subst hji2
      exact hnc j hhit
  · intro pname mons st start k ty hs hc
    obtain ⟨ha, hpre, hb⟩ := findStartIdx_spec pname lines start ty hs
    obtain ⟨hc1, hc2⟩ := findCloseIdx_spec (lines.drop (start + 1)) k hc
    refine ⟨ha, ⟨hpre, hb⟩, ?_, ?_, ?_⟩
    · intro j hj1 hj2
      have hj3 : j - (start + 1) < k := by omega
      have hcl := hc1 (j - (start + 1)) hj3
      rw [getD_drop] at hcl
      have heq : start + 1 + (j - (start + 1)) = j := by omega
      rw [heq] at hcl
      exact hcl
    · have := hc2
      rw [getD_drop] at this
      exact this
    · have hred : rewriteTrainerParty lines pname mons st
          = match findCloseIdx (lines.drop (start + 1)) with
            | none => lines
            | some k =>
              lines.take start
                ++ newPartyBlock (match st with | some t => t | none => ty) pname mons
                ++ lines.drop (start + 1 + k + 1) := by
        unfold rewriteTrainerParty
        rw [hs]
      rw [hred, hc]

/-- Witness for the C2 amended theorem: the options part applied to a
concrete file, at the changed gender line (index 1). -/
theorem claim2_witness :
    ∃ op, op < 1
      ∧ (∀ j, j < op →
          searchSome (patIdLitAt ("TRAINER_A".toList)) (crossFile.getD j []) = false)
      ∧ searchSome (patIdLitAt ("TRAINER_A".toList)) (crossFile.getD op []) = true
      ∧ (∀ j, op < j → j ≤ 1 → closeStart (crossFile.getD j []) = false) :=
  (claim2_patch_bounds crossFile ("TRAINER_A".toList) ("GENDER_FEMALE".toList)
      ("0".toList) ("_X, _END".toList) false []).2.1
    (by decide) 1 (by decide)

/-! ### Claim C4: well-formed files parse to exactly their records -/

theorem dropWhile_all_append (p : Char → Bool) (a b : List Char)
    (h : ∀ c ∈ a, p c = true) : (a ++ b).dropWhile p = b.dropWhile p := by
  induction a with
  | nil => rfl
  | cons c cs ih =>
    rw [List.cons_append, List.dropWhile_cons, h c (List.mem_cons_self c cs)]
    simp only [if_true]
    exact ih fun x hx => h x (List.mem_cons_of_mem c hx)

theorem idCloseAt_ws (w1 w2 tailL : List Char)
    (hw1 : ∀ c ∈ w1, isWs c = true) (hw2 : ∀ c ∈ w2, isWs c = true) :
    idCloseAt (']' :: (w1 ++ '=' :: (w2 ++ '{' :: tailL))) = some tailL := by
  have h1 : dropLit [']'] (']' :: (w1 ++ '=' :: (w2 ++ '{' :: tailL)))
      = some (w1 ++ '=' :: (w2 ++ '{' :: tailL)) := by
    simp [dropLit]
  have h2 : (w1 ++ '=' :: (w2 ++ '{' :: tailL)).dropWhile isWs
      = '=' :: (w2 ++ '{' :: tailL) := by
    rw [dropWhile_all_append isWs w1 _ hw1, List.dropWhile_cons]
    simp [isWs, isPySpace]
  have h3 : (w2 ++ '{' :: tailL).dropWhile isWs = '{' :: tailL := by
    rw [dropWhile_all_append isWs w2 _ hw2, List.dropWhile_cons]
    simp [isWs, isPySpace]
  unfold idCloseAt
  rw [h1]
  show (do
    let r2 ← dropLit ['='] ((w1 ++ '=' :: (w2 ++ '{' :: tailL)).dropWhile isWs)
    dropLit ['{'] (r2.dropWhile isWs)) = some tailL
  rw [h2]
  show dropLit ['{'] ((w2 ++ '{' :: tailL).dropWhile isWs) = some tailL
  rw [h3]
  simp [dropLit]

theorem idCapGo_spec (w1 w2 tailL : List Char)
    (hw1 : ∀ c ∈ w1, isWs c = true) (hw2 : ∀ c ∈ w2, isWs c = true) :
    ∀ (idp acc : List Char), idp ≠ [] → (∀ c ∈ idp, ¬ c = ']' ∧ ¬ c = '\n') →
      idCapGo acc (idp ++ ']' :: (w1 ++ '=' :: (w2 ++ '{' :: tailL)))
        = some (acc ++ idp) := by
  intro idp
  induction idp with
  | nil =>
    intro acc h _
    exact absurd rfl h
  | cons c cs ih =>
    intro acc _ hc
    obtain ⟨hc1, hc2⟩ := hc c (List.mem_cons_self c cs)
    show idCapGo acc (c :: (cs ++ ']' :: (w1 ++ '=' :: (w2 ++ '{' :: tailL))))
        = some (acc ++ c :: cs)
    have hstep : idCapGo acc (c :: (cs ++ ']' :: (w1 ++ '=' :: (w2 ++ '{' :: tailL))))
        = if c = '\n' then none
          else if (idCloseAt (cs ++ ']' :: (w1 ++ '=' :: (w2 ++ '{' :: tailL)))).isSome then
            some (acc ++ [c])
          else idCapGo (acc ++ [c]) (cs ++ ']' :: (w1 ++ '=' :: (w2 ++ '{' :: tailL))) := rfl
    rw [hstep, if_neg hc2]
    cases cs with
    | nil =>
      rw [if_pos (by rw [List.nil_append, idCloseAt_ws w1 w2 tailL hw1 hw2]; rfl)]
    | cons d ds =>
      have hd : ¬ d = ']' := (hc d (List.mem_cons_of_mem c (List.mem_cons_self d ds))).1
      have hclose : idCloseAt ((d :: ds) ++ ']' :: (w1 ++ '=' :: (w2 ++ '{' :: tailL)))
          = none := by
        unfold idCloseAt
        have hdl : dropLit [']'] (d :: (ds ++ ']' :: (w1 ++ '=' :: (w2 ++ '{' :: tailL))))
            = none := by
          show (if ']' = d then dropLit [] (ds ++ ']' :: (w1 ++ '=' :: (w2 ++ '{' :: tailL)))
            else none) = none
          rw [if_neg (fun he => hd he.symm)]
        rw [List.cons_append, hdl]
        rfl
      rw [hclose]
      simp only [Option.isSome_none, Bool.false_eq_true, if_false]
      rw [ih (acc ++ [c]) (by exact fun h => List.noConfusion h)
        (fun x hx => hc x (List.mem_cons_of_mem c hx))]
      simp

theorem firstHit_cons_some {α : Type} (m : List Char → Option α) (c : Char) (cs : List Char)
    (a : α) (h : m (c :: cs) = some a) : firstHit m (c :: cs) = some ([], a) := by
  unfold firstHit
  rw [h]

theorem firstHit_cons_none {α : Type} (m : List Char → Option α) (c : Char) (cs : List Char)
    (h : m (c :: cs) = none) :
    firstHit m (c :: cs) = (firstHit m cs).map (fun pa => (c :: pa.1, pa.2)) := by
  have hstep : firstHit m (c :: cs)
      = match m (c :: cs) with
        | some a => some ([], a)
        | none => (firstHit m cs).map (fun pa => (c :: pa.1, pa.2)) := by
    cases cs <;> rfl
  rw [hstep, h]

theorem openLine_hit (id w1 w2 tailL : List Char) (hne : id ≠ [])
    (hid : ∀ c ∈ id, ¬ c = ']' ∧ ¬ c = '\n')
    (hw1 : ∀ c ∈ w1, isWs c = true) (hw2 : ∀ c ∈ w2, isWs c = true) :
    firstHit patIdCapAt ('[' :: (id ++ ']' :: (w1 ++ '=' :: (w2 ++ '{' :: tailL))))
      = some ([], id) := by
  have hm : patIdCapAt ('[' :: (id ++ ']' :: (w1 ++ '=' :: (w2 ++ '{' :: tailL))))
      = some id := by
    unfold patIdCapAt
    have h1 : dropLit ['['] ('[' :: (id ++ ']' :: (w1 ++ '=' :: (w2 ++ '{' :: tailL))))
        = some (id ++ ']' :: (w1 ++ '=' :: (w2 ++ '{' :: tailL))) := by
      simp [dropLit]
    rw [h1]
    show idCapGo [] (id ++ ']' :: (w1 ++ '=' :: (w2 ++ '{' :: tailL))) = some id
    rw [idCapGo_spec w1 w2 tailL hw1 hw2 id [] hne hid]
    rfl
  exact firstHit_cons_some patIdCapAt '[' (id ++ ']' :: (w1 ++ '=' :: (w2 ++ '{' :: tailL))) id hm

/-- Conditions on a line that keep the conditional filter inert: it neither
defines nor opens the DECAP toggle. -/
def plainLine (l : List Char) : Prop :=
  containsSub ("#define DECAP_TRAINER_NAMES".toList) l = false
  ∧ startsL ("#ifdef DECAP_TRAINER_NAMES".toList) (pyStrip l) = false

instance (l : List Char) : Decidable (plainLine l) := by
  unfold plainLine
  infer_instance

/-- Shape of a well-formed, conditional-free trainer file: interleaved
filler lines (no record-open match) and disjoint, brace-balanced records,
each an opening line `[<id>] = \x7b`, body lines (no record-open match, no
close marker), and a close line starting (stripped) with "\x7d,".  The
second index lists the record ids in source order. -/
inductive FileShape : List (List Char) → List (List Char) → Prop
  | nil : FileShape [] []
  | filler (l : List Char) (rest ids : List (List Char)) :
      firstHit patIdCapAt l = none →
      plainLine l →
      FileShape rest ids →
      FileShape (l :: rest) ids
  | record (id w1 w2 tailL : List Char) (body : List (List Char))
      (closeL : List Char) (rest ids : List (List Char)) :
      id ≠ [] →
      (∀ c ∈ id, ¬ c = ']' ∧ ¬ c = '\n') →
      pyStrip id = id →
      (∀ c ∈ w1, isWs c = true) →
      (∀ c ∈ w2, isWs c = true) →
      plainLine ('[' :: (id ++ ']' :: (w1 ++ '=' :: (w2 ++ '{' :: tailL)))) →
      (∀ l ∈ body, firstHit patIdCapAt l = none ∧ plainLine l ∧ closeStart l = false) →
      firstHit patIdCapAt closeL = none →
      plainLine closeL →
      closeStart closeL = true →
      FileShape rest ids →
      FileShape (('[' :: (id ++ ']' :: (w1 ++ '=' :: (w2 ++ '{' :: tailL))))
          :: (body ++ closeL :: rest)) (id :: ids)

theorem parseStep_open (ud : Bool) (acc : List Trainer) (cur : Option Trainer)
    (line pre g : List Char) (hpl : plainLine line)
    (hhit : firstHit patIdCapAt line = some (pre, g)) :
    parseStep ud ⟨acc, cur, false, true⟩ line
      = ⟨acc ++ (match cur with | some t => [t] | none => []),
          some (emptyTrainer (pyStrip g)), false, true⟩ := by
  unfold parseStep
  simp only [hpl.2, hhit]
  simp

theorem parseStep_filler (ud : Bool) (acc : List Trainer) (line : List Char)
    (hpl : plainLine line) (hmiss : firstHit patIdCapAt line = none) :
    parseStep ud ⟨acc, none, false, true⟩ line = ⟨acc, none, false, true⟩ := by
  unfold parseStep
  simp only [hpl.2, hmiss]
  simp [currentFalsy]

theorem parseStep_close (ud : Bool) (acc : List Trainer) (cur : Trainer)
    (line : List Char) (hpl : plainLine line) (hmiss : firstHit patIdCapAt line = none)
    (hne : cur.id ≠ []) (hcl : closeStart line = true) :
    parseStep ud ⟨acc, some cur, false, true⟩ line = ⟨acc ++ [cur], none, false, true⟩ := by
  have hfe : currentFalsy (some cur) = false := by
    show cur.id.isEmpty = false
    cases hid : cur.id with
    | nil => exact absurd hid hne
    | cons a l => rfl
  unfold closeStart at hcl
  unfold parseStep
  simp only [hpl.2, hmiss, hcl, hfe]
  simp

theorem parseStep_body (ud : Bool) (acc : List Trainer) (cur : Trainer)
    (line : List Char) (hpl : plainLine line) (hmiss : firstHit patIdCapAt line = none)
    (hne : cur.id ≠ []) (hcl : closeStart line = false) :
    ∃ cur2 : Trainer, parseStep ud ⟨acc, some cur, false, true⟩ line
      = ⟨acc, some cur2, false, true⟩ ∧ cur2.id = cur.id := by
  have hfe : currentFalsy (some cur) = false := by
    show cur.id.isEmpty = false
    cases hid : cur.id with
    | nil => exact absurd hid hne
    | cons a l => rfl
  unfold closeStart at hcl
  unfold parseStep
  simp only [hpl.2, hmiss, hcl, hfe]
  cases h1 : firstHit patName3At line with
  | some g1 =>
    refine ⟨{ cur with name := some (decodeTrainerName g1.2.2.1) }, by simp, rfl⟩
  | none =>
    cases h2 : firstHit patGender3At line with
    | some g2 =>
      refine ⟨{ cur with gender := some g2.2.2.1 }, by simp, rfl⟩
    | none =>
      cases h3 : firstHit patItems3At line with
      | some g3 =>
        refine ⟨{ cur with items := some ((splitOnComma g3.2.2.1).map pyStrip) }, by simp, rfl⟩
      | none =>
        cases h4 : firstHit patDouble3At line with
        | some g4 =>
          refine ⟨{ cur with double := some (decide (g4.2.2.1 = "TRUE".toList)) }, by simp, rfl⟩
        | none =>
          cases h5 : firstHit patFlags3At line with
          | some g5 =>
            refine ⟨{ cur with partyFlags := some (pyStrip g5.2.2.1) }, by simp, rfl⟩
          | none =>
            cases h6 : firstHit patPartyCapAt line with
            | some g6 =>
              refine ⟨{ cur with party := some g6.2 }, by simp, rfl⟩
            | none =>
              refine ⟨cur, by simp, rfl⟩

theorem parse_fold_body (ud : Bool) :
    ∀ (body : List (List Char)) (acc : List Trainer) (cur : Trainer),
      cur.id ≠ [] →
      (∀ l ∈ body, firstHit patIdCapAt l = none ∧ plainLine l ∧ closeStart l = false) →
      ∃ cur2 : Trainer,
        body.foldl (parseStep ud) ⟨acc, some cur, false, true⟩
          = ⟨acc, some cur2, false, true⟩ ∧ cur2.id = cur.id := by
  intro body
  induction body with
  | nil =>
    intro acc cur hne _
    exact ⟨cur, rfl, rfl⟩
  | cons l ls ih =>
    intro acc cur hne hc
    obtain ⟨hmiss, hpl, hcl⟩ := hc l (List.mem_cons_self l ls)
    obtain ⟨cur2, hstep, hid⟩ := parseStep_body ud acc cur l hpl hmiss hne hcl
    rw [List.foldl_cons, hstep]
    obtain ⟨cur3, hrest, hid3⟩ :=
      ih acc cur2 (hid ▸ hne) (fun x hx => hc x (List.mem_cons_of_mem l hx))
    exact ⟨cur3, hrest, hid3.trans hid⟩

theorem parse_fold_shape (ud : Bool) :
    ∀ (lines ids : List (List Char)), FileShape lines ids →
      ∀ acc : List Trainer,
      ∃ ts : List Trainer,
        lines.foldl (parseStep ud) ⟨acc, none, false, true⟩
          = ⟨acc ++ ts, none, false, true⟩
        ∧ ts.map (fun t => t.id) = ids := by
  intro lines ids h
  induction h with
  | nil =>
    intro acc
    exact ⟨[], by simp, rfl⟩
  | filler l rest ids hmiss hpl hsh ih =>
    intro acc
    rw [List.foldl_cons, parseStep_filler ud acc l hpl hmiss]
    exact ih acc
  | record id w1 w2 tailL body closeL rest ids hne hid hstrip hw1 hw2 hplo hbody hmissc
      hplc hclc hsh ih =>
    intro acc
    rw [List.foldl_cons,
      parseStep_open ud acc none _ [] id hplo (openLine_hit id w1 w2 tailL hne hid hw1 hw2),
      List.foldl_append]
    have hcurne : (emptyTrainer (pyStrip id)).id ≠ [] := by
      show pyStrip id ≠ []
      rw [hstrip]
      exact hne
    obtain ⟨cur2, hb, hbid⟩ :=
      parse_fold_body ud body (acc ++ []) (emptyTrainer (pyStrip id)) hcurne hbody
    rw [hb, List.foldl_cons,
      parseStep_close ud (acc ++ []) cur2 closeL hplc hmissc
        (by rw [hbid]; exact hcurne) hclc]
    obtain ⟨ts, hts, hmap⟩ := ih ((acc ++ []) ++ [cur2])
    rw [hts]
    refine ⟨cur2 :: ts, by simp, ?_⟩
    rw [List.map_cons, hmap, hbid]
    show pyStrip id :: ids = id :: ids
    rw [hstrip]

/-- Claim C4: a well-formed, conditional-free file of N disjoint records
parses to exactly N records, in source order, the i-th having as its id the
text inside the brackets of the i-th record's opening line. -/
theorem claim4_scanner_records (lines ids : List (List Char)) (h : FileShape lines ids) :
    (parseTrainerData lines).map (fun t => t.id) = ids
    ∧ (parseTrainerData lines).length = ids.length := by
  obtain ⟨ts, hts, hmap⟩ := parse_fold_shape (useDecapOf lines) lines ids h []
  unfold parseTrainerData
  rw [hts]
  constructor
  · simpa using hmap
  · rw [← hmap]
    simp

/-- A concrete well-formed two-record file. -/
def wfFile : List (List Char) :=
  ["[TRAINER_A] = \x7b\n".toList,
    "    .gender = GENDER_MALE,\n".toList,
    "\x7d,\n".toList,
    "[TRAINER_B] = \x7b\n".toList,
    "\x7d,\n".toList]

/-- Witness for C4 on `wfFile` (two records, ids in source order). -/
theorem claim4_witness :
    (parseTrainerData wfFile).map (fun t => t.id)
        = ["TRAINER_A".toList, "TRAINER_B".toList]
    ∧ (parseTrainerData wfFile).length = 2 := by
  have hsh : FileShape wfFile ["TRAINER_A".toList, "TRAINER_B".toList] := by
    refine FileShape.record ("TRAINER_A".toList) [' '] [' '] ("\n".toList)
      ["    .gender = GENDER_MALE,\n".toList] ("\x7d,\n".toList) _ _
      (by decide) (by decide) (by decide) (by decide) (by decide) (by decide)
      (by decide) (by decide) (by decide) (by decide) ?_
    refine FileShape.record ("TRAINER_B".toList) [' '] [' '] ("\n".toList)
      [] ("\x7d,\n".toList) [] []
      (by decide) (by decide) (by decide) (by decide) (by decide) (by decide)
      (by decide) (by decide) (by decide) (by decide) FileShape.nil
  exact claim4_scanner_records wfFile ["TRAINER_A".toList, "TRAINER_B".toList] hsh

/-! ### Claim C6: the union selector written matches the flags -/

theorem dropLit_eq (p : List Char) :
    ∀ (s r : List Char), dropLit p s = some r → s = p ++ r ∧ startsL p s = true := by
  induction p with
  | nil =>
    intro s r h
    injection h with h
    exact ⟨h ▸ rfl, rfl⟩
  | cons c cs ih =>
    intro s r h
    cases s with
    | nil => cases h
    | cons d ds =>
      have hstep : dropLit (c :: cs) (d :: ds)
          = if c = d then dropLit cs ds else none := rfl
      rw [hstep] at h
      by_cases he : c = d
      · rw [if_pos he] at h
        obtain ⟨h1, h2⟩ := ih ds r h
        subst he
        refine ⟨by rw [List.cons_append, ← h1], ?_⟩
        show (c == c && startsL cs ds) = true
        rw [beq_self_eq_true]
        rw [h2]
        rfl
      · rw [if_neg he] at h
        cases h

theorem spanClass1_eq (cl : Char → Bool) (s run rest : List Char)
    (h : spanClass1 cl s = some (run, rest)) :
    s = run ++ rest ∧ run ≠ [] := by
  unfold spanClass1 at h
  by_cases he : (s.takeWhile cl).isEmpty = true
  · rw [if_pos he] at h
    cases h
  · rw [if_neg he] at h
    injection h with h
    injection h with h1 h2
    subst h1
    subst h2
    refine ⟨(List.takeWhile_append_dropWhile cl s).symm, ?_⟩
    intro hrun
    rw [hrun] at he
    exact he rfl

theorem dropWhileLenLe (p : Char → Bool) : ∀ l : List Char, (l.dropWhile p).length ≤ l.length := by
  intro l
  induction l with
  | nil => exact Nat.le_refl 0
  | cons c cs ih =>
    rw [List.dropWhile_cons]
    by_cases h : p c = true
    · rw [if_pos h]
      exact Nat.le_trans ih (Nat.le_succ _)
    · rw [if_neg h]

theorem patUnion3At_head (s : List Char) (g : List Char × List Char × List Char × List Char)
    (h : patUnion3At s = some g) : startsL (".party".toList) s = true := by
  unfold patUnion3At at h
  cases hd1 : dropLit (".party".toList) s with
  | none =>
    rw [hd1] at h
    cases h
  | some r1 => exact (dropLit_eq (".party".toList) s r1 hd1).2

theorem patUnion3At_rest_len (s g1 g2 g3 rest : List Char)
    (h : patUnion3At s = some (g1, g2, g3, rest)) : rest.length < s.length := by
  unfold patUnion3At at h
  cases hd1 : dropLit (".party".toList) s with
  | none => rw [hd1] at h; cases h
  | some r1 =>
    rw [hd1] at h
    simp only [Option.bind_eq_bind, Option.some_bind] at h
    cases hd2 : dropLit ['='] (r1.dropWhile isWs) with
    | none => rw [hd2] at h; cases h
    | some r2 =>
      rw [hd2] at h
      simp only [Option.bind_eq_bind, Option.some_bind] at h
      cases hd3 : dropLit ['{'] (r2.dropWhile isWs) with
      | none => rw [hd3] at h; cases h
      | some r3 =>
        rw [hd3] at h
        simp only [Option.bind_eq_bind, Option.some_bind] at h
        cases hd4 : dropLit ['.'] (r3.dropWhile isWs) with
        | none => rw [hd4] at h; cases h
        | some r4 =>
          rw [hd4] at h
          simp only [Option.bind_eq_bind, Option.some_bind] at h
          cases hs5 : spanClass1 isWord r4 with
          | none => rw [hs5] at h; cases h
          | some p5 =>
            obtain ⟨word, r5⟩ := p5
            rw [hs5] at h
            simp only [Option.bind_eq_bind, Option.some_bind] at h
            cases hd6 : dropLit ['='] (r5.dropWhile isWs) with
            | none => rw [hd6] at h; cases h
            | some r6 =>
              rw [hd6] at h
              simp only [Option.bind_eq_bind, Option.some_bind] at h
              cases hd7 : dropLit ("sParty_".toList) (r6.dropWhile isWs) with
              | none => rw [hd7] at h; cases h
              | some r7 =>
                rw [hd7] at h
                simp only [Option.bind_eq_bind, Option.some_bind] at h
                cases hs8 : spanClass1 isWord r7 with
                | none => rw [hs8] at h; cases h
                | some p8 =>
                  obtain ⟨tl, r8⟩ := p8
                  rw [hs8] at h
                  simp only [Option.bind_eq_bind, Option.some_bind, Option.pure_def,
                    Option.some.injEq, Prod.mk.injEq] at h
                  have hrest : rest = r8 := h.2.2.2.symm
                  subst hrest
                  have l1 : s.length = 6 + r1.length := by
                    rw [(dropLit_eq _ s r1 hd1).1]
                    simp
                    all_goals omega
                  have l2 : (r1.dropWhile isWs).length = 1 + r2.length := by
                    rw [(dropLit_eq _ _ r2 hd2).1]
                    simp
                    all_goals omega
                  have l2b : (r1.dropWhile isWs).length ≤ r1.length :=
                    dropWhileLenLe isWs r1
                  have l3 : (r2.dropWhile isWs).length = 1 + r3.length := by
                    rw [(dropLit_eq _ _ r3 hd3).1]
                    simp
                    all_goals omega
                  have l3b : (r2.dropWhile isWs).length ≤ r2.length :=
                    dropWhileLenLe isWs r2
                  have l4 : (r3.dropWhile isWs).length = 1 + r4.length := by
                    rw [(dropLit_eq _ _ r4 hd4).1]
                    simp
                    all_goals omega
                  have l4b : (r3.dropWhile isWs).length ≤ r3.length :=
                    dropWhileLenLe isWs r3
                  have l5 : r4.length = word.length + r5.length := by
                    rw [(spanClass1_eq isWord r4 word r5 hs5).1]
                    simp
                  have l6 : (r5.dropWhile isWs).length = 1 + r6.length := by
                    rw [(dropLit_eq _ _ r6 hd6).1]
                    simp
                    all_goals omega
                  have l6b : (r5.dropWhile isWs).length ≤ r5.length :=
                    dropWhileLenLe isWs r5
                  have l7 : (r6.dropWhile isWs).length = 7 + r7.length := by
                    rw [(dropLit_eq _ _ r7 hd7).1]
                    simp
                    all_goals omega
                  have l7b : (r6.dropWhile isWs).length ≤ r6.length :=
                    dropWhileLenLe isWs r6
                  have l8 : r7.length = tl.length + rest.length := by
                    rw [(spanClass1_eq isWord r7 tl rest hs8).1]
                    simp
                  omega

theorem subUnionRep_none (union s : List Char) (h : patUnion3At s = none) :
    subUnionRep union s = none := by
  unfold subUnionRep
  rw [h]
  rfl

theorem subUnionRep_some (union s g1 g2 g3 rest : List Char)
    (h : patUnion3At s = some (g1, g2, g3, rest)) :
    subUnionRep union s = some (g1 ++ union ++ g3, rest) := by
  unfold subUnionRep
  rw [h]
  rfl

theorem subAllF_cons_none (m : List Char → Option (List Char × List Char)) (n : Nat)
    (c : Char) (cs : List Char) (h : m (c :: cs) = none) :
    subAllF m (n + 1) (c :: cs) = c :: subAllF m n cs := by
  have hstep : subAllF m (n + 1) (c :: cs)
      = match m (c :: cs) with
        | some (rep, rest) => rep ++ subAllF m n rest
        | none => c :: subAllF m n cs := rfl
  rw [hstep, h]

theorem subAllF_cons_some (m : List Char → Option (List Char × List Char)) (n : Nat)
    (c : Char) (cs rep rest : List Char) (h : m (c :: cs) = some (rep, rest)) :
    subAllF m (n + 1) (c :: cs) = rep ++ subAllF m n rest := by
  have hstep : subAllF m (n + 1) (c :: cs)
      = match m (c :: cs) with
        | some (rep, rest) => rep ++ subAllF m n rest
        | none => c :: subAllF m n cs := rfl
  rw [hstep, h]

theorem subAllF_skip (m : List Char → Option (List Char × List Char)) :
    ∀ (pre suf : List Char) (n : Nat),
      (∀ p q, pre = p ++ q → q ≠ [] → m (q ++ suf) = none) →
      subAllF m (pre.length + n) (pre ++ suf) = pre ++ subAllF m n suf := by
  intro pre
  induction pre with
  | nil =>
    intro suf n _
    rw [List.length_nil, Nat.zero_add, List.nil_append, List.nil_append]
  | cons c cs ih =>
    intro suf n hno
    have hm : m (c :: (cs ++ suf)) = none := by
      have := hno [] (c :: cs) rfl (fun hh => List.noConfusion hh)
      rw [List.cons_append] at this
      exact this
    have hfuel : (c :: cs).length + n = (cs.length + n) + 1 := by
      rw [List.length_cons]
      omega
    rw [List.cons_append, hfuel, subAllF_cons_none m (cs.length + n) c (cs ++ suf) hm]
    rw [ih suf n (fun p q hpq hq => hno (c :: p) q (by rw [hpq]; rfl) hq)]
    rfl

theorem containsSub_cons_false {pat : List Char} {c : Char} {cs : List Char}
    (h : containsSub pat (c :: cs) = false) :
    startsL pat (c :: cs) = false ∧ containsSub pat cs = false := by
  have hstep : containsSub pat (c :: cs)
      = (startsL pat (c :: cs) || containsSub pat cs) := rfl
  rw [hstep] at h
  exact Bool.or_eq_false_iff.mp h

theorem subAllF_nomatch (m : List Char → Option (List Char × List Char)) (pat : List Char)
    (hpat : ∀ s r, m s = some r → startsL pat s = true) :
    ∀ (n : Nat) (s : List Char), containsSub pat s = false → subAllF m n s = s := by
  intro n
  induction n with
  | zero =>
    intro s _
    rfl
  | succ n ih =>
    intro s hc
    cases s with
    | nil => rfl
    | cons c cs =>
      obtain ⟨h1, h2⟩ := containsSub_cons_false hc
      cases hm2 : m (c :: cs) with
      | some r =>
        rw [hpat _ _ hm2] at h1
        cases h1
      | none =>
        rw [subAllF_cons_none m n c cs hm2, ih cs h2]

theorem firstHit_decomp {α : Type} (m : List Char → Option α) :
    ∀ (l pre : List Char) (a : α), firstHit m l = some (pre, a) →
      ∃ suf, l = pre ++ suf ∧ m suf = some a
        ∧ ∀ p q, pre = p ++ q → q ≠ [] → m (q ++ suf) = none := by
  intro l
  induction l with
  | nil =>
    intro pre a h
    cases hm : m [] with
    | some a0 =>
      have hstep : firstHit m [] = some (([] : List Char), a0) := by
        unfold firstHit
        rw [hm]
      rw [hstep] at h
      injection h with h
      injection h with h1 h2
      subst h1
      subst h2
      refine ⟨[], rfl, hm, ?_⟩
      intro p q hpq hq
      exact absurd (List.append_eq_nil.mp hpq.symm).2 hq
    | none =>
      have hstep : firstHit m [] = none := by
        unfold firstHit
        rw [hm]
      rw [hstep] at h
      cases h
  | cons c cs ih =>
    intro pre a h
    cases hm : m (c :: cs) with
    | some a0 =>
      rw [firstHit_cons_some m c cs a0 hm] at h
      injection h with h
      injection h with h1 h2
      subst h1
      subst h2
      refine ⟨c :: cs, rfl, hm, ?_⟩
      intro p q hpq hq
      exact absurd (List.append_eq_nil.mp hpq.symm).2 hq
    | none =>
      rw [firstHit_cons_none m c cs hm] at h
      cases hfh : firstHit m cs with
      | none =>
        rw [hfh] at h
        cases h
      | some pa =>
        obtain ⟨pre2, a2⟩ := pa
        rw [hfh] at h
        injection h with h
        injection h with h1 h2
        subst h2
        obtain ⟨suf, hl, hm2, hpre⟩ := ih pre2 a2 hfh
        refine ⟨suf, ?_, hm2, ?_⟩
        · rw [← h1, hl]
          rfl
        · intro p q hpq hq
          cases p with
          | nil =>
            rw [List.nil_append] at hpq
            have hq2 : q ++ suf = c :: cs := by
              rw [← hpq, ← h1, List.cons_append, ← hl]
            rw [hq2]
            exact hm
          | cons d ds =>
            rw [List.cons_append] at hpq
            rw [← h1] at hpq
            injection hpq with hd hds
            exact hpre ds q hds hq

theorem subUnion_line (union l pre g1 g2 g3 rest : List Char)
    (hfh : firstHit patUnion3At l = some (pre, (g1, g2, g3, rest)))
    (hrest : containsSub (".party".toList) rest = false) :
    subAllF (subUnionRep union) l.length l = pre ++ (g1 ++ union ++ g3) ++ rest := by
  obtain ⟨suf, hl, hm, hpre⟩ := firstHit_decomp patUnion3At l pre (g1, g2, g3, rest) hfh
  subst hl
  rw [List.length_append]
  rw [subAllF_skip (subUnionRep union) pre suf suf.length
    (fun p q hpq hq => subUnionRep_none union (q ++ suf) (hpre p q hpq hq))]
  cases suf with
  | nil => cases hm
  | cons c cs =>
    have hmsub : subUnionRep union (c :: cs) = some (g1 ++ union ++ g3, rest) :=
      subUnionRep_some union (c :: cs) g1 g2 g3 rest hm
    have hfuel : (c :: cs).length = cs.length + 1 := rfl
    rw [hfuel, subAllF_cons_some (subUnionRep union) cs.length c cs _ rest hmsub]
    have hrlen : rest.length < (c :: cs).length := patUnion3At_rest_len (c :: cs) g1 g2 g3 rest hm
    rw [subAllF_nomatch (subUnionRep union) (".party".toList)
      (fun s r hr => by
        cases hu : patUnion3At s with
        | none => rw [subUnionRep_none union s hu] at hr; cases hr
        | some g => exact patUnion3At_head s g hu)
      cs.length rest hrest]
    simp [List.append_assoc]

theorem optsGo_false_skip (tid gender : List Char) (dbl : Bool) (partyFlags : List Char)
    (items : List (List Char)) :
    ∀ (pre ls : List (List Char)), (∀ l ∈ pre, searchSome (patIdLitAt tid) l = false) →
      rewriteOptsGo tid gender dbl partyFlags items false (pre ++ ls)
        = pre ++ rewriteOptsGo tid gender dbl partyFlags items false ls := by
  intro pre
  induction pre with
  | nil =>
    intro ls _
    rfl
  | cons l ps ih =>
    intro ls hp
    have hstep : rewriteOptsGo tid gender dbl partyFlags items false ((l :: ps) ++ ls)
        = l :: rewriteOptsGo tid gender dbl partyFlags items
            (searchSome (patIdLitAt tid) l) (ps ++ ls) := rfl
    rw [hstep, hp l (List.mem_cons_self l ps),
      ih ls (fun x hx => hp x (List.mem_cons_of_mem l hx))]
    rfl

theorem optsGo_true_skipmid (tid gender : List Char) (dbl : Bool) (partyFlags : List Char)
    (items : List (List Char)) :
    ∀ (mid ls : List (List Char)),
      (∀ l ∈ mid, ¬(optsFieldHit l = false ∧ closeStart l = true)) →
      rewriteOptsGo tid gender dbl partyFlags items true (mid ++ ls)
        = mid.map (optsProcLine gender dbl partyFlags items)
            ++ rewriteOptsGo tid gender dbl partyFlags items true ls := by
  intro mid
  induction mid with
  | nil =>
    intro ls _
    rfl
  | cons l ms ih =>
    intro ls hm
    rw [List.cons_append, optsGo_true_cons, if_neg (hm l (List.mem_cons_self l ms)),
      ih ls (fun x hx => hm x (List.mem_cons_of_mem l hx)), List.map_cons, List.cons_append]

theorem searchSome_of_firstHit {α : Type} (m : List Char → Option α) :
    ∀ (l : List Char) (x : List Char × α), firstHit m l = some x → searchSome m l = true := by
  intro l
  induction l with
  | nil =>
    intro x h
    cases hm : m [] with
    | some a =>
      show (m []).isSome = true
      rw [hm]
      rfl
    | none =>
      have hstep : firstHit m [] = none := by
        unfold firstHit
        rw [hm]
      rw [hstep] at h
      cases h
  | cons c cs ih =>
    intro x h
    show ((m (c :: cs)).isSome || searchSome m cs) = true
    cases hm : m (c :: cs) with
    | some a => rfl
    | none =>
      rw [firstHit_cons_none m c cs hm] at h
      cases hfh : firstHit m cs with
      | none =>
        rw [hfh] at h
        cases h
      | some pa =>
        rw [ih pa hfh]
        simp

theorem getD_append_len (a b : List (List Char)) (i : Nat) :
    (a ++ b).getD (a.length + i) [] = b.getD i [] := by
  induction a with
  | nil => rw [List.nil_append, List.length_nil, Nat.zero_add]
  | cons x xs ih =>
    rw [List.cons_append, List.length_cons]
    have heq : xs.length + 1 + i = (xs.length + i) + 1 := by omega
    rw [heq, List.getD_cons_succ, ih]

/-- Claim C6: after `rewriteTrainerOptions` on a record containing a
union-selector field inside its `.party` field (on a line that matches no
earlier field pattern, inside the record body, with a single `.party`
occurrence), the rewritten line carries, in the selector slot between the
unchanged groups 1 and 3, exactly the union selector returned by
`flagsToUnionAndStruct partyFlags`: the on-disk union tag is consistent
with the saved flags. -/
theorem claim6_union_selector (tid gender partyFlags : List Char) (dbl : Bool)
    (items : List (List Char)) (pre mid post : List (List Char)) (openL uLine : List Char)
    (pre2 g1 g2 g3 rest : List Char)
    (hpre : ∀ l ∈ pre, searchSome (patIdLitAt tid) l = false)
    (hopen : searchSome (patIdLitAt tid) openL = true)
    (hmid : ∀ l ∈ mid, ¬(optsFieldHit l = false ∧ closeStart l = true))
    (hg : searchSome patGender3At uLine = false)
    (hd : searchSome patDouble3At uLine = false)
    (hf : searchSome patFlags3At uLine = false)
    (hi : searchSome patItems3At uLine = false)
    (hu : firstHit patUnion3At uLine = some (pre2, (g1, g2, g3, rest)))
    (hrest : containsSub (".party".toList) rest = false) :
    (rewriteTrainerOptions (pre ++ openL :: (mid ++ uLine :: post)) tid gender dbl
        partyFlags items).getD (pre.length + 1 + mid.length) []
      = pre2 ++ (g1 ++ (flagsToUnionAndStruct partyFlags).1 ++ g3) ++ rest := by
  unfold rewriteTrainerOptions
  rw [optsGo_false_skip tid gender dbl partyFlags items pre (openL :: (mid ++ uLine :: post)) hpre]
  have hstep : rewriteOptsGo tid gender dbl partyFlags items false
      (openL :: (mid ++ uLine :: post))
      = openL :: rewriteOptsGo tid gender dbl partyFlags items
          (searchSome (patIdLitAt tid) openL) (mid ++ uLine :: post) := rfl
  rw [hstep, hopen,
    optsGo_true_skipmid tid gender dbl partyFlags items mid (uLine :: post) hmid,
    optsGo_true_cons]
  have hidx : pre.length + 1 + mid.length = pre.length + (1 + mid.length) := by omega
  rw [hidx, getD_append_len pre _ (1 + mid.length)]
  have hidx2 : 1 + mid.length = mid.length + 1 := by omega
  rw [hidx2, List.getD_cons_succ]
  have hlenmap : mid.length = (mid.map (optsProcLine gender dbl partyFlags items)).length + 0 := by
    rw [List.length_map]
    omega
  rw [hlenmap, getD_append_len (mid.map (optsProcLine gender dbl partyFlags items)) _ 0,
    List.getD_cons_zero]
  have hsearchu : searchSome patUnion3At uLine = true :=
    searchSome_of_firstHit patUnion3At uLine (pre2, (g1, g2, g3, rest)) hu
  unfold optsProcLine
  rw [hg, hd, hf, hi, hsearchu]
  simp only [Bool.false_eq_true, if_false, if_true]
  exact subUnion_line ((flagsToUnionAndStruct partyFlags).1) uLine pre2 g1 g2 g3 rest hu hrest

/-- Witness for C6 at a concrete record and a flags string with HAS_ITEM. -/
theorem claim6_witness :
    (rewriteTrainerOptions
        ["[TRAINER_A] = \x7b\n".toList,
          "    .gender = GENDER_MALE,\n".toList,
          "    .party = \x7b.NoItemDefaultMoves = sParty_A\x7d,\n".toList,
          "\x7d,\n".toList]
        ("TRAINER_A".toList) ("GENDER_MALE".toList) false
        ("PARTY_FLAG_HAS_ITEM".toList) []).getD 2 []
      = "    ".toList
          ++ (".party = \x7b".toList
              ++ (flagsToUnionAndStruct ("PARTY_FLAG_HAS_ITEM".toList)).1
              ++ " = sParty_A".toList)
          ++ "\x7d,\n".toList :=
  claim6_union_selector ("TRAINER_A".toList) ("GENDER_MALE".toList)
    ("PARTY_FLAG_HAS_ITEM".toList) false [] [] ["    .gender = GENDER_MALE,\n".toList]
    ["\x7d,\n".toList] ("[TRAINER_A] = \x7b\n".toList)
    ("    .party = \x7b.NoItemDefaultMoves = sParty_A\x7d,\n".toList)
    ("    ".toList) (".party = \x7b".toList) (".NoItemDefaultMoves".toList)
    (" = sParty_A".toList) ("\x7d,\n".toList)
    (by decide) (by decide) (by decide) (by decide) (by decide) (by decide) (by decide)
    (by decide) (by decide)

/-! ### The party-file reader `parseTrainerParties` (program.py lines 38-65) -/

/-- The regex class `[A-Z0-9_]`. -/
def isCapDigit (c : Char) : Bool := c.isUpper || c.isDigit || c == '_'

/-- Lazy `(.*?\})` under DOTALL: the shortest prefix ending in the first
'\x7d', returned with that brace included, plus the remainder. -/
def lazyUptoBrace : List Char → Option (List Char × List Char)
  | [] => none
  | c :: cs =>
    if c = '}' then some (['}'], cs)
    else (lazyUptoBrace cs).map (fun p => (c :: p.1, p.2))

/-- Lazy `(.*?)\};` under DOTALL: the prefix before the first "\x7d;"
occurrence, plus the remainder after those two characters. -/
def lazyUptoCloseSemi : List Char → Option (List Char × List Char)
  | [] => none
  | c :: cs =>
    if startsL ("\x7d;".toList) (c :: cs) then some ([], cs.drop 1)
    else (lazyUptoCloseSemi cs).map (fun p => (c :: p.1, p.2))

/-- Matcher for the macro pattern `#define\s+(\w+)\s*\\\n(.*?\})` (DOTALL):
returns (name, body, remainder).  The greedy `\s*` is a maximal munch here:
its run is followed by the non-whitespace '\\'. -/
def macroAt (s : List Char) : Option (List Char × List Char × List Char) := do
  let r1 ← dropLit ("#define".toList) s
  let (_, r2) ← spanClass1 isWs r1
  let (name, r3) ← spanClass1 isWord r2
  let r4 ← dropLit ['\\', '\n'] (r3.dropWhile isWs)
  let (body, r5) ← lazyUptoBrace r4
  pure (name, body, r5)

/-- Matcher for `struct\s+\w+\s+(sParty_\w+)\[\]\s*=\s*\{(.*?)\};` (DOTALL):
returns (roster name, body, remainder). -/
def partyDeclAt (s : List Char) : Option (List Char × List Char × List Char) := do
  let r1 ← dropLit ("struct".toList) s
  let (_, r2) ← spanClass1 isWs r1
  let (_, r3) ← spanClass1 isWord r2
  let (_, r4) ← spanClass1 isWs r3
  let r5 ← dropLit ("sParty_".toList) r4
  let (tl, r6) ← spanClass1 isWord r5
  let r7 ← dropLit ("[]".toList) r6
  let r8 ← dropLit ['='] (r7.dropWhile isWs)
  let r9 ← dropLit ['{'] (r8.dropWhile isWs)
  let (body, r10) ← lazyUptoCloseSemi r9
  pure ("sParty_".toList ++ tl, body, r10)

/-- Matcher for the species half `\.species\s*=\s*(SPECIES_[A-Z0-9_]+)`. -/
def speciesAt (s : List Char) : Option (List Char × List Char) := do
  let r1 ← dropLit (".species".toList) s
  let r2 ← dropLit ['='] (r1.dropWhile isWs)
  let r3 ← dropLit ("SPECIES_".toList) (r2.dropWhile isWs)
  let (tl, r4) ← spanClass1 isCapDigit r3
  pure ("SPECIES_".toList ++ tl, r4)

/-- Matcher for one species/level pair
`\.lvl\s*=\s*(\d+).*?\.species\s*=\s*(SPECIES_[A-Z0-9_]+)` (DOTALL, the gap
lazy): returns ((digits, species), remainder after the species group). -/
def pairAt (s : List Char) : Option ((List Char × List Char) × List Char) := do
  let r1 ← dropLit (".lvl".toList) s
  let r2 ← dropLit ['='] (r1.dropWhile isWs)
  let (digits, r3) ← spanClass1 (fun c => c.isDigit) (r2.dropWhile isWs)
  let (_, sp) ← firstHit speciesAt r3
  pure ((digits, sp.1), sp.2)

/-- Python's `int()` on the digit-only strings captured by `(\d+)`. -/
def parseNatDigits (s : List Char) : Nat :=
  s.foldl (fun acc c => acc * 10 + (c.toNat - 48)) 0

/-- `re.findall` of the pair pattern: non-overlapping matches left to
right, resuming after each match (fuel-bounded scan). -/
def findPairs : Nat → List Char → List PartyMon
  | 0, _ => []
  | _ + 1, [] => []
  | n + 1, c :: cs =>
    match pairAt (c :: cs) with
    | some ((digits, sp), rest) =>
      { level := parseNatDigits digits, species := sp } :: findPairs n rest
    | none => findPairs n cs

/-- `finditer` of the macro pattern, building the `macros` dict in match
order (a later entry with the same name shadows an earlier one, as in a
Python dict). -/
def findMacros : Nat → List Char → List (List Char × List PartyMon)
  | 0, _ => []
  | _ + 1, [] => []
  | n + 1, c :: cs =>
    match macroAt (c :: cs) with
    | some (name, body, rest) =>
      (name, findPairs body.length body) :: findMacros n rest
    | none => findMacros n cs

/-- Python-dict lookup on an insertion-ordered association list: the last
binding wins. -/
def lookupLast {α : Type} (d : List (List Char × α)) (k : List Char) : Option α :=
  d.foldl (fun acc p => if p.1 = k then some p.2 else acc) none

/-- `finditer` of the roster-declaration pattern: each declaration's body is
either a macro reference (stripped body is a known macro name) or parsed
directly for pairs. -/
def findParties (macros : List (List Char × List PartyMon)) :
    Nat → List Char → List (List Char × List PartyMon)
  | 0, _ => []
  | _ + 1, [] => []
  | n + 1, c :: cs =>
    match partyDeclAt (c :: cs) with
    | some (name, body, rest) =>
      (name,
        match lookupLast macros (pyStrip body) with
        | some ms => ms
        | none => findPairs (pyStrip body).length (pyStrip body))
        :: findParties macros n rest
    | none => findParties macros n cs

/-- `parseTrainerParties` (program.py lines 38-65) on the file's full text:
the parties dict as an insertion-ordered association list (query it with
`lookupLast`). -/
def parseTrainerParties (text : List Char) : List (List Char × List PartyMon) :=
  findParties (findMacros text.length text) text.length text

/-- `f.writelines` then a fresh `f.read()`: the file's text is the
concatenation of its lines. -/
def joinLines (lines : List (List Char)) : List Char := lines.flatten

example :
    lookupLast
      (parseTrainerParties (("#define PARTY_RATTATA \\\n" ++
        "    \x7b .lvl = 5, .species = SPECIES_RATTATA \x7d\n\n" ++
        "struct TrainerMonNoItemDefaultMoves sParty_Foo[] = \x7b\n" ++
        "    PARTY_RATTATA\n" ++
        "\x7d;\n").toList))
      ("sParty_Foo".toList)
      = some [⟨5, "SPECIES_RATTATA".toList⟩] := by decide

example :
    lookupLast
      (parseTrainerParties (("struct TrainerMonItemCustomMoves sParty_Bar[] = \x7b\n" ++
        "    \x7b\n        .lvl = 30,\n        .species = SPECIES_MEW,\n    \x7d,\n" ++
        "\x7d;\n").toList))
      ("sParty_Bar".toList)
      = some [⟨30, "SPECIES_MEW".toList⟩] := by decide

/-! ### Claim C9: party round trip -/

/-- The party file used by the C9 counterexample and witness. -/
def partyFile : List (List Char) :=
  ["struct TrainerMonNoItemDefaultMoves sParty_A[] = \x7b\n".toList,
    "    \x7b .lvl = 7, .species = SPECIES_PIDGEY \x7d,\n".toList,
    "\x7d;\n".toList]

/-- Claim C9 fails as stated: for the member list [(5, "X")] — a species
identifier not of the `SPECIES_[A-Z0-9_]+` form — the rewrite writes
".species = X,", which the reader's pair pattern cannot match, so re-parsing
yields an empty roster rather than the given members. -/
theorem claim9_counterexample :
    lookupLast
        (parseTrainerParties (joinLines
          (rewriteTrainerParty partyFile ("sParty_A".toList) [⟨5, "X".toList⟩]
            (some ("TrainerMonNoItemDefaultMoves".toList)))))
        ("sParty_A".toList)
      = some []
    ∧ some ([] : List PartyMon) ≠ some [(⟨5, "X".toList⟩ : PartyMon)] := by
  exact ⟨by decide, by decide⟩

/-- Rewriting under a shared right factor after merging two left factors. -/
theorem appendCongr {a b c d : List Char} (h : a ++ b = c ++ d) (X : List Char) :
    a ++ (b ++ X) = c ++ (d ++ X) := by
  rw [← List.append_assoc, ← List.append_assoc, h]

theorem dropLit_self : ∀ (p r : List Char), dropLit p (p ++ r) = some r := by
  intro p
  induction p with
  | nil => intro r; rfl
  | cons c cs ih =>
    intro r
    show (if c = c then dropLit cs (cs ++ r) else none) = some r
    rw [if_pos rfl, ih r]

theorem takeWhile_all_append (p : Char → Bool) (a b : List Char)
    (h : ∀ c ∈ a, p c = true) : (a ++ b).takeWhile p = a ++ b.takeWhile p := by
  induction a with
  | nil => rfl
  | cons c cs ih =>
    rw [List.cons_append, List.takeWhile_cons, h c (List.mem_cons_self c cs)]
    simp only [if_true]
    rw [ih fun x hx => h x (List.mem_cons_of_mem c hx), List.cons_append]

theorem takeWhile_head_false (p : Char → Bool) :
    ∀ (b : List Char), (∀ c, b.head? = some c → p c = false) → b.takeWhile p = [] := by
  intro b hb
  cases b with
  | nil => rfl
  | cons c cs =>
    rw [List.takeWhile_cons, hb c rfl]
    rfl

theorem dropWhile_head_false (p : Char → Bool) :
    ∀ (b : List Char), (∀ c, b.head? = some c → p c = false) → b.dropWhile p = b := by
  intro b hb
  cases b with
  | nil => rfl
  | cons c cs =>
    rw [List.dropWhile_cons, hb c rfl]
    rfl

theorem spanClass1_exact (cl : Char → Bool) (a r : List Char)
    (ha : ∀ c ∈ a, cl c = true) (hne : a ≠ [])
    (hr : ∀ c, r.head? = some c → cl c = false) :
    spanClass1 cl (a ++ r) = some (a, r) := by
  have htw : (a ++ r).takeWhile cl = a := by
    rw [takeWhile_all_append cl a r ha, takeWhile_head_false cl r hr, List.append_nil]
  have hdw : (a ++ r).dropWhile cl = r := by
    rw [dropWhile_all_append cl a r ha, dropWhile_head_false cl r hr]
  unfold spanClass1
  rw [htw, hdw]
  cases a with
  | nil => exact absurd rfl hne
  | cons x xs => rfl

theorem drop_len_append {α : Type} : ∀ (a b : List α) (i : Nat),
    (a ++ b).drop (a.length + i) = b.drop i := by
  intro a
  induction a with
  | nil =>
    intro b i
    rw [List.nil_append, List.length_nil, Nat.zero_add]
  | cons c cs ih =>
    intro b i
    rw [List.cons_append, List.length_cons]
    have heq : cs.length + 1 + i = (cs.length + i) + 1 := by omega
    rw [heq]
    show (cs ++ b).drop (cs.length + i) = b.drop i
    exact ih b i

theorem startsL_ne_nil {c : Char} {ps s : List Char}
    (h : startsL (c :: ps) s = true) : s ≠ [] := by
  cases s with
  | nil => cases h
  | cons d ds => exact fun hh => List.noConfusion hh

/-! Decimal rendering facts. -/

theorem natDigitChar_isDigit (k : Nat) (hk : k < 10) :
    (natDigitChar k).isDigit = true := by
  unfold natDigitChar
  interval_cases k <;> decide

theorem natToCharsGo_digits :
    ∀ (fuel n : Nat) (acc : List Char), (∀ c ∈ acc, c.isDigit = true) →
      ∀ c ∈ natToCharsGo fuel n acc, c.isDigit = true := by
  intro fuel
  induction fuel with
  | zero => intro n acc hacc; exact hacc
  | succ f ih =>
    intro n acc hacc
    cases n with
    | zero => exact hacc
    | succ m =>
      show ∀ c ∈ natToCharsGo f ((m + 1) / 10) (natDigitChar ((m + 1) % 10) :: acc),
        c.isDigit = true
      refine ih _ _ ?_
      intro c hc
      rcases List.mem_cons.mp hc with hc | hc
      · subst hc
        exact natDigitChar_isDigit _ (Nat.mod_lt _ (by decide))
      · exact hacc c hc

theorem natToChars_digits (n : Nat) : ∀ c ∈ natToChars n, c.isDigit = true := by
  unfold natToChars
  by_cases h : n = 0
  · rw [if_pos h]
    intro c hc
    rcases List.mem_singleton.mp hc with rfl
    decide
  · rw [if_neg h]
    exact natToCharsGo_digits n n [] (fun c hc => absurd hc (List.not_mem_nil c))

theorem natToCharsGo_len : ∀ (fuel n : Nat) (acc : List Char),
    acc.length ≤ (natToCharsGo fuel n acc).length := by
  intro fuel
  induction fuel with
  | zero => intro n acc; exact Nat.le_refl _
  | succ f ih =>
    intro n acc
    cases n with
    | zero => exact Nat.le_refl _
    | succ m =>
      calc acc.length ≤ (natDigitChar ((m + 1) % 10) :: acc).length := Nat.le_succ _
        _ ≤ _ := ih _ _

theorem natToChars_ne_nil (n : Nat) : natToChars n ≠ [] := by
  unfold natToChars
  by_cases h : n = 0
  · rw [if_pos h]
    exact fun hh => List.noConfusion hh
  · rw [if_neg h]
    cases hn : n with
    | zero => exact absurd hn h
    | succ m =>
      show natToCharsGo (m + 1) (m + 1) [] ≠ []
      have hstep : natToCharsGo (m + 1) (m + 1) []
          = natToCharsGo m ((m + 1) / 10) [natDigitChar ((m + 1) % 10)] := rfl
      rw [hstep]
      intro hnil
      have := natToCharsGo_len m ((m + 1) / 10) [natDigitChar ((m + 1) % 10)]
      rw [hnil] at this
      simp at this

theorem natToCharsGo_n_zero : ∀ (fuel : Nat) (acc : List Char),
    natToCharsGo fuel 0 acc = acc := by
  intro fuel acc
  cases fuel with
  | zero => rfl
  | succ f => rfl

/-- Digit accumulation is an append: the digits of `n` land in front of `acc`. -/
theorem natToCharsGo_append : ∀ (n fuel : Nat) (acc : List Char), n ≤ fuel →
    natToCharsGo fuel n acc = natToCharsGo n n [] ++ acc := by
  intro n
  induction n using Nat.strong_induction_on with
  | _ n ih =>
    intro fuel acc hle
    cases n with
    | zero => rw [natToCharsGo_n_zero, natToCharsGo_n_zero, List.nil_append]
    | succ m =>
      cases fuel with
      | zero => exact absurd hle (Nat.not_succ_le_zero m)
      | succ f =>
        have hq : (m + 1) / 10 < m + 1 := Nat.div_lt_self (Nat.succ_pos m) (by decide)
        have hstep : natToCharsGo (f + 1) (m + 1) acc
            = natToCharsGo f ((m + 1) / 10) (natDigitChar ((m + 1) % 10) :: acc) := rfl
        have hstep2 : natToCharsGo (m + 1) (m + 1) []
            = natToCharsGo m ((m + 1) / 10) [natDigitChar ((m + 1) % 10)] := rfl
        rw [hstep, hstep2]
        rw [ih ((m + 1) / 10) hq f _ (by omega), ih ((m + 1) / 10) hq m _ (by omega)]
        rw [List.append_assoc]
        rfl

theorem natDigitChar_val (k : Nat) (hk : k < 10) : (natDigitChar k).toNat = 48 + k := by
  unfold natDigitChar
  interval_cases k <;> decide

theorem parseNat_digits_aux : ∀ n : Nat, parseNatDigits (natToCharsGo n n []) = n := by
  intro n
  induction n using Nat.strong_induction_on with
  | _ n ih =>
    cases n with
    | zero => rfl
    | succ m =>
      have hq : (m + 1) / 10 < m + 1 := Nat.div_lt_self (Nat.succ_pos m) (by decide)
      have hstep : natToCharsGo (m + 1) (m + 1) []
          = natToCharsGo m ((m + 1) / 10) [natDigitChar ((m + 1) % 10)] := rfl
      rw [hstep, natToCharsGo_append ((m + 1) / 10) m _ (by omega)]
      unfold parseNatDigits
      rw [List.foldl_append]
      have hfold : List.foldl (fun acc c => acc * 10 + (c.toNat - 48)) 0
          (natToCharsGo ((m + 1) / 10) ((m + 1) / 10) []) = (m + 1) / 10 :=
        ih ((m + 1) / 10) hq
      rw [hfold]
      show (m + 1) / 10 * 10 + ((natDigitChar ((m + 1) % 10)).toNat - 48) = m + 1
      rw [natDigitChar_val _ (Nat.mod_lt _ (by decide))]
      omega

/-- The decimal print of the writer re-parses to the same number. -/
theorem parseNat_natToChars (n : Nat) : parseNatDigits (natToChars n) = n := by
  unfold natToChars
  by_cases h : n = 0
  · rw [if_pos h, h]
    rfl
  · rw [if_neg h]
    exact parseNat_digits_aux n

theorem isPySpace_cases {c : Char} (h : isPySpace c = true) :
    c = ' ' ∨ c = '\t' ∨ c = '\n' ∨ c = '\r' ∨ c = '\x0b' ∨ c = '\x0c' := by
  unfold isPySpace at h
  simp only [Bool.or_eq_true, beq_iff_eq] at h
  tauto

theorem isWord_not_ws {c : Char} (h : isWord c = true) : isWs c = false := by
  by_contra hne
  rcases isPySpace_cases (by
    show isPySpace c = true
    cases hval : isWs c with
    | false => exact absurd hval hne
    | true => exact hval) with rfl | rfl | rfl | rfl | rfl | rfl <;>
    exact absurd h (by decide)

theorem isDigit_not_ws {c : Char} (h : c.isDigit = true) : isWs c = false := by
  by_contra hne
  rcases isPySpace_cases (by
    show isPySpace c = true
    cases hval : isWs c with
    | false => exact absurd hval hne
    | true => exact hval) with rfl | rfl | rfl | rfl | rfl | rfl <;>
    exact absurd h (by decide)

/-- The species identifiers the writer emits that the reader's
`SPECIES_[A-Z0-9_]+` group matches in full. -/
def speciesShaped (mon : PartyMon) : Prop :=
  startsL ("SPECIES_".toList) mon.species = true
  ∧ mon.species.drop 8 ≠ []
  ∧ ∀ c ∈ mon.species.drop 8, isCapDigit c = true

instance (mon : PartyMon) : Decidable (speciesShaped mon) := by
  unfold speciesShaped
  infer_instance

theorem speciesShaped_decomp {mon : PartyMon} (h : speciesShaped mon) :
    mon.species = "SPECIES_".toList ++ mon.species.drop 8 := by
  rcases (startsL_iff _ _).mp h.1 with ⟨r, hr⟩
  have hdrop : mon.species.drop 8 = r := by
    rw [hr]
    exact drop_len_append ("SPECIES_".toList) r 0
  rw [hdrop]
  exact hr

/-- The span of text one `findall` match of the pair pattern consumes in the
regenerated member block. -/
def pairsR (mon : PartyMon) : List Char :=
  ".lvl = ".toList ++ natToChars mon.level ++ ",\n        .species = ".toList
    ++ mon.species

/-- The regenerated text after the first member's match span: junk, match
span and closing junk for each later member. -/
def scanTail : List PartyMon → List Char
  | [] => []
  | m :: ms =>
    "\n    \x7b\n        ".toList ++ pairsR m ++ ",\n    \x7d,".toList ++ scanTail ms

/-- The scan region of the whole stripped body: the first match span and its
closing junk, then the later members. -/
def scanBody : List PartyMon → List Char
  | [] => []
  | m :: ms => pairsR m ++ ",\n    \x7d,".toList ++ scanTail ms

/-- The member lines of the regenerated block, flattened to raw text. -/
def memberTextF (mons : List PartyMon) : List Char :=
  ((mons.map monLines).flatten).flatten

theorem memberTextF_cons (m : PartyMon) (ms : List PartyMon) :
    memberTextF (m :: ms) = (monLines m).flatten ++ memberTextF ms := by
  unfold memberTextF
  rw [List.map_cons, List.flatten_cons, List.flatten_append]

theorem appendCongr1 {a b c : List Char} (h : a ++ b = c) (X : List Char) :
    a ++ (b ++ X) = c ++ X := by
  rw [← List.append_assoc, h]

theorem monLines_flatten (m : PartyMon) :
    (monLines m).flatten
      = "    \x7b\n        ".toList ++ (pairsR m ++ ",\n    \x7d,\n".toList) := by
  unfold monLines pairsR
  simp only [List.flatten_cons, List.flatten_nil, List.append_nil, List.append_assoc]
  rw [appendCongr (show "    \x7b\n".toList ++ "        .lvl = ".toList
    = "    \x7b\n        ".toList ++ ".lvl = ".toList by decide)]
  rw [appendCongr1 (show ",\n".toList ++ "        .species = ".toList
    = ",\n        .species = ".toList by decide)]
  rw [show ",\n".toList ++ "    \x7d,\n".toList = ",\n    \x7d,\n".toList by decide]

/-- The flattened member text, written with each member's match span exposed. -/
def innerFull : List PartyMon → List Char
  | [] => []
  | m :: ms =>
    "    \x7b\n        ".toList ++ (pairsR m ++ (",\n    \x7d,\n".toList ++ innerFull ms))

theorem memberTextF_innerFull : ∀ mons : List PartyMon, memberTextF mons = innerFull mons := by
  intro mons
  induction mons with
  | nil => rfl
  | cons m ms ih =>
    rw [memberTextF_cons, ih, monLines_flatten]
    show _ = "    \x7b\n        ".toList ++ (pairsR m ++ (",\n    \x7d,\n".toList ++ innerFull ms))
    simp [List.append_assoc]

/-- Splitting the final newline off the member text turns the block junk into
the uniform segments of `scanTail`. -/
theorem innerFull_snoc : ∀ (ms : List PartyMon) (X : List Char),
    X ++ (",\n    \x7d,\n".toList ++ innerFull ms)
      = X ++ (",\n    \x7d,".toList ++ (scanTail ms ++ ['\n'])) := by
  intro ms
  induction ms with
  | nil =>
    intro X
    show X ++ (",\n    \x7d,\n".toList ++ []) = X ++ (",\n    \x7d,".toList ++ ([] ++ ['\n']))
    rw [List.append_nil, List.nil_append]
    rw [show ",\n    \x7d,\n".toList = ",\n    \x7d,".toList ++ ['\n'] by decide]
  | cons m2 ms' ih =>
    intro X
    show X ++ (",\n    \x7d,\n".toList ++ ("    \x7b\n        ".toList
        ++ (pairsR m2 ++ (",\n    \x7d,\n".toList ++ innerFull ms'))))
      = X ++ (",\n    \x7d,".toList ++ (("\n    \x7b\n        ".toList
        ++ pairsR m2 ++ ",\n    \x7d,".toList ++ scanTail ms') ++ ['\n']))
    rw [ih (pairsR m2)]
    rw [appendCongr1 (show ",\n    \x7d,\n".toList ++ "    \x7b\n        ".toList
      = ",\n    \x7d,".toList ++ "\n    \x7b\n        ".toList by decide)]
    simp [List.append_assoc]

/-- The scan text always ends in the comma of the final close junk. -/
theorem scanTail_last : ∀ (ms : List PartyMon) (X : List Char),
    ∃ Z, X ++ (",\n    \x7d,".toList ++ scanTail ms) = Z ++ [','] := by
  intro ms
  induction ms with
  | nil =>
    intro X
    refine ⟨X ++ ",\n    \x7d".toList, ?_⟩
    show X ++ (",\n    \x7d,".toList ++ []) = _
    rw [List.append_nil,
      show ",\n    \x7d,".toList = ",\n    \x7d".toList ++ [','] by decide,
      List.append_assoc]
  | cons m2 ms' ih =>
    intro X
    rcases ih (pairsR m2) with ⟨Z, hZ⟩
    refine ⟨X ++ (",\n    \x7d,".toList ++ ("\n    \x7b\n        ".toList ++ Z)), ?_⟩
    show X ++ (",\n    \x7d,".toList ++ ("\n    \x7b\n        ".toList
      ++ pairsR m2 ++ ",\n    \x7d,".toList ++ scanTail ms')) = _
    have hmid : pairsR m2 ++ (",\n    \x7d,".toList ++ scanTail ms') = Z ++ [','] := by
      rw [← hZ]
    simp only [List.append_assoc]
    rw [hmid]

/-- `strip`'s trailing pass removes exactly one final newline when the
character before it is not whitespace. -/
theorem stripTrail_newline (Z : List Char) (c : Char) (hc : isPySpace c = false) :
    ((((Z ++ [c]) ++ ['\n']).reverse.dropWhile isPySpace).reverse) = Z ++ [c] := by
  rw [List.reverse_append, List.reverse_append]
  show ((['\n'] ++ (c :: Z.reverse)).dropWhile isPySpace).reverse = Z ++ [c]
  rw [List.cons_append, List.nil_append, List.dropWhile_cons]
  rw [show isPySpace '\n' = true by decide]
  simp only [if_true]
  rw [List.dropWhile_cons, hc]
  simp only [Bool.false_eq_true, if_false]
  rw [List.reverse_cons, List.reverse_reverse]

/-- The stripped body of the regenerated declaration is exactly the scan
region: leading whitespace and the final newline are removed. -/
theorem stripBody (m : PartyMon) (ms : List PartyMon) :
    pyStrip ('\n' :: memberTextF (m :: ms))
      = "\x7b\n        ".toList ++ scanBody (m :: ms) := by
  have hfull : '\n' :: memberTextF (m :: ms)
      = "\n    ".toList ++ ("\x7b\n        ".toList
        ++ (pairsR m ++ (",\n    \x7d,\n".toList ++ innerFull ms))) := by
    rw [memberTextF_innerFull]
    show '\n' :: ("    \x7b\n        ".toList ++ _) = _
    rw [← List.cons_append,
      show '\n' :: "    \x7b\n        ".toList
        = "\n    ".toList ++ "\x7b\n        ".toList by decide,
      List.append_assoc]
  unfold pyStrip
  rw [hfull, dropWhile_all_append isPySpace ("\n    ".toList) _ (by decide)]
  have hbrace : "\x7b\n        ".toList ++ (pairsR m ++ (",\n    \x7d,\n".toList ++ innerFull ms))
      = '\x7b' :: ("\n        ".toList ++ (pairsR m ++ (",\n    \x7d,\n".toList ++ innerFull ms))) := rfl
  rw [hbrace, List.dropWhile_cons, show isPySpace '\x7b' = false by decide]
  simp only [Bool.false_eq_true, if_false]
  rw [← hbrace, innerFull_snoc ms (pairsR m)]
  rcases scanTail_last ms (pairsR m) with ⟨Z, hZ⟩
  have hshape : "\x7b\n        ".toList ++ (pairsR m ++ (",\n    \x7d,".toList ++ (scanTail ms ++ ['\n'])))
      = (("\x7b\n        ".toList ++ Z) ++ [',']) ++ ['\n'] := by
    have : pairsR m ++ (",\n    \x7d,".toList ++ scanTail ms) = Z ++ [','] := hZ
    calc "\x7b\n        ".toList ++ (pairsR m ++ (",\n    \x7d,".toList ++ (scanTail ms ++ ['\n'])))
        = "\x7b\n        ".toList ++ ((pairsR m ++ (",\n    \x7d,".toList ++ scanTail ms)) ++ ['\n']) := by
          simp [List.append_assoc]
      _ = "\x7b\n        ".toList ++ ((Z ++ [',']) ++ ['\n']) := by rw [this]
      _ = (("\x7b\n        ".toList ++ Z) ++ [',']) ++ ['\n'] := by simp [List.append_assoc]
  rw [hshape, stripTrail_newline _ _ (by decide)]
  have hback : ("\x7b\n        ".toList ++ Z) ++ [','] 
      = "\x7b\n        ".toList ++ (pairsR m ++ (",\n    \x7d,".toList ++ scanTail ms)) := by
    rw [hZ]
    simp [List.append_assoc]
  have hsb : scanBody (m :: ms) = pairsR m ++ (",\n    \x7d,".toList ++ scanTail ms) := by
    unfold scanBody
    exact List.append_assoc (pairsR m) _ _
  rw [hsb, hback]

theorem appendSplit {a c d : List Char} (h : a = c ++ d) (X : List Char) :
    a ++ X = c ++ (d ++ X) := by
  rw [h, List.append_assoc]

theorem dropLit_startsL : ∀ (p s : List Char) (r : List Char),
    dropLit p s = some r → startsL p s = true := by
  intro p
  induction p with
  | nil => intro s r _; rfl
  | cons x xs ih =>
    intro s r h
    cases s with
    | nil => cases h
    | cons c cs =>
      by_cases hx : x = c
      · show (x == c && startsL xs cs) = true
        have hrec : dropLit xs cs = some r := by
          have hstep : dropLit (x :: xs) (c :: cs)
              = if x = c then dropLit xs cs else none := rfl
          rw [hstep, if_pos hx] at h
          exact h
        rw [beq_iff_eq.mpr hx, ih cs r hrec]
        rfl
      · exfalso
        have hstep : dropLit (x :: xs) (c :: cs)
            = if x = c then dropLit xs cs else none := rfl
        rw [hstep, if_neg hx] at h
        cases h

theorem speciesAt_not_dot {c : Char} (h : ¬ c = '.') (cs : List Char) :
    speciesAt (c :: cs) = none := by
  unfold speciesAt
  have h1 : dropLit (".species".toList) (c :: cs) = none := by
    show (if '.' = c then dropLit ("species".toList) cs else none) = none
    rw [if_neg (fun hh => h hh.symm)]
  rw [h1]
  rfl

theorem pairAt_not_dot {c : Char} (h : ¬ c = '.') (cs : List Char) :
    pairAt (c :: cs) = none := by
  unfold pairAt
  have h1 : dropLit (".lvl".toList) (c :: cs) = none := by
    show (if '.' = c then dropLit ("lvl".toList) cs else none) = none
    rw [if_neg (fun hh => h hh.symm)]
  rw [h1]
  rfl

theorem firstHit_skip_head {α : Type} (mf : List Char → Option α)
    (hm : ∀ c cs, ¬ c = '.' → mf (c :: cs) = none) :
    ∀ (a b : List Char), (∀ c ∈ a, ¬ c = '.') →
      firstHit mf (a ++ b) = (firstHit mf b).map (fun pa => (a ++ pa.1, pa.2)) := by
  intro a
  induction a with
  | nil =>
    intro b _
    cases hfb : firstHit mf b <;> simp [hfb]
  | cons c cs ih =>
    intro b ha
    rw [List.cons_append,
      firstHit_cons_none mf c (cs ++ b) (hm c _ (ha c (List.mem_cons_self c cs))),
      ih b (fun x hx => ha x (List.mem_cons_of_mem c hx))]
    cases hfb : firstHit mf b <;> simp [hfb]

/-- `speciesAt` at the exact text the writer lays down. -/
theorem speciesAt_at (t rest : List Char) (ht1 : t ≠ [])
    (ht2 : ∀ c ∈ t, isCapDigit c = true)
    (hrest : ∀ c, rest.head? = some c → isCapDigit c = false) :
    speciesAt (".species = ".toList ++ (("SPECIES_".toList ++ t) ++ rest))
      = some ("SPECIES_".toList ++ t, rest) := by
  unfold speciesAt
  have h1 : dropLit (".species".toList)
      (".species = ".toList ++ (("SPECIES_".toList ++ t) ++ rest))
      = some (" = ".toList ++ (("SPECIES_".toList ++ t) ++ rest)) := by
    rw [appendSplit (show ".species = ".toList = ".species".toList ++ " = ".toList by decide)]
    exact dropLit_self _ _
  rw [h1]
  simp only [Option.bind_eq_bind, Option.some_bind]
  have h2 : (" = ".toList ++ (("SPECIES_".toList ++ t) ++ rest)).dropWhile isWs
      = '=' :: (' ' :: (("SPECIES_".toList ++ t) ++ rest)) := by
    show (' ' :: ('=' :: (' ' :: (("SPECIES_".toList ++ t) ++ rest)))).dropWhile isWs = _
    rw [List.dropWhile_cons, show isWs ' ' = true by decide]
    simp only [if_true]
    rw [List.dropWhile_cons, show isWs '=' = false by decide]
    simp only [Bool.false_eq_true, if_false]
  rw [h2]
  have h3 : dropLit ['='] ('=' :: (' ' :: (("SPECIES_".toList ++ t) ++ rest)))
      = some (' ' :: (("SPECIES_".toList ++ t) ++ rest)) := by
    show (if '=' = '=' then some (' ' :: (("SPECIES_".toList ++ t) ++ rest)) else none) = _
    rw [if_pos rfl]
  rw [h3]
  simp only [Option.some_bind]
  have h4 : (' ' :: (("SPECIES_".toList ++ t) ++ rest)).dropWhile isWs
      = ("SPECIES_".toList ++ t) ++ rest := by
    rw [List.dropWhile_cons, show isWs ' ' = true by decide]
    simp only [if_true]
    show ('S' :: ("PECIES_".toList ++ t ++ rest)).dropWhile isWs = _
    rw [List.dropWhile_cons, show isWs 'S' = false by decide]
    simp only [Bool.false_eq_true, if_false]
    rfl
  rw [h4]
  have h5 : dropLit ("SPECIES_".toList) (("SPECIES_".toList ++ t) ++ rest)
      = some (t ++ rest) := by
    rw [List.append_assoc]
    exact dropLit_self _ _
  rw [h5]
  simp only [Option.some_bind]
  rw [spanClass1_exact isCapDigit t rest ht2 ht1 hrest]
  rfl

theorem pairsR_cons (m : PartyMon) :
    pairsR m = '.' :: ("lvl = ".toList
      ++ (natToChars m.level ++ (",\n        .species = ".toList ++ m.species))) := by
  unfold pairsR
  rw [show ".lvl = ".toList = '.' :: "lvl = ".toList from by decide]
  simp [List.append_assoc]

theorem pairsR_len (m : PartyMon) : 1 ≤ (pairsR m).length := by
  rw [pairsR_cons]
  simp

/-- One full pair match over the writer's member span. -/
theorem pairAt_pairsR (m : PartyMon) (rest : List Char) (hm : speciesShaped m)
    (hrest : ∀ c, rest.head? = some c → (isCapDigit c = false ∧ c.isDigit = false)) :
    pairAt (pairsR m ++ rest) = some ((natToChars m.level, m.species), rest) := by
  have hs : pairsR m ++ rest
      = ".lvl".toList ++ (" = ".toList ++ (natToChars m.level
        ++ (",\n        .species = ".toList ++ (m.species ++ rest)))) := by
    unfold pairsR
    simp only [List.append_assoc]
    rw [← List.append_assoc (".lvl = ".toList)]
    rw [appendSplit (show ".lvl = ".toList = ".lvl".toList ++ " = ".toList by decide)]
    simp [List.append_assoc]
  unfold pairAt
  rw [hs, dropLit_self]
  simp only [Option.bind_eq_bind, Option.some_bind]
  have h2 : (" = ".toList ++ (natToChars m.level
      ++ (",\n        .species = ".toList ++ (m.species ++ rest)))).dropWhile isWs
      = '=' :: (' ' :: (natToChars m.level
        ++ (",\n        .species = ".toList ++ (m.species ++ rest)))) := by
    show (' ' :: ('=' :: (' ' :: _))).dropWhile isWs = _
    rw [List.dropWhile_cons, show isWs ' ' = true by decide]
    simp only [if_true]
    rw [List.dropWhile_cons, show isWs '=' = false by decide]
    simp only [Bool.false_eq_true, if_false]
    rfl
  rw [h2]
  have h3 : dropLit ['='] ('=' :: (' ' :: (natToChars m.level
      ++ (",\n        .species = ".toList ++ (m.species ++ rest)))))
      = some (' ' :: (natToChars m.level
        ++ (",\n        .species = ".toList ++ (m.species ++ rest)))) := by
    show (if '=' = '=' then some _ else none) = _
    rw [if_pos rfl]
  rw [h3]
  simp only [Option.some_bind]
  have h4 : (' ' :: (natToChars m.level
      ++ (",\n        .species = ".toList ++ (m.species ++ rest)))).dropWhile isWs
      = natToChars m.level ++ (",\n        .species = ".toList ++ (m.species ++ rest)) := by
    rw [List.dropWhile_cons, show isWs ' ' = true by decide]
    simp only [if_true]
    cases hD : natToChars m.level with
    | nil => exact absurd hD (natToChars_ne_nil m.level)
    | cons d ds =>
      rw [List.cons_append, List.dropWhile_cons,
        isDigit_not_ws (natToChars_digits m.level d (by rw [hD]; exact List.mem_cons_self d ds))]
      simp only [Bool.false_eq_true, if_false]
  rw [h4]
  have h5 : spanClass1 (fun c => c.isDigit)
      (natToChars m.level ++ (",\n        .species = ".toList ++ (m.species ++ rest)))
      = some (natToChars m.level, ",\n        .species = ".toList ++ (m.species ++ rest)) := by
    refine spanClass1_exact _ _ _ (natToChars_digits m.level) (natToChars_ne_nil m.level) ?_
    intro c hc
    have : c = ',' := by
      have hh : (',' :: ("\n        .species = ".toList ++ (m.species ++ rest))).head? = some c := hc
    -- head of the literal-led remainder
      exact (Option.some.injEq _ _ ▸ hh).symm ▸ rfl
    rw [this]
    decide
  rw [h5]
  simp only [Option.some_bind]
  have h6 : firstHit speciesAt
      (",\n        .species = ".toList ++ (m.species ++ rest))
      = some (",\n        ".toList, (m.species, rest)) := by
    rw [appendSplit (show ",\n        .species = ".toList
      = ",\n        ".toList ++ ".species = ".toList by decide)]
    rw [firstHit_skip_head speciesAt (fun c cs h => speciesAt_not_dot h cs)
      (",\n        ".toList) _ (by decide)]
    have hsp : speciesAt (".species = ".toList ++ (m.species ++ rest))
        = some (m.species, rest) := by
      have hdec := speciesShaped_decomp hm
      calc speciesAt (".species = ".toList ++ (m.species ++ rest))
          = speciesAt (".species = ".toList
              ++ (("SPECIES_".toList ++ m.species.drop 8) ++ rest)) := by rw [← hdec]
        _ = some ("SPECIES_".toList ++ m.species.drop 8, rest) := by
            refine speciesAt_at _ _ hm.2.1 hm.2.2 ?_
            intro c hc
            exact ((hrest c hc).1)
        _ = some (m.species, rest) := by rw [← hdec]
    have hcons : ".species = ".toList ++ (m.species ++ rest)
        = '.' :: ("species = ".toList ++ (m.species ++ rest)) := rfl
    rw [hcons] at hsp
    rw [hcons, firstHit_cons_some _ _ _ _ hsp]
    rfl
  rw [h6]
  rfl

theorem findPairs_nil : ∀ n, findPairs n [] = [] := by
  intro n
  cases n <;> rfl

theorem findPairs_skip : ∀ (a : List Char), (∀ c ∈ a, ¬ c = '.') →
    ∀ (b : List Char) (n : Nat), findPairs (a.length + n) (a ++ b) = findPairs n b := by
  intro a
  induction a with
  | nil =>
    intro _ b n
    rw [List.nil_append, List.length_nil, Nat.zero_add]
  | cons c cs ih =>
    intro ha b n
    have hlen : (c :: cs).length + n = (cs.length + n) + 1 := by
      rw [List.length_cons]
      omega
    rw [hlen, List.cons_append]
    have hstep : findPairs ((cs.length + n) + 1) (c :: (cs ++ b))
        = findPairs (cs.length + n) (cs ++ b) := by
      show (match pairAt (c :: (cs ++ b)) with
        | some ((digits, sp), rest) =>
          { level := parseNatDigits digits, species := sp } :: findPairs (cs.length + n) rest
        | none => findPairs (cs.length + n) (cs ++ b)) = findPairs (cs.length + n) (cs ++ b)
      rw [pairAt_not_dot (ha c (List.mem_cons_self c cs)) (cs ++ b)]
    rw [hstep, ih (fun x hx => ha x (List.mem_cons_of_mem c hx)) b n]

theorem scanTail_cons (m : PartyMon) (ms : List PartyMon) :
    scanTail (m :: ms) = "\n    \x7b\n        ".toList
      ++ (pairsR m ++ (",\n    \x7d,".toList ++ scanTail ms)) := by
  simp only [scanTail]
  simp [List.append_assoc]

theorem scanBody_cons (m : PartyMon) (ms : List PartyMon) :
    scanBody (m :: ms) = pairsR m ++ (",\n    \x7d,".toList ++ scanTail ms) := by
  unfold scanBody
  exact List.append_assoc (pairsR m) _ _

theorem scanBody_nil : scanBody [] = [] := rfl

/-- The junk between a pair match and the next one (or the end). -/
def gapJunk : List PartyMon → List Char
  | [] => ",\n    \x7d,".toList
  | _ :: _ => ",\n    \x7d,".toList ++ "\n    \x7b\n        ".toList

theorem gapJunk_spec : ∀ ms : List PartyMon,
    ",\n    \x7d,".toList ++ scanTail ms = gapJunk ms ++ scanBody ms := by
  intro ms
  cases ms with
  | nil => rfl
  | cons m2 ms'' =>
    show ",\n    \x7d,".toList ++ scanTail (m2 :: ms'')
      = (",\n    \x7d,".toList ++ "\n    \x7b\n        ".toList) ++ scanBody (m2 :: ms'')
    rw [scanTail_cons, scanBody_cons]
    simp [List.append_assoc]

theorem gapJunk_nodot : ∀ ms : List PartyMon, ∀ c ∈ gapJunk ms, ¬ c = '.' := by
  intro ms
  cases ms with
  | nil =>
    simp only [gapJunk]
    decide
  | cons m2 ms'' =>
    simp only [gapJunk]
    decide

/-- `findall` of the pair pattern recovers exactly the member list from the
scan region, whatever dot-free junk precedes it. -/
theorem findPairs_scan : ∀ (ms : List PartyMon), (∀ m ∈ ms, speciesShaped m) →
    ∀ (j : List Char), (∀ c ∈ j, ¬ c = '.') → ∀ (n : Nat),
      findPairs ((j ++ scanBody ms).length + n) (j ++ scanBody ms) = ms := by
  intro ms
  induction ms with
  | nil =>
    intro _ j hj n
    have hsk := findPairs_skip j hj [] n
    rw [List.append_nil] at hsk
    rw [scanBody_nil, List.append_nil, hsk]
    exact findPairs_nil n
  | cons m ms' ih =>
    intro hshape j hj n
    rw [scanBody_cons]
    have hfu : (j ++ (pairsR m ++ (",\n    \x7d,".toList ++ scanTail ms'))).length + n
        = j.length + ((pairsR m ++ (",\n    \x7d,".toList ++ scanTail ms')).length + n) := by
      rw [List.length_append]
      omega
    rw [hfu, findPairs_skip j hj _ _]
    cases hTl : pairsR m ++ (",\n    \x7d,".toList ++ scanTail ms') with
    | nil =>
      exfalso
      have := congrArg List.length hTl
      rw [List.length_append] at this
      have hp := pairsR_len m
      simp at this
    | cons tc tcs =>
      have hlen1 : (tc :: tcs).length + n = (tcs.length + n) + 1 := by
        rw [List.length_cons]
        omega
      rw [hlen1]
      show (match pairAt (tc :: tcs) with
        | some ((digits, sp), rest) =>
          { level := parseNatDigits digits, species := sp } :: findPairs (tcs.length + n) rest
        | none => findPairs (tcs.length + n) tcs) = m :: ms'
      rw [← hTl, pairAt_pairsR m _ (hshape m (List.mem_cons_self m ms')) (by
        intro c hc
        have hc2 : some ',' = some c := hc
        injection hc2 with hcc
        rw [← hcc]
        exact ⟨by decide, by decide⟩)]
      show ({ level := parseNatDigits (natToChars m.level), species := m.species } : PartyMon)
          :: findPairs (tcs.length + n) (",\n    \x7d,".toList ++ scanTail ms') = m :: ms'
      rw [parseNat_natToChars m.level]
      have hmon : ({ level := m.level, species := m.species } : PartyMon) = m := rfl
      rw [hmon]
      have htail : findPairs (tcs.length + n) (",\n    \x7d,".toList ++ scanTail ms') = ms' := by
        have hlen2 : (tc :: tcs).length
            = (pairsR m).length + (",\n    \x7d,".toList ++ scanTail ms').length := by
          rw [← hTl, List.length_append]
        have hlen3 : (",\n    \x7d,".toList ++ scanTail ms').length
            = (gapJunk ms' ++ scanBody ms').length :=
          congrArg List.length (gapJunk_spec ms')
        have hp := pairsR_len m
        have hfu2 : tcs.length + n
            = (gapJunk ms' ++ scanBody ms').length + ((pairsR m).length - 1 + n) := by
          rw [List.length_cons] at hlen2
          omega
        rw [gapJunk_spec ms', hfu2]
        exact ih (fun x hx => hshape x (List.mem_cons_of_mem m hx))
          (gapJunk ms') (gapJunk_nodot ms') _
      rw [htail]

theorem macroAt_some_starts {s : List Char} {x : List Char × List Char × List Char}
    (h : macroAt s = some x) : startsL ("#define".toList) s = true := by
  unfold macroAt at h
  cases hd : dropLit ("#define".toList) s with
  | none =>
    rw [hd] at h
    simp only [Option.bind_eq_bind, Option.none_bind] at h
    exact Option.noConfusion h
  | some r => exact dropLit_startsL _ _ _ hd

theorem partyDeclAt_some_starts {s : List Char} {x : List Char × List Char × List Char}
    (h : partyDeclAt s = some x) : startsL ("struct".toList) s = true := by
  unfold partyDeclAt at h
  cases hd : dropLit ("struct".toList) s with
  | none =>
    rw [hd] at h
    simp only [Option.bind_eq_bind, Option.none_bind] at h
    exact Option.noConfusion h
  | some r => exact dropLit_startsL _ _ _ hd

theorem findMacros_empty : ∀ (n : Nat) (s : List Char),
    containsSub ("#define".toList) s = false → findMacros n s = [] := by
  intro n
  induction n with
  | zero => intro s _; rfl
  | succ k ih =>
    intro s hs
    cases s with
    | nil => rfl
    | cons c cs =>
      have hh : (startsL ("#define".toList) (c :: cs)
          || containsSub ("#define".toList) cs) = false := hs
      have hor : startsL ("#define".toList) (c :: cs) = false
          ∧ containsSub ("#define".toList) cs = false := by
        constructor
        · cases hb : startsL ("#define".toList) (c :: cs) with
          | false => rfl
          | true => rw [hb] at hh; simp at hh
        · cases hb : containsSub ("#define".toList) cs with
          | false => rfl
          | true => rw [hb] at hh; simp at hh
      have hma : macroAt (c :: cs) = none := by
        cases hm : macroAt (c :: cs) with
        | none => rfl
        | some x =>
          exfalso
          have hst := macroAt_some_starts hm
          rw [hor.1] at hst
          cases hst
      show (match macroAt (c :: cs) with
        | some (name, body, rest) =>
          (name, findPairs body.length body) :: findMacros k rest
        | none => findMacros k cs) = []
      rw [hma]
      exact ih cs hor.2

theorem findParties_cons_none (macros : List (List Char × List PartyMon))
    (n : Nat) (c : Char) (cs : List Char) (h : partyDeclAt (c :: cs) = none) :
    findParties macros (n + 1) (c :: cs) = findParties macros n cs := by
  show (match partyDeclAt (c :: cs) with
    | some (name, body, rest) =>
      (name,
        match lookupLast macros (pyStrip body) with
        | some ms => ms
        | none => findPairs (pyStrip body).length (pyStrip body))
        :: findParties macros n rest
    | none => findParties macros n cs) = findParties macros n cs
  rw [h]

theorem findParties_cons_some (macros : List (List Char × List PartyMon))
    (n : Nat) (c : Char) (cs : List Char) (name body rest : List Char)
    (h : partyDeclAt (c :: cs) = some (name, body, rest)) :
    findParties macros (n + 1) (c :: cs)
      = (name,
          match lookupLast macros (pyStrip body) with
          | some ms => ms
          | none => findPairs (pyStrip body).length (pyStrip body))
        :: findParties macros n rest := by
  show (match partyDeclAt (c :: cs) with
    | some (name, body, rest) =>
      (name,
        match lookupLast macros (pyStrip body) with
        | some ms => ms
        | none => findPairs (pyStrip body).length (pyStrip body))
        :: findParties macros n rest
    | none => findParties macros n cs) = _
  rw [h]

theorem findParties_skip (macros : List (List Char × List PartyMon)) :
    ∀ (a b : List Char) (n : Nat),
      (∀ p q, a = p ++ q → q ≠ [] → partyDeclAt (q ++ b) = none) →
      findParties macros (a.length + n) (a ++ b) = findParties macros n b := by
  intro a
  induction a with
  | nil =>
    intro b n _
    rw [List.nil_append, List.length_nil, Nat.zero_add]
  | cons c cs ih =>
    intro b n h
    have hpd : partyDeclAt (c :: (cs ++ b)) = none := by
      have := h [] (c :: cs) rfl (fun hh => List.noConfusion hh)
      rw [List.cons_append] at this
      exact this
    have hlen : (c :: cs).length + n = (cs.length + n) + 1 := by
      rw [List.length_cons]
      omega
    rw [hlen, List.cons_append, findParties_cons_none macros (cs.length + n) c (cs ++ b) hpd]
    exact ih b n (fun p q hpq hq => h (c :: p) q (by rw [hpq, List.cons_append]) hq)

theorem findParties_none (macros : List (List Char × List PartyMon)) :
    ∀ (n : Nat) (s : List Char),
      (∀ i, partyDeclAt (s.drop i) = none) → findParties macros n s = [] := by
  intro n
  induction n with
  | zero => intro s _; rfl
  | succ k ih =>
    intro s h
    cases s with
    | nil => rfl
    | cons c cs =>
      rw [findParties_cons_none macros k c cs (h 0)]
      exact ih cs (fun i => h (i + 1))

/-- The lazy `(.*?)\};` scan, certified by the absence of any earlier "\x7d;". -/
theorem lazyUpto_pos : ∀ (a b : List Char),
    (∀ p q, a = p ++ q → q ≠ [] → startsL ("\x7d;".toList) (q ++ b) = false) →
    startsL ("\x7d;".toList) b = true →
    lazyUptoCloseSemi (a ++ b) = some (a, b.drop 2) := by
  intro a
  induction a with
  | nil =>
    intro b h hb
    cases b with
    | nil => cases hb
    | cons c cs =>
      show (if startsL ("\x7d;".toList) (c :: cs) then some ([], cs.drop 1)
        else (lazyUptoCloseSemi cs).map (fun p => (c :: p.1, p.2))) = some ([], (c :: cs).drop 2)
      rw [if_pos hb]
      rfl
  | cons c cs ih =>
    intro b h hb
    have hno : startsL ("\x7d;".toList) ((c :: cs) ++ b) = false :=
      h [] (c :: cs) rfl (fun hh => List.noConfusion hh)
    rw [List.cons_append]
    show (if startsL ("\x7d;".toList) (c :: (cs ++ b)) then some ([], (cs ++ b).drop 1)
      else (lazyUptoCloseSemi (cs ++ b)).map (fun p => (c :: p.1, p.2))) = some (c :: cs, b.drop 2)
    rw [List.cons_append] at hno
    rw [hno]
    simp only [Bool.false_eq_true, if_false]
    rw [ih b (fun p q hpq hq => h (c :: p) q (by rw [hpq, List.cons_append]) hq) hb]
    rfl

/-- `partyDeclAt` at the exact header text the party writer generates. -/
theorem partyDeclAt_gen (st ptail X : List Char)
    (hst1 : st ≠ []) (hst2 : ∀ c ∈ st, isWord c = true)
    (hpt1 : ptail ≠ []) (hpt2 : ∀ c ∈ ptail, isWord c = true) :
    partyDeclAt ("struct ".toList ++ (st ++ (' ' :: (("sParty_".toList ++ ptail)
        ++ ("[] = \x7b".toList ++ X)))))
      = (lazyUptoCloseSemi X).map
          (fun p => ("sParty_".toList ++ ptail, p.1, p.2)) := by
  have h1 : dropLit ("struct".toList) ("struct ".toList ++ (st ++ (' ' :: (("sParty_".toList ++ ptail)
      ++ ("[] = \x7b".toList ++ X)))))
      = some (' ' :: (st ++ (' ' :: (("sParty_".toList ++ ptail)
        ++ ("[] = \x7b".toList ++ X))))) := by
    rw [appendSplit (show "struct ".toList = "struct".toList ++ " ".toList by decide)]
    exact dropLit_self _ _
  have h2 : spanClass1 isWs (' ' :: (st ++ (' ' :: (("sParty_".toList ++ ptail)
      ++ ("[] = \x7b".toList ++ X)))))
      = some ([' '], st ++ (' ' :: (("sParty_".toList ++ ptail)
        ++ ("[] = \x7b".toList ++ X)))) := by
    show spanClass1 isWs ([' '] ++ (st ++ _)) = _
    refine spanClass1_exact _ _ _ (by decide) (fun hh => List.noConfusion hh) ?_
    cases st with
    | nil => exact absurd rfl hst1
    | cons c0 cs0 =>
      intro c hc
      have hcc : some c0 = some c := hc
      injection hcc with hcc
      rw [← hcc]
      exact isWord_not_ws (hst2 c0 (List.mem_cons_self c0 cs0))
  have h3 : spanClass1 isWord (st ++ (' ' :: (("sParty_".toList ++ ptail)
      ++ ("[] = \x7b".toList ++ X))))
      = some (st, ' ' :: (("sParty_".toList ++ ptail) ++ ("[] = \x7b".toList ++ X))) := by
    refine spanClass1_exact _ _ _ hst2 hst1 ?_
    intro c hc
    have hcc : some ' ' = some c := hc
    injection hcc with hcc
    rw [← hcc]
    decide
  have h4 : spanClass1 isWs (' ' :: (("sParty_".toList ++ ptail) ++ ("[] = \x7b".toList ++ X)))
      = some ([' '], ("sParty_".toList ++ ptail) ++ ("[] = \x7b".toList ++ X)) := by
    show spanClass1 isWs ([' '] ++ _) = _
    refine spanClass1_exact _ _ _ (by decide) (fun hh => List.noConfusion hh) ?_
    intro c hc
    have hcc : some 's' = some c := hc
    injection hcc with hcc
    rw [← hcc]
    decide
  have h5 : dropLit ("sParty_".toList) (("sParty_".toList ++ ptail) ++ ("[] = \x7b".toList ++ X))
      = some (ptail ++ ("[] = \x7b".toList ++ X)) := by
    rw [List.append_assoc]
    exact dropLit_self _ _
  have h6 : spanClass1 isWord (ptail ++ ("[] = \x7b".toList ++ X))
      = some (ptail, "[] = \x7b".toList ++ X) := by
    refine spanClass1_exact _ _ _ hpt2 hpt1 ?_
    intro c hc
    have hcc : some '[' = some c := hc
    injection hcc with hcc
    rw [← hcc]
    decide
  have h7 : dropLit ("[]".toList) ("[] = \x7b".toList ++ X)
      = some (" = \x7b".toList ++ X) := by
    rw [appendSplit (show "[] = \x7b".toList = "[]".toList ++ " = \x7b".toList by decide)]
    exact dropLit_self _ _
  have h8 : (" = \x7b".toList ++ X).dropWhile isWs = '=' :: (' ' :: ('\x7b' :: X)) := by
    show (' ' :: ('=' :: (' ' :: ('\x7b' :: X)))).dropWhile isWs = _
    rw [List.dropWhile_cons, show isWs ' ' = true by decide]
    simp only [if_true]
    rw [List.dropWhile_cons, show isWs '=' = false by decide]
    simp only [Bool.false_eq_true, if_false]
  have h9 : dropLit ['='] ('=' :: (' ' :: ('\x7b' :: X))) = some (' ' :: ('\x7b' :: X)) := by
    show (if '=' = '=' then some (' ' :: ('\x7b' :: X)) else none) = _
    rw [if_pos rfl]
  have h10 : (' ' :: ('\x7b' :: X)).dropWhile isWs = '\x7b' :: X := by
    rw [List.dropWhile_cons, show isWs ' ' = true by decide]
    simp only [if_true]
    rw [List.dropWhile_cons, show isWs '\x7b' = false by decide]
    simp only [Bool.false_eq_true, if_false]
  have h11 : dropLit ['\x7b'] ('\x7b' :: X) = some X := by
    show (if '\x7b' = '\x7b' then some X else none) = _
    rw [if_pos rfl]
  unfold partyDeclAt
  rw [h1]
  simp only [Option.bind_eq_bind, Option.some_bind]
  rw [h2]
  simp only [Option.some_bind]
  rw [h3]
  simp only [Option.some_bind]
  rw [h4]
  simp only [Option.some_bind]
  rw [h5]
  simp only [Option.some_bind]
  rw [h6]
  simp only [Option.some_bind]
  rw [h7]
  simp only [Option.some_bind]
  rw [h8, h9]
  simp only [Option.some_bind]
  rw [h10, h11]
  simp only [Option.some_bind]
  cases hlz : lazyUptoCloseSemi X with
  | none => rfl
  | some p => rfl

theorem take_len_append {α : Type} : ∀ (a b : List α), (a ++ b).take a.length = a := by
  intro a
  induction a with
  | nil => intro b; rfl
  | cons x xs ih =>
    intro b
    rw [List.cons_append, List.length_cons]
    show x :: (xs ++ b).take xs.length = x :: xs
    rw [ih b]

theorem findStartIdx_build (pname : List Char) :
    ∀ (preL : List (List Char)) (headerL : List Char) (rest : List (List Char))
      (pv : List Char × List Char),
      (∀ l ∈ preL, firstHit (patPartyStartAt pname) l = none) →
      firstHit (patPartyStartAt pname) headerL = some pv →
      findStartIdx pname (preL ++ headerL :: rest) = some (preL.length, pv.2) := by
  intro preL
  induction preL with
  | nil =>
    intro headerL rest pv _ hh
    rw [List.nil_append]
    show (match firstHit (patPartyStartAt pname) headerL with
      | some (_, ty) => some (0, ty)
      | none => (findStartIdx pname rest).map (fun p => (p.1 + 1, p.2))) = some (0, pv.2)
    rw [hh]
  | cons l ls ih =>
    intro headerL rest pv hpre hh
    rw [List.cons_append]
    show (match firstHit (patPartyStartAt pname) l with
      | some (_, ty) => some (0, ty)
      | none => (findStartIdx pname (ls ++ headerL :: rest)).map (fun p => (p.1 + 1, p.2)))
      = some ((l :: ls).length, pv.2)
    rw [hpre l (List.mem_cons_self l ls),
      ih headerL rest pv (fun x hx => hpre x (List.mem_cons_of_mem l hx)) hh]
    show some (ls.length + 1, pv.2) = some ((l :: ls).length, pv.2)
    rw [List.length_cons]

theorem findCloseIdx_build :
    ∀ (bodyL : List (List Char)) (closerL : List Char) (rest : List (List Char)),
      (∀ l ∈ bodyL, closeSemi l = false) → closeSemi closerL = true →
      findCloseIdx (bodyL ++ closerL :: rest) = some bodyL.length := by
  intro bodyL
  induction bodyL with
  | nil =>
    intro closerL rest _ hc
    rw [List.nil_append]
    show (if closeSemi closerL = true then some 0
      else (findCloseIdx rest).map (fun k => k + 1)) = some 0
    rw [if_pos hc]
  | cons l ls ih =>
    intro closerL rest hb hc
    rw [List.cons_append]
    show (if closeSemi l = true then some 0
      else (findCloseIdx (ls ++ closerL :: rest)).map (fun k => k + 1))
      = some (l :: ls).length
    rw [hb l (List.mem_cons_self l ls)]
    simp only [Bool.false_eq_true, if_false]
    rw [ih closerL rest (fun x hx => hb x (List.mem_cons_of_mem l hx)) hc]
    show some (ls.length + 1) = some (l :: ls).length
    rw [List.length_cons]

/-- The splice the party writer performs on a structurally decomposed file. -/
theorem rewriteTrainerParty_eq (preL bodyL postL : List (List Char))
    (headerL closerL : List Char) (pname : List Char) (mons : List PartyMon)
    (st : List Char) (pv : List Char × List Char)
    (hpre : ∀ l ∈ preL, firstHit (patPartyStartAt pname) l = none)
    (hh : firstHit (patPartyStartAt pname) headerL = some pv)
    (hbody : ∀ l ∈ bodyL, closeSemi l = false)
    (hclose : closeSemi closerL = true) :
    rewriteTrainerParty (preL ++ headerL :: (bodyL ++ closerL :: postL)) pname mons (some st)
      = preL ++ newPartyBlock st pname mons ++ postL := by
  have htake : (preL ++ headerL :: (bodyL ++ closerL :: postL)).take preL.length = preL :=
    take_len_append preL _
  have hdrop1 : (preL ++ headerL :: (bodyL ++ closerL :: postL)).drop (preL.length + 1)
      = bodyL ++ closerL :: postL := by
    rw [drop_len_append preL _ 1]
    rfl
  have hdrop2 : (preL ++ headerL :: (bodyL ++ closerL :: postL)).drop
      (preL.length + 1 + bodyL.length + 1) = postL := by
    rw [show preL.length + 1 + bodyL.length + 1
      = preL.length + ((bodyL.length + 1) + 1) by omega]
    rw [drop_len_append preL _ _]
    show (bodyL ++ closerL :: postL).drop (bodyL.length + 1) = postL
    rw [drop_len_append bodyL _ 1]
    rfl
  unfold rewriteTrainerParty
  rw [findStartIdx_build pname preL headerL _ pv hpre hh]
  show (match findCloseIdx ((preL ++ headerL :: (bodyL ++ closerL :: postL)).drop (preL.length + 1)) with
    | none => preL ++ headerL :: (bodyL ++ closerL :: postL)
    | some k =>
      let st2 :=
        match some st with
        | some t => t
        | none => pv.2
      (preL ++ headerL :: (bodyL ++ closerL :: postL)).take preL.length
        ++ newPartyBlock st2 pname mons
        ++ (preL ++ headerL :: (bodyL ++ closerL :: postL)).drop (preL.length + 1 + k + 1))
    = preL ++ newPartyBlock st pname mons ++ postL
  rw [hdrop1, findCloseIdx_build bodyL closerL postL hbody hclose]
  show (preL ++ headerL :: (bodyL ++ closerL :: postL)).take preL.length
      ++ newPartyBlock st pname mons
      ++ (preL ++ headerL :: (bodyL ++ closerL :: postL)).drop
          (preL.length + 1 + bodyL.length + 1)
    = preL ++ newPartyBlock st pname mons ++ postL
  rw [htake, hdrop2]

/-- The full text of the rewritten file. -/
theorem joinLines_rewrite (preL postL : List (List Char)) (st pname : List Char)
    (mons : List PartyMon) :
    joinLines (preL ++ newPartyBlock st pname mons ++ postL)
      = joinLines preL ++ (("struct ".toList ++ st ++ ' ' :: pname ++ "[] = \x7b\n".toList)
          ++ (memberTextF mons ++ ("\x7d;\n".toList ++ joinLines postL))) := by
  unfold joinLines newPartyBlock
  simp only [List.flatten_append, List.flatten_cons, List.flatten_nil, List.append_nil]
  rw [show ((mons.map monLines).flatten).flatten = memberTextF mons from rfl]
  simp [List.append_assoc]

theorem drop_len_exact {α : Type} (a b : List α) : (a ++ b).drop a.length = b := by
  have h := drop_len_append a b 0
  simp only [Nat.add_zero, List.drop_zero] at h
  exact h

theorem startsL_drop_bound {c : Char} {ps l : List Char} {i : Nat}
    (h : startsL (c :: ps) (l.drop i) = true) : i < l.length := by
  have hne := startsL_ne_nil h
  by_contra hcon
  push_neg at hcon
  exact hne (List.drop_eq_nil_of_le hcon)

theorem dropLit_decomp : ∀ (l s r : List Char), dropLit l s = some r → s = l ++ r := by
  intro l
  induction l with
  | nil =>
    intro s r h
    have hs : s = r := Option.some.inj h
    rw [hs, List.nil_append]
  | cons x xs ih =>
    intro s r h
    cases s with
    | nil => cases h
    | cons c cs =>
      by_cases hx : x = c
      · have hrec : dropLit xs cs = some r := by
          have hstep : dropLit (x :: xs) (c :: cs)
              = if x = c then dropLit xs cs else none := rfl
          rw [hstep, if_pos hx] at h
          exact h
        rw [List.cons_append, ← hx, ih cs r hrec]
      · exfalso
        have hstep : dropLit (x :: xs) (c :: cs)
            = if x = c then dropLit xs cs else none := rfl
        rw [hstep, if_neg hx] at h
        cases h

theorem spanClass1_decomp {cl : Char → Bool} {s x r : List Char}
    (h : spanClass1 cl s = some (x, r)) :
    s = x ++ r ∧ x ≠ [] ∧ ∀ c ∈ x, cl c = true := by
  unfold spanClass1 at h
  by_cases hie : (s.takeWhile cl).isEmpty = true
  · rw [if_pos hie] at h
    cases h
  · rw [if_neg hie] at h
    have hx := Option.some.inj h
    have hx1 : s.takeWhile cl = x := congrArg Prod.fst hx
    have hx2 : s.dropWhile cl = r := congrArg Prod.snd hx
    refine ⟨?_, ?_, ?_⟩
    · rw [← hx1, ← hx2, List.takeWhile_append_dropWhile]
    · intro hxe
      rw [hx1, List.isEmpty_iff] at hie
      exact hie hxe
    · intro c hc
      rw [← hx1] at hc
      exact List.mem_takeWhile_imp hc

theorem dropWhile_decomp (cl : Char → Bool) (s : List Char) :
    ∃ p, s = p ++ s.dropWhile cl :=
  ⟨s.takeWhile cl, (List.takeWhile_append_dropWhile cl s).symm⟩

theorem lazyUpto_decomp : ∀ (s x r : List Char),
    lazyUptoCloseSemi s = some (x, r) → ∃ p, s = p ++ r := by
  intro s
  induction s with
  | nil => intro x r h; cases h
  | cons c cs ih =>
    intro x r h
    by_cases hsl : startsL ("\x7d;".toList) (c :: cs) = true
    · have hstep : lazyUptoCloseSemi (c :: cs) = some ([], cs.drop 1) := by
        show (if startsL ("\x7d;".toList) (c :: cs) then some ([], cs.drop 1)
          else (lazyUptoCloseSemi cs).map (fun p => (c :: p.1, p.2))) = _
        rw [if_pos hsl]
      rw [hstep] at h
      have hx := Option.some.inj h
      have hr : cs.drop 1 = r := congrArg Prod.snd hx
      exact ⟨c :: cs.take 1, by rw [List.cons_append, ← hr, List.take_append_drop]⟩
    · have hstep : lazyUptoCloseSemi (c :: cs)
          = (lazyUptoCloseSemi cs).map (fun p => (c :: p.1, p.2)) := by
        show (if startsL ("\x7d;".toList) (c :: cs) then some ([], cs.drop 1)
          else (lazyUptoCloseSemi cs).map (fun p => (c :: p.1, p.2))) = _
        rw [if_neg hsl]
      rw [hstep] at h
      cases hrec : lazyUptoCloseSemi cs with
      | none => rw [hrec] at h; cases h
      | some p2 =>
        obtain ⟨x2, r2⟩ := p2
        rw [hrec] at h
        have hx := Option.some.inj h
        have hr : r2 = r := congrArg Prod.snd hx
        obtain ⟨p, hp⟩ := ih x2 r2 hrec
        exact ⟨c :: p, by rw [← hr, hp, List.cons_append]⟩

theorem partyDeclAt_consumes {s : List Char} {name body rest : List Char}
    (h : partyDeclAt s = some (name, body, rest)) :
    ∃ p, s = p ++ rest ∧ p ≠ [] := by
  unfold partyDeclAt at h
  simp only [Option.bind_eq_bind] at h
  cases h1 : dropLit ("struct".toList) s with
  | none => rw [h1] at h; simp only [Option.none_bind] at h; exact Option.noConfusion h
  | some r1 =>
  rw [h1] at h
  simp only [Option.some_bind] at h
  cases h2 : spanClass1 isWs r1 with
  | none => rw [h2] at h; simp only [Option.none_bind] at h; exact Option.noConfusion h
  | some p2 =>
  obtain ⟨w2, r2⟩ := p2
  rw [h2] at h
  simp only [Option.some_bind] at h
  cases h3 : spanClass1 isWord r2 with
  | none => rw [h3] at h; simp only [Option.none_bind] at h; exact Option.noConfusion h
  | some p3 =>
  obtain ⟨w3, r3⟩ := p3
  rw [h3] at h
  simp only [Option.some_bind] at h
  cases h4 : spanClass1 isWs r3 with
  | none => rw [h4] at h; simp only [Option.none_bind] at h; exact Option.noConfusion h
  | some p4 =>
  obtain ⟨w4, r4⟩ := p4
  rw [h4] at h
  simp only [Option.some_bind] at h
  cases h5 : dropLit ("sParty_".toList) r4 with
  | none => rw [h5] at h; simp only [Option.none_bind] at h; exact Option.noConfusion h
  | some r5 =>
  rw [h5] at h
  simp only [Option.some_bind] at h
  cases h6 : spanClass1 isWord r5 with
  | none => rw [h6] at h; simp only [Option.none_bind] at h; exact Option.noConfusion h
  | some p6 =>
  obtain ⟨tl, r6⟩ := p6
  rw [h6] at h
  simp only [Option.some_bind] at h
  cases h7 : dropLit ("[]".toList) r6 with
  | none => rw [h7] at h; simp only [Option.none_bind] at h; exact Option.noConfusion h
  | some r7 =>
  rw [h7] at h
  simp only [Option.some_bind] at h
  cases h8 : dropLit ['='] (r7.dropWhile isWs) with
  | none => rw [h8] at h; simp only [Option.none_bind] at h; exact Option.noConfusion h
  | some r8 =>
  rw [h8] at h
  simp only [Option.some_bind] at h
  cases h9 : dropLit ['\x7b'] (r8.dropWhile isWs) with
  | none => rw [h9] at h; simp only [Option.none_bind] at h; exact Option.noConfusion h
  | some r9 =>
  rw [h9] at h
  simp only [Option.some_bind] at h
  cases h10 : lazyUptoCloseSemi r9 with
  | none => rw [h10] at h; simp only [Option.none_bind] at h; exact Option.noConfusion h
  | some p10 =>
  obtain ⟨bd, r10⟩ := p10
  rw [h10] at h
  simp only [Option.some_bind] at h
  have hx := Option.some.inj h
  have hrest : r10 = rest := congrArg (fun t => t.2.2) hx
  have e1 : s = "struct".toList ++ r1 := dropLit_decomp _ _ _ h1
  have e2 : r1 = w2 ++ r2 := (spanClass1_decomp h2).1
  have e3 : r2 = w3 ++ r3 := (spanClass1_decomp h3).1
  have e4 : r3 = w4 ++ r4 := (spanClass1_decomp h4).1
  have e5 : r4 = "sParty_".toList ++ r5 := dropLit_decomp _ _ _ h5
  have e6 : r5 = tl ++ r6 := (spanClass1_decomp h6).1
  have e7 : r6 = "[]".toList ++ r7 := dropLit_decomp _ _ _ h7
  obtain ⟨t7, e8⟩ := dropWhile_decomp isWs r7
  have e9 : r7.dropWhile isWs = ['='] ++ r8 := dropLit_decomp _ _ _ h8
  obtain ⟨t8, e10⟩ := dropWhile_decomp isWs r8
  have e11 : r8.dropWhile isWs = ['\x7b'] ++ r9 := dropLit_decomp _ _ _ h9
  obtain ⟨p10b, e12⟩ := lazyUpto_decomp r9 bd r10 h10
  refine ⟨"struct".toList ++ (w2 ++ (w3 ++ (w4 ++ ("sParty_".toList ++ (tl ++ ("[]".toList
    ++ (t7 ++ (['='] ++ (t8 ++ (['\x7b'] ++ p10b)))))))))), ?_, ?_⟩
  · rw [e1, e2, e3, e4, e5, e6, e7, e8, e9, e10, e11, e12, hrest]
    simp [List.append_assoc]
  · intro hp
    exact absurd (List.append_eq_nil.mp hp).1 (by decide)

theorem findParties_nil (macros : List (List Char × List PartyMon)) :
    ∀ n, findParties macros n [] = [] := by
  intro n
  cases n <;> rfl

/-- The fuel of the declaration scan is irrelevant once it covers the text. -/
theorem findParties_fuel (macros : List (List Char × List PartyMon)) :
    ∀ (n : Nat) (s : List Char), s.length ≤ n →
      findParties macros n s = findParties macros s.length s := by
  intro n
  induction n using Nat.strong_induction_on with
  | _ n ih =>
    intro s hn
    cases s with
    | nil => rw [findParties_nil, findParties_nil]
    | cons c cs =>
      cases n with
      | zero =>
        exfalso
        rw [List.length_cons] at hn
        omega
      | succ k =>
        have hlen : (c :: cs).length = cs.length + 1 := List.length_cons c cs
        rw [List.length_cons] at hn
        cases hpd : partyDeclAt (c :: cs) with
        | none =>
          rw [findParties_cons_none macros k c cs hpd, hlen,
            findParties_cons_none macros cs.length c cs hpd]
          rw [ih k (by omega) cs (by omega)]
        | some x =>
          obtain ⟨nm, bd, rest⟩ := x
          obtain ⟨p, hp, hpne⟩ := partyDeclAt_consumes hpd
          have hrl : rest.length < (c :: cs).length := by
            have hl := congrArg List.length hp
            rw [List.length_append] at hl
            have hp1 : 1 ≤ p.length := by
              cases p with
              | nil => exact absurd rfl hpne
              | cons _ _ => simp
            rw [List.length_cons] at hl ⊢
            omega
          rw [List.length_cons] at hrl
          rw [findParties_cons_some macros k c cs nm bd rest hpd, hlen,
            findParties_cons_some macros cs.length c cs nm bd rest hpd]
          rw [ih k (by omega) rest (by omega), ih cs.length (by omega) rest (by omega)]

/-- Every roster name the scan produces comes from a declaration match at
some position of the text. -/
theorem findParties_names (macros : List (List Char × List PartyMon)) (pname : List Char) :
    ∀ (n : Nat) (s : List Char),
      (∀ i x, partyDeclAt (s.drop i) = some x → ¬ x.1 = pname) →
      ∀ e ∈ findParties macros n s, ¬ e.1 = pname := by
  intro n
  induction n with
  | zero =>
    intro s _ e he
    rw [show findParties macros 0 s = [] from rfl] at he
    exact absurd he (List.not_mem_nil e)
  | succ k ih =>
    intro s h e he
    cases s with
    | nil =>
      rw [findParties_nil] at he
      exact absurd he (List.not_mem_nil e)
    | cons c cs =>
      cases hpd : partyDeclAt (c :: cs) with
      | none =>
        rw [findParties_cons_none macros k c cs hpd] at he
        exact ih cs (fun i x hx => h (i + 1) x hx) e he
      | some x =>
        obtain ⟨nm, bd, rest⟩ := x
        rw [findParties_cons_some macros k c cs nm bd rest hpd] at he
        rcases List.mem_cons.mp he with rfl | he2
        · exact h 0 (nm, bd, rest) hpd
        · obtain ⟨p, hp, _⟩ := partyDeclAt_consumes hpd
          refine ih rest ?_ e he2
          intro i x hx
          have hdr : rest.drop i = (c :: cs).drop (p.length + i) := by
            rw [hp, drop_len_append]
          rw [hdr] at hx
          exact h (p.length + i) x hx

/-- Well-formedness of the text before the target declaration for the
declaration scan: every position is either a non-match or the start of a
self-contained declaration whose match ends before the continuation `b`. -/
inductive ScanPre (b : List Char) : List Char → Prop
  | nil : ScanPre b []
  | junk (c : Char) (rest : List Char) :
      partyDeclAt (c :: (rest ++ b)) = none → ScanPre b rest → ScanPre b (c :: rest)
  | decl (seg rest name body : List Char) :
      seg ≠ [] →
      partyDeclAt ((seg ++ rest) ++ b) = some (name, body, rest ++ b) →
      ScanPre b rest → ScanPre b (seg ++ rest)

/-- Declaration-free text is scan-well-formed before any continuation. -/
theorem ScanPre_of_junk (b : List Char) : ∀ (pre : List Char),
    (∀ i, i < pre.length → partyDeclAt (pre.drop i ++ b) = none) → ScanPre b pre := by
  intro pre
  induction pre with
  | nil => intro _; exact ScanPre.nil
  | cons c rest ih =>
    intro h
    refine ScanPre.junk c rest ?_ (ih ?_)
    · have h0 := h 0 (by simp)
      rw [List.drop_zero, List.cons_append] at h0
      exact h0
    · intro i hi
      have := h (i + 1) (by rw [List.length_cons]; omega)
      exact this

theorem ScanPre_append (b : List Char) :
    ∀ {x y : List Char}, ScanPre (y ++ b) x → ScanPre b y → ScanPre b (x ++ y) := by
  intro x y hx hy
  induction hx with
  | nil => rw [List.nil_append]; exact hy
  | junk c rest hpd _ ih =>
    rw [List.cons_append]
    refine ScanPre.junk c (rest ++ y) ?_ ih
    rw [List.append_assoc]
    exact hpd
  | decl seg rest name body hseg hpd _ ih =>
    rw [List.append_assoc]
    refine ScanPre.decl seg (rest ++ y) name body hseg ?_ ih
    have h2 := hpd
    simp only [List.append_assoc] at h2 ⊢
    exact h2

/-- The declaration scan over well-formed leading text contributes some
entries and hands over at the continuation. -/
theorem findParties_pre (macros : List (List Char × List PartyMon)) (b : List Char) :
    ∀ (pre : List Char), ScanPre b pre →
      ∃ es, ∀ n, (pre ++ b).length ≤ n →
        findParties macros n (pre ++ b) = es ++ findParties macros b.length b := by
  intro pre h
  induction h with
  | nil =>
    refine ⟨[], ?_⟩
    intro n hn
    rw [List.nil_append] at hn ⊢
    rw [List.nil_append]
    exact findParties_fuel macros n b hn
  | junk c rest hpd _ ih =>
    obtain ⟨es, hes⟩ := ih
    refine ⟨es, ?_⟩
    intro n hn
    have hlen1 : ((c :: rest) ++ b).length = (rest ++ b).length + 1 := by
      rw [List.cons_append, List.length_cons]
    cases n with
    | zero =>
      exfalso
      rw [hlen1] at hn
      omega
    | succ k =>
      rw [List.cons_append, findParties_cons_none macros k c (rest ++ b) hpd]
      refine hes k ?_
      rw [hlen1] at hn
      omega
  | decl seg rest name body hseg hpd _ ih =>
    obtain ⟨es, hes⟩ := ih
    refine ⟨(name,
      match lookupLast macros (pyStrip body) with
      | some ms => ms
      | none => findPairs (pyStrip body).length (pyStrip body)) :: es, ?_⟩
    intro n hn
    cases hsegc : seg with
    | nil => exact absurd hsegc hseg
    | cons s0 seg' =>
      rw [hsegc] at hpd hn
      have hpd' : partyDeclAt (s0 :: (seg' ++ (rest ++ b))) = some (name, body, rest ++ b) := by
        have h2 := hpd
        simp only [List.cons_append, List.append_assoc] at h2
        exact h2
      have hlen1 : (((s0 :: seg') ++ rest) ++ b).length = (seg' ++ (rest ++ b)).length + 1 := by
        simp [List.length_append, List.length_cons]
      cases n with
      | zero =>
        exfalso
        rw [hlen1] at hn
        omega
      | succ k =>
        have htext : ((s0 :: seg') ++ rest) ++ b = s0 :: (seg' ++ (rest ++ b)) := by
          simp [List.cons_append, List.append_assoc]
        rw [htext, findParties_cons_some macros k s0 (seg' ++ (rest ++ b)) name body
          (rest ++ b) hpd']
        rw [hes k ?_]
        · rw [List.cons_append]
        · rw [hlen1] at hn
          have h2 := List.length_append seg' (rest ++ b)
          omega

theorem findMacros_cons_none (n : Nat) (c : Char) (cs : List Char)
    (h : macroAt (c :: cs) = none) :
    findMacros (n + 1) (c :: cs) = findMacros n cs := by
  show (match macroAt (c :: cs) with
    | some (name, body, rest) =>
      (name, findPairs body.length body) :: findMacros n rest
    | none => findMacros n cs) = findMacros n cs
  rw [h]

theorem findMacros_cons_some (n : Nat) (c : Char) (cs : List Char)
    (name body rest : List Char) (h : macroAt (c :: cs) = some (name, body, rest)) :
    findMacros (n + 1) (c :: cs)
      = (name, findPairs body.length body) :: findMacros n rest := by
  show (match macroAt (c :: cs) with
    | some (name, body, rest) =>
      (name, findPairs body.length body) :: findMacros n rest
    | none => findMacros n cs) = _
  rw [h]

/-- The name a macro match captures is a nonempty word run. -/
theorem macroAt_name {s : List Char} {x : List Char × List Char × List Char}
    (h : macroAt s = some x) : ∃ c cs, x.1 = c :: cs ∧ isWord c = true := by
  unfold macroAt at h
  simp only [Option.bind_eq_bind] at h
  cases h1 : dropLit ("#define".toList) s with
  | none => rw [h1] at h; simp only [Option.none_bind] at h; exact Option.noConfusion h
  | some r1 =>
  rw [h1] at h
  simp only [Option.some_bind] at h
  cases h2 : spanClass1 isWs r1 with
  | none => rw [h2] at h; simp only [Option.none_bind] at h; exact Option.noConfusion h
  | some p2 =>
  obtain ⟨w2, r2⟩ := p2
  rw [h2] at h
  simp only [Option.some_bind] at h
  cases h3 : spanClass1 isWord r2 with
  | none => rw [h3] at h; simp only [Option.none_bind] at h; exact Option.noConfusion h
  | some p3 =>
  obtain ⟨name, r3⟩ := p3
  rw [h3] at h
  simp only [Option.some_bind] at h
  cases h4 : dropLit ['\\', '\n'] (r3.dropWhile isWs) with
  | none => rw [h4] at h; simp only [Option.none_bind] at h; exact Option.noConfusion h
  | some r4 =>
  rw [h4] at h
  simp only [Option.some_bind] at h
  cases h5 : lazyUptoBrace r4 with
  | none => rw [h5] at h; simp only [Option.none_bind] at h; exact Option.noConfusion h
  | some p5 =>
  obtain ⟨body, r5⟩ := p5
  rw [h5] at h
  simp only [Option.some_bind] at h
  have hx := Option.some.inj h
  obtain ⟨-, hne, hmem⟩ := spanClass1_decomp h3
  cases hname : name with
  | nil => exact absurd hname hne
  | cons c cs =>
    refine ⟨c, cs, ?_, ?_⟩
    · rw [← hx]
      exact hname
    · exact hmem c (by rw [hname]; exact List.mem_cons_self c cs)

/-- Every key of the macro table is a nonempty word run. -/
theorem findMacros_keys : ∀ (n : Nat) (s : List Char) (e : List Char × List PartyMon),
    e ∈ findMacros n s → ∃ c cs, e.1 = c :: cs ∧ isWord c = true := by
  intro n
  induction n with
  | zero =>
    intro s e he
    rw [show findMacros 0 s = [] from rfl] at he
    exact absurd he (List.not_mem_nil e)
  | succ k ih =>
    intro s e he
    cases s with
    | nil =>
      rw [show findMacros (k + 1) [] = [] from rfl] at he
      exact absurd he (List.not_mem_nil e)
    | cons c cs =>
      cases hma : macroAt (c :: cs) with
      | none =>
        rw [findMacros_cons_none k c cs hma] at he
        exact ih cs e he
      | some x =>
        obtain ⟨nm, bd, rest⟩ := x
        rw [findMacros_cons_some k c cs nm bd rest hma] at he
        rcases List.mem_cons.mp he with rfl | he2
        · exact macroAt_name hma
        · exact ih rest e he2

theorem foldl_lookup_ne {α : Type} (k : List Char) :
    ∀ (es : List (List Char × α)) (acc : Option α), (∀ e ∈ es, ¬ e.1 = k) →
      es.foldl (fun acc p => if p.1 = k then some p.2 else acc) acc = acc := by
  intro es
  induction es with
  | nil => intro acc _; rfl
  | cons e es' ih =>
    intro acc h
    show es'.foldl (fun acc p => if p.1 = k then some p.2 else acc)
      (if e.1 = k then some e.2 else acc) = acc
    rw [if_neg (h e (List.mem_cons_self e es'))]
    exact ih acc (fun x hx => h x (List.mem_cons_of_mem e hx))

theorem lookupLast_none_of_keys {α : Type} (d : List (List Char × α)) (k : List Char)
    (h : ∀ e ∈ d, ¬ e.1 = k) : lookupLast d k = none := by
  unfold lookupLast
  exact foldl_lookup_ne k d none h

/-- No suffix of `t`, continued by `b`, starts the record closer "\x7d;". -/
def NoCloseAt (b t : List Char) : Prop :=
  ∀ p q, t = p ++ q → q ≠ [] → startsL ("\x7d;".toList) (q ++ b) = false

theorem containsSub_drop : ∀ (nd t : List Char), containsSub nd t = false →
    ∀ p q, t = p ++ q → startsL nd q = false := by
  intro nd t h p
  induction p generalizing t with
  | nil =>
    intro q hq
    rw [List.nil_append] at hq
    rw [← hq]
    cases t with
    | nil => exact h
    | cons c cs =>
      have hh : (startsL nd (c :: cs) || containsSub nd cs) = false := h
      cases hb : startsL nd (c :: cs) with
      | false => rfl
      | true => rw [hb] at hh; simp at hh
  | cons c p' ih =>
    intro q hq
    cases t with
    | nil => exact absurd hq (by exact fun hh => List.noConfusion hh)
    | cons d ds =>
      have hh : (startsL nd (d :: ds) || containsSub nd ds) = false := h
      have hcs : containsSub nd ds = false := by
        cases hb : containsSub nd ds with
        | false => rfl
        | true => rw [hb] at hh; simp at hh
      have hq2 : ds = p' ++ q := by
        have := List.cons.inj hq
        exact this.2
      exact ih ds hcs q hq2

theorem startsL_close_cons (c1 : Char) (w : List Char) (h : ¬ c1 = '\x7d') :
    startsL ("\x7d;".toList) (c1 :: w) = false := by
  show (('\x7d' == c1) && startsL (";".toList) w) = false
  cases hbe : ('\x7d' == c1) with
  | false => rfl
  | true => exact absurd (beq_iff_eq.mp hbe).symm h

/-- A segment with no '\x7d' at all blocks the closer anywhere inside it. -/
theorem NoCloseAt_no_brace (t : List Char) (h : ∀ c ∈ t, ¬ c = '\x7d')
    (b : List Char) : NoCloseAt b t := by
  intro p q hpq hq
  cases q with
  | nil => exact absurd rfl hq
  | cons c1 q1 =>
    have hc1 : c1 ∈ t := by
      rw [hpq]
      exact List.mem_append_right p (List.mem_cons_self c1 q1)
    rw [List.cons_append]
    exact startsL_close_cons c1 (q1 ++ b) (h c1 hc1)

theorem getLast?_append_singleton {α : Type} : ∀ (l : List α) (a : α),
    (l ++ [a]).getLast? = some a := by
  intro l a
  induction l with
  | nil => rfl
  | cons x xs ih =>
    rw [List.cons_append]
    cases hxs : xs ++ [a] with
    | nil => exact absurd hxs (by simp)
    | cons y ys =>
      rw [List.getLast?_cons_cons, ← hxs, ih]

/-- A literal segment with no "\x7d;" inside and not ending in '\x7d' blocks
the closer, whatever follows. -/
theorem NoCloseAt_of_lit (t : List Char)
    (h1 : containsSub ("\x7d;".toList) t = false)
    (h2 : ¬ t.getLast? = some '\x7d') (b : List Char) : NoCloseAt b t := by
  intro p q hpq hq
  cases q with
  | nil => exact absurd rfl hq
  | cons c1 q1 =>
    cases q1 with
    | nil =>
      have hlast : t.getLast? = some c1 := by
        rw [hpq]
        exact getLast?_append_singleton p c1
      rw [List.cons_append]
      refine startsL_close_cons c1 ([] ++ b) ?_
      intro hcc
      rw [hcc] at hlast
      exact h2 hlast
    | cons c2 q2 =>
      have hin : startsL ("\x7d;".toList) (c1 :: c2 :: q2) = false :=
        containsSub_drop _ _ h1 p _ hpq
      have hand : (('\x7d' == c1) && ((';' == c2) && true)) = false := hin
      show (('\x7d' == c1) && ((';' == c2) && true)) = false
      exact hand

theorem NoCloseAt_append {b x y : List Char}
    (hx : NoCloseAt (y ++ b) x) (hy : NoCloseAt b y) : NoCloseAt b (x ++ y) := by
  intro p q hpq hq
  rcases List.append_eq_append_iff.mp hpq.symm with ⟨a2, ha1, ha2⟩ | ⟨c2, hc1, hc2⟩
  · -- ha1 : x = p ++ a2 and ha2 : q = a2 ++ y
    cases a2 with
    | nil =>
      rw [List.nil_append] at ha2
      refine hy [] q ?_ hq
      rw [List.nil_append]
      exact ha2.symm
    | cons d ds =>
      rw [ha2, List.append_assoc]
      exact hx p (d :: ds) ha1 (fun hh => List.noConfusion hh)
  · -- hc1 : p = x ++ c2 and hc2 : y = c2 ++ q
    exact hy c2 q hc2 hq

theorem isDigit_not_brace {c : Char} (h : c.isDigit = true) : ¬ c = '\x7d' := by
  intro hc
  rw [hc] at h
  exact absurd h (by decide)

theorem isCapDigit_not_brace {c : Char} (h : isCapDigit c = true) : ¬ c = '\x7d' := by
  intro hc
  rw [hc] at h
  exact absurd h (by decide)

theorem pairsR_no_brace (m : PartyMon) (hm : speciesShaped m) :
    ∀ c ∈ pairsR m, ¬ c = '\x7d' := by
  intro c hc
  unfold pairsR at hc
  rcases List.mem_append.mp hc with hc1 | hc2
  · rcases List.mem_append.mp hc1 with hc3 | hc4
    · rcases List.mem_append.mp hc3 with hc5 | hc6
      · exact (show ∀ x ∈ ".lvl = ".toList, ¬ x = '}' by decide) c hc5
      · exact isDigit_not_brace (natToChars_digits m.level c hc6)
    · exact (show ∀ x ∈ ",
        .species = ".toList, ¬ x = '}' by decide) c hc4
  · rw [speciesShaped_decomp hm] at hc2
    rcases List.mem_append.mp hc2 with hc7 | hc8
    · exact (show ∀ x ∈ "SPECIES_".toList, ¬ x = '}' by decide) c hc7
    · exact isCapDigit_not_brace (hm.2.2 c hc8)

theorem NoCloseAt_innerFull : ∀ (ms : List PartyMon), (∀ m ∈ ms, speciesShaped m) →
    ∀ b, NoCloseAt b (innerFull ms) := by
  intro ms
  induction ms with
  | nil =>
    intro _ b p q hpq hq
    exact absurd ((List.append_eq_nil.mp hpq.symm).2) hq
  | cons m ms' ih =>
    intro hsh b
    show NoCloseAt b ("    \x7b\n        ".toList ++ (pairsR m
      ++ (",\n    \x7d,\n".toList ++ innerFull ms')))
    refine NoCloseAt_append (NoCloseAt_no_brace _ (by decide) _) ?_
    refine NoCloseAt_append (NoCloseAt_no_brace _
      (pairsR_no_brace m (hsh m (List.mem_cons_self m ms'))) _) ?_
    refine NoCloseAt_append (NoCloseAt_of_lit _ (by decide) (by decide) _) ?_
    exact ih (fun x hx => hsh x (List.mem_cons_of_mem m hx)) b

/-- The regenerated member text never contains the record closer. -/
theorem NoCloseAt_member (mons : List PartyMon) (hsh : ∀ m ∈ mons, speciesShaped m)
    (b : List Char) : NoCloseAt b ('\n' :: memberTextF mons) := by
  have hsplit : '\n' :: memberTextF mons = ['\n'] ++ innerFull mons := by
    rw [memberTextF_innerFull]
    rfl
  rw [hsplit]
  exact NoCloseAt_append (NoCloseAt_no_brace _ (by decide) _) (NoCloseAt_innerFull mons hsh b)

/-- Claim C9 (amended): for a party file whose target roster has an existing
array declaration (a header line matching the writer's pattern, with a first
"\x7d;" closer line after it), a roster name of the writer's `sParty_\w+`
shape, a word struct type, and a non-empty member list all of whose species
match `SPECIES_[A-Z0-9_]+` in full, rewriting the party and re-reading the
file maps the roster name to exactly the given members, in order — provided
the text before the regenerated header is scan-well-formed (each candidate
declaration there either fails to match or is self-contained, so macros and
other rosters are allowed) and no declaration of the same roster name
follows the regenerated block (a later one would shadow it in the dict).
(As stated, over all member lists, the claim is false: claim9_counterexample.) -/
theorem claim9_party_roundtrip
    (plines preL bodyL postL : List (List Char)) (headerL closerL : List Char)
    (pname ptail st : List Char) (mons : List PartyMon) (newText : List Char)
    (hplines : plines = preL ++ headerL :: (bodyL ++ closerL :: postL))
    (hpreL : ∀ l ∈ preL, firstHit (patPartyStartAt pname) l = none)
    (hheader : ∃ pv, firstHit (patPartyStartAt pname) headerL = some pv)
    (hbodyL : ∀ l ∈ bodyL, closeSemi l = false)
    (hcloser : closeSemi closerL = true)
    (hpname : pname = "sParty_".toList ++ ptail)
    (hpt1 : ptail ≠ []) (hpt2 : ∀ c ∈ ptail, isWord c = true)
    (hst1 : st ≠ []) (hst2 : ∀ c ∈ st, isWord c = true)
    (hmons : mons ≠ []) (hshape : ∀ m ∈ mons, speciesShaped m)
    (hnew : newText = joinLines (rewriteTrainerParty plines pname mons (some st)))
    (hscan : ScanPre ("struct ".toList ++ (st ++ (' ' :: (("sParty_".toList ++ ptail)
        ++ ("[] = \x7b".toList ++ (('\n' :: memberTextF mons)
          ++ ("\x7d;\n".toList ++ joinLines postL))))))) (joinLines preL))
    (hpost : ∀ i, i < ('\n' :: joinLines postL).length → ∀ x,
      partyDeclAt (('\n' :: joinLines postL).drop i) = some x → ¬ x.1 = pname) :
    lookupLast (parseTrainerParties newText) pname = some mons := by
  subst hpname
  obtain ⟨pv, hh⟩ := hheader
  have hrw : rewriteTrainerParty plines ("sParty_".toList ++ ptail) mons (some st)
      = preL ++ newPartyBlock st ("sParty_".toList ++ ptail) mons ++ postL := by
    rw [hplines]
    exact rewriteTrainerParty_eq preL bodyL postL headerL closerL
      ("sParty_".toList ++ ptail) mons st pv hpreL hh hbodyL hcloser
  have hNTE : newText = joinLines preL
      ++ ("struct ".toList ++ (st ++ (' ' :: (("sParty_".toList ++ ptail)
        ++ ("[] = \x7b".toList ++ (('\n' :: memberTextF mons)
          ++ ("\x7d;\n".toList ++ joinLines postL))))))) := by
    rw [hnew, hrw, joinLines_rewrite]
    rw [show "[] = \x7b\n".toList = "[] = \x7b".toList ++ ['\n'] by decide]
    simp [List.append_assoc, List.cons_append]
  have hbsplit : "\x7d;\n".toList ++ joinLines postL
      = "\x7d;".toList ++ ('\n' :: joinLines postL) :=
    appendSplit (show "\x7d;\n".toList = "\x7d;".toList ++ "\n".toList by decide) _
  have hsb : startsL ("\x7d;".toList) ("\x7d;\n".toList ++ joinLines postL) = true := by
    rw [startsL_iff]
    exact ⟨'\n' :: joinLines postL, hbsplit⟩
  have hlz : lazyUptoCloseSemi (('\n' :: memberTextF mons)
      ++ ("\x7d;\n".toList ++ joinLines postL))
      = some ('\n' :: memberTextF mons, '\n' :: joinLines postL) :=
    lazyUpto_pos ('\n' :: memberTextF mons) ("\x7d;\n".toList ++ joinLines postL)
      (NoCloseAt_member mons hshape ("\x7d;\n".toList ++ joinLines postL)) hsb
  have hpdE : partyDeclAt ("struct ".toList ++ (st ++ (' ' :: (("sParty_".toList ++ ptail)
        ++ ("[] = \x7b".toList ++ (('\n' :: memberTextF mons)
          ++ ("\x7d;\n".toList ++ joinLines postL)))))))
      = some ("sParty_".toList ++ ptail, '\n' :: memberTextF mons,
          '\n' :: joinLines postL) := by
    rw [partyDeclAt_gen st ptail _ hst1 hst2 hpt1 hpt2, hlz]
    rfl
  obtain ⟨m0, ms0, hm⟩ : ∃ m0 ms0, mons = m0 :: ms0 := by
    cases mons with
    | nil => exact absurd rfl hmons
    | cons a b => exact ⟨a, b, rfl⟩
  have hroster : findPairs (pyStrip ('\n' :: memberTextF mons)).length
      (pyStrip ('\n' :: memberTextF mons)) = mons := by
    rw [hm, stripBody m0 ms0]
    have hfp := findPairs_scan (m0 :: ms0)
      (fun m hmem => hshape m (by rw [hm]; exact hmem))
      ("\x7b\n        ".toList) (by decide) 0
    rw [Nat.add_zero] at hfp
    exact hfp
  rw [hNTE]
  unfold parseTrainerParties
  generalize hM : findMacros (joinLines preL
      ++ ("struct ".toList ++ (st ++ (' ' :: (("sParty_".toList ++ ptail)
        ++ ("[] = \x7b".toList ++ (('\n' :: memberTextF mons)
          ++ ("\x7d;\n".toList ++ joinLines postL)))))))).length
      (joinLines preL
      ++ ("struct ".toList ++ (st ++ (' ' :: (("sParty_".toList ++ ptail)
        ++ ("[] = \x7b".toList ++ (('\n' :: memberTextF mons)
          ++ ("\x7d;\n".toList ++ joinLines postL)))))))) = M
  obtain ⟨es, hes⟩ := findParties_pre M _ (joinLines preL) hscan
  rw [hes _ (le_refl _)]
  have hEcons : "struct ".toList ++ (st ++ (' ' :: (("sParty_".toList ++ ptail)
        ++ ("[] = \x7b".toList ++ (('\n' :: memberTextF mons)
          ++ ("\x7d;\n".toList ++ joinLines postL))))))
      = 's' :: ("truct ".toList ++ (st ++ (' ' :: (("sParty_".toList ++ ptail)
        ++ ("[] = \x7b".toList ++ (('\n' :: memberTextF mons)
          ++ ("\x7d;\n".toList ++ joinLines postL))))))) := rfl
  rw [hEcons] at hpdE
  rw [hEcons, List.length_cons,
    findParties_cons_some M _ 's' _ _ _ _ hpdE]
  have hkeys : ∀ e ∈ M, ¬ e.1 = pyStrip ('\n' :: memberTextF mons) := by
    intro e he heq
    rw [← hM] at he
    obtain ⟨c, cs, hc1, hcw⟩ := findMacros_keys _ _ e he
    have hceq : c :: cs = pyStrip ('\n' :: memberTextF mons) := by
      rw [← hc1]
      exact heq
    rw [hm, stripBody m0 ms0] at hceq
    have hhd : some c = some '\x7b' := congrArg List.head? hceq
    injection hhd with hhd
    rw [hhd] at hcw
    exact absurd hcw (by decide)
  have hlookA : lookupLast M (pyStrip ('\n' :: memberTextF mons)) = none :=
    lookupLast_none_of_keys M _ hkeys
  have hentry : (match lookupLast M (pyStrip ('\n' :: memberTextF mons)) with
      | some ms => ms
      | none => findPairs (pyStrip ('\n' :: memberTextF mons)).length
          (pyStrip ('\n' :: memberTextF mons))) = mons := by
    rw [hlookA]
    show findPairs (pyStrip ('\n' :: memberTextF mons)).length
      (pyStrip ('\n' :: memberTextF mons)) = mons
    exact hroster
  rw [hentry]
  have hpost' : ∀ i x, partyDeclAt (('\n' :: joinLines postL).drop i) = some x →
      ¬ x.1 = "sParty_".toList ++ ptail := by
    intro i x hx
    by_cases hi : i < ('\n' :: joinLines postL).length
    · exact hpost i hi x hx
    · exfalso
      push_neg at hi
      rw [List.drop_eq_nil_of_le hi] at hx
      exact Option.noConfusion
        (show (none : Option (List Char × List Char × List Char)) = some x from hx)
  have hkeysPost := findParties_names M ("sParty_".toList ++ ptail)
    ("truct ".toList ++ (st ++ (' ' :: (("sParty_".toList ++ ptail)
      ++ ("[] = \x7b".toList ++ (('\n' :: memberTextF mons)
        ++ ("\x7d;\n".toList ++ joinLines postL))))))).length
    ('\n' :: joinLines postL) hpost'
  unfold lookupLast
  rw [List.foldl_append]
  show (findParties M ("truct ".toList ++ (st ++ (' ' :: (("sParty_".toList ++ ptail)
      ++ ("[] = \x7b".toList ++ (('\n' :: memberTextF mons)
        ++ ("\x7d;\n".toList ++ joinLines postL))))))).length
      ('\n' :: joinLines postL)).foldl
    (fun acc p => if p.1 = "sParty_".toList ++ ptail then some p.2 else acc)
    (if "sParty_".toList ++ ptail = "sParty_".toList ++ ptail then some mons
      else (es.foldl
        (fun acc p => if p.1 = "sParty_".toList ++ ptail then some p.2 else acc) none))
    = some mons
  rw [if_pos rfl]
  exact foldl_lookup_ne ("sParty_".toList ++ ptail) _ (some mons) hkeysPost
/-- The amended C9 round trip at a concrete party file holding a macro, a
second roster before the target and a third roster after it. -/
theorem claim9_witness :
    lookupLast (parseTrainerParties (joinLines (rewriteTrainerParty
        (["#define PARTY_X \\\n".toList,
          "    \x7b .lvl = 4, .species = SPECIES_EKANS \x7d\n".toList,
          "\n".toList,
          "struct TrainerMonNoItemDefaultMoves sParty_B[] = \x7b\n".toList,
          "    PARTY_X\n".toList,
          "\x7d;\n".toList,
          "\n".toList]
        ++ "struct TrainerMonItemDefaultMoves sParty_A[] = \x7b\n".toList
        :: (["    \x7b .lvl = 7, .species = SPECIES_PIDGEY \x7d,\n".toList]
          ++ "\x7d;\n".toList
          :: ["\n".toList,
            "struct TrainerMonNoItemDefaultMoves sParty_C[] = \x7b\n".toList,
            "    PARTY_X\n".toList,
            "\x7d;\n".toList]))
        ("sParty_A".toList)
        [⟨7, "SPECIES_MEW".toList⟩, ⟨10, "SPECIES_DITTO".toList⟩]
        (some ("TrainerMonItemCustomMoves".toList)))))
      ("sParty_A".toList)
    = some [⟨7, "SPECIES_MEW".toList⟩, ⟨10, "SPECIES_DITTO".toList⟩] :=
  claim9_party_roundtrip
    (["#define PARTY_X \\\n".toList,
      "    \x7b .lvl = 4, .species = SPECIES_EKANS \x7d\n".toList,
      "\n".toList,
      "struct TrainerMonNoItemDefaultMoves sParty_B[] = \x7b\n".toList,
      "    PARTY_X\n".toList,
      "\x7d;\n".toList,
      "\n".toList]
    ++ "struct TrainerMonItemDefaultMoves sParty_A[] = \x7b\n".toList
    :: (["    \x7b .lvl = 7, .species = SPECIES_PIDGEY \x7d,\n".toList]
      ++ "\x7d;\n".toList
      :: ["\n".toList,
        "struct TrainerMonNoItemDefaultMoves sParty_C[] = \x7b\n".toList,
        "    PARTY_X\n".toList,
        "\x7d;\n".toList]))
    ["#define PARTY_X \\\n".toList,
      "    \x7b .lvl = 4, .species = SPECIES_EKANS \x7d\n".toList,
      "\n".toList,
      "struct TrainerMonNoItemDefaultMoves sParty_B[] = \x7b\n".toList,
      "    PARTY_X\n".toList,
      "\x7d;\n".toList,
      "\n".toList]
    ["    \x7b .lvl = 7, .species = SPECIES_PIDGEY \x7d,\n".toList]
    ["\n".toList,
      "struct TrainerMonNoItemDefaultMoves sParty_C[] = \x7b\n".toList,
      "    PARTY_X\n".toList,
      "\x7d;\n".toList]
    ("struct TrainerMonItemDefaultMoves sParty_A[] = \x7b\n".toList)
    ("\x7d;\n".toList)
    ("sParty_A".toList) ("A".toList) ("TrainerMonItemCustomMoves".toList)
    [⟨7, "SPECIES_MEW".toList⟩, ⟨10, "SPECIES_DITTO".toList⟩]
    (joinLines (rewriteTrainerParty
      (["#define PARTY_X \\\n".toList,
        "    \x7b .lvl = 4, .species = SPECIES_EKANS \x7d\n".toList,
        "\n".toList,
        "struct TrainerMonNoItemDefaultMoves sParty_B[] = \x7b\n".toList,
        "    PARTY_X\n".toList,
        "\x7d;\n".toList,
        "\n".toList]
      ++ "struct TrainerMonItemDefaultMoves sParty_A[] = \x7b\n".toList
      :: (["    \x7b .lvl = 7, .species = SPECIES_PIDGEY \x7d,\n".toList]
        ++ "\x7d;\n".toList
        :: ["\n".toList,
          "struct TrainerMonNoItemDefaultMoves sParty_C[] = \x7b\n".toList,
          "    PARTY_X\n".toList,
          "\x7d;\n".toList]))
      ("sParty_A".toList)
      [⟨7, "SPECIES_MEW".toList⟩, ⟨10, "SPECIES_DITTO".toList⟩]
      (some ("TrainerMonItemCustomMoves".toList))))
    rfl
    (by decide)
    ⟨([], "TrainerMonItemDefaultMoves".toList), by decide⟩
    (by decide)
    (by decide)
    (by decide)
    (by decide)
    (by decide)
    (by decide)
    (by decide)
    (by decide)
    (by decide)
    rfl
    (by
      rw [show joinLines ["#define PARTY_X \\\n".toList,
          "    \x7b .lvl = 4, .species = SPECIES_EKANS \x7d\n".toList,
          "\n".toList,
          "struct TrainerMonNoItemDefaultMoves sParty_B[] = \x7b\n".toList,
          "    PARTY_X\n".toList,
          "\x7d;\n".toList,
          "\n".toList]
        = "#define PARTY_X \\\n    \x7b .lvl = 4, .species = SPECIES_EKANS \x7d\n\n".toList
          ++ ("struct TrainerMonNoItemDefaultMoves sParty_B[] = \x7b\n    PARTY_X\n\x7d;".toList
            ++ "\n\n".toList) from by decide]
      exact ScanPre_append _
        (ScanPre_of_junk _ _ (by decide))
        (ScanPre.decl _ _ ("sParty_B".toList) ("\n    PARTY_X\n".toList)
          (by decide) (by decide) (ScanPre_of_junk _ _ (by decide))))
    (by decide)

end TrainerEditor
